import Mathlib

/-!
Verification of the SBN (Subsplit Bayesian Network) core of libsbn.

This file gives a shallow embedding of the SBN-related parts of the
repository: the bitset codec for clades / subsplits / PCSS keys, the
topology data structure (`node.cpp`), the rootsplit and PCSS counters
(`build.cpp`), the indexer construction and the SBN-instance operations
(`libsbn.cpp` / `sbn_instance.hpp`), and the ratio-gradient self check
(`fat_beagle.cpp`).  Bitsets are modelled as `List Bool`, machine doubles
as `ℚ` (only ever used with ring operations and comparisons here), and
fallible operations return `Except String`.

Parts of the repository that are referenced but whose implementation is
not part of the source snapshot (the `Bitset` class internals,
`SBNMaps::IndexerRepresentationOf`, `TreeCollection::TopologyCounter`,
`SBNProbability`) are modelled from the specification; each such
definition is marked `Modelled from the spec:` in its doc comment.
-/

namespace SBN

/-! ## Bitsets

The C++ `Bitset` class (clades of length n, subsplits of length 2n, PCSS
keys of length 3n) is modelled as a `List Bool`; bit `i` of the bitset is
element `i` of the list.  The class implementation (`bitset.cpp`) is not
part of the source snapshot, so its operations are modelled from the
specification and from their observable use in `build.cpp`.
-/

/-- A bitset is a fixed-length vector of bits; bit `i` is element `i`. -/
abbrev Bitset := List Bool

/-- The all-zero bitset of length `n` (the `Bitset(n)` constructor). -/
def zeroBits (n : ℕ) : Bitset := List.replicate n false

/-- Bitset with exactly bit `i` set (`x.set(i)` applied to a zero bitset). -/
def unitBit (n i : ℕ) : Bitset := (List.range n).map (fun j => decide (j = i))

/-- Bitwise or (`operator|=`). -/
def bor (a b : Bitset) : Bitset := List.zipWith or a b

/-- Bitwise complement (`operator~` / `flip()`). -/
def bnot (a : Bitset) : Bitset := a.map (!·)

/-- Test bit `i`; out-of-range bits read as false. -/
def tb (a : Bitset) (i : ℕ) : Bool := a.getD i false

/-- Modelled from the spec: bit-lexicographic strict order on bitsets
(`Bitset::operator<`, "Equality and ordering ... are defined
bit-lexicographically"), with `false < true`. -/
def bitLt : Bitset → Bitset → Bool
  | _, [] => false
  | [], _ :: _ => true
  | a :: as, b :: bs => (!a && b) || (a == b && bitLt as bs)

/-- The smaller of two bitsets in bit-lexicographic order
(`std::min(child0, child1)` in `build.cpp`). -/
def bmin (a b : Bitset) : Bitset := if bitLt b a then b else a

/-- Modelled from the spec: canonical rootsplit form
(`Bitset::Minorize`), which "picks a fixed orientation (e.g., the chunk
not containing taxon 0)": if bit 0 is set the bitset is flipped. -/
def minorize (a : Bitset) : Bitset := if tb a 0 then bnot a else a

/-! ## Topologies

The `Node` class of `node.cpp`, stripped to what the SBN core observes: a
tree is either a leaf carrying a leaf id or an internal node carrying a
list of children.  The id/index bookkeeping of `Reindex` plays no role in
the claims below and is omitted; tags and hashes are computed from the
structure exactly as the `Node` constructors do.
-/

/-- A tree topology (the `Node` class). -/
inductive NodeT where
  | leaf (id : ℕ)
  | internal (children : List NodeT)

namespace NodeT

/-- The children of a node (`Node::Children`); a leaf has none. -/
def children : NodeT → List NodeT
  | leaf _ => []
  | internal cs => cs

mutual

/-- Number of leaves below a node (`Node::LeafCount`). -/
def leafCount : NodeT → ℕ
  | leaf _ => 1
  | internal cs => leafCountList cs

/-- Sum of the leaf counts of a list of nodes (the accumulation loop of
the internal-node constructor). -/
def leafCountList : List NodeT → ℕ
  | [] => 0
  | c :: rest => leafCount c + leafCountList rest

end

mutual

/-- Largest leaf id below a node (`Node::MaxLeafID`). -/
def maxLeafID : NodeT → ℕ
  | leaf i => i
  | internal cs => maxLeafIDList cs

/-- Largest leaf id over a list of nodes. -/
def maxLeafIDList : List NodeT → ℕ
  | [] => 0
  | c :: rest => max (maxLeafID c) (maxLeafIDList rest)

end

mutual

/-- The leaf ids below a node, in left-to-right order. -/
def leafList : NodeT → List ℕ
  | leaf i => [i]
  | internal cs => leafListList cs

/-- Concatenated leaf ids of a list of nodes. -/
def leafListList : List NodeT → List ℕ
  | [] => []
  | c :: rest => leafList c ++ leafListList rest

end

mutual

/-- The nodes of the subtree in pre-order (`Node::PreOrder` visit list). -/
def preOrder : NodeT → List NodeT
  | leaf i => [leaf i]
  | internal cs => internal cs :: preOrderList cs

/-- Concatenated pre-orders of a list of nodes. -/
def preOrderList : List NodeT → List NodeT
  | [] => []
  | c :: rest => preOrder c ++ preOrderList rest

end

mutual

/-- The subtree clade bitset on `n` taxa, as computed bottom-up by
`TagBitsetMapOf` in `build.cpp`: a leaf sets its own bit, an internal
node takes the union of its children's clades. -/
def cladeOf (n : ℕ) : NodeT → Bitset
  | leaf i => unitBit n i
  | internal cs => cladeFold n (zeroBits n) cs

/-- The `x |= m.at(child->Tag())` loop of `TagBitsetMapOf`. -/
def cladeFold (n : ℕ) (acc : Bitset) : List NodeT → Bitset
  | [] => acc
  | c :: rest => cladeFold n (bor acc (cladeOf n c)) rest

end

/-- Binary below: every internal node of the subtree has exactly two
children (asserted throughout `node.cpp` traversals). -/
def isBinary : NodeT → Bool
  | leaf _ => true
  | internal [c0, c1] => isBinary c0 && isBinary c1
  | internal _ => false

/-- The shape `PCSSCounterOf` insists on: a trifurcation at the root,
binary below (an unrooted tree). -/
def isTrifurcating : NodeT → Bool
  | internal [a, b, c] => isBinary a && isBinary b && isBinary c
  | _ => false

/-! ### Tags, hashes and canonical child ordering (`node.cpp`) -/

/-- `Node::SOHash`: the 32-bit integer hash used for leaves.  All
arithmetic is on `uint32_t`, modelled with explicit `% 2 ^ 32`. -/
def soHash (x : ℕ) : ℕ :=
  let x1 := ((x >>> 16) ^^^ x) * 0x45d9f3b % 2 ^ 32
  let x2 := ((x1 >>> 16) ^^^ x1) * 0x45d9f3b % 2 ^ 32
  ((x2 >>> 16) ^^^ x2) % 2 ^ 32

/-- `Node::SORotate`: left-rotation of a 64-bit word by `c` bits,
`(n << c) | (n >> ((-c) & mask))` with `mask = 63`. -/
def soRotate (x c : ℕ) : ℕ :=
  let c' := c % 64
  ((x <<< c') % 2 ^ 64) ||| (x >>> ((64 - c') % 64))

/-- `PackInts` from `sugar.hpp`: two `uint32_t` values packed into one
`uint64_t`, high word first.  The implementation file is not in the
snapshot; the packing is the standard `(a << 32) | b` its uses imply. -/
def packInts (a b : ℕ) : ℕ := (a % 2 ^ 32) * 2 ^ 32 + (b % 2 ^ 32)

/-- The tag of a node, `PackInts(max leaf id, leaf count)` as stored by
both `Node` constructors. -/
def tagOf (t : NodeT) : ℕ := packInts (maxLeafID t) (leafCount t)

mutual

/-- The hash of a node as computed by the `Node` constructors: a leaf
hashes its id with `SOHash`; an internal node xors the children's hashes
and rotates by one bit. -/
def hashOf : NodeT → ℕ
  | leaf i => soHash i
  | internal cs => soRotate (hashXorList 0 cs) 1

/-- The `hash_ ^= child->Hash()` loop of the internal-node constructor. -/
def hashXorList (acc : ℕ) : List NodeT → ℕ
  | [] => acc
  | c :: rest => hashXorList (acc ^^^ hashOf c) rest

end

/-- Child ordering used by the internal-node constructor: compare by max
leaf id (`std::sort` with `lhs->MaxLeafID() < rhs->MaxLeafID()`; the
constructor aborts on ties, so on the inputs it accepts any sorted order
is unique and a stable insertion sort computes it). -/
def childLe (a b : NodeT) : Prop := maxLeafID a ≤ maxLeafID b

instance childLe.decRel : DecidableRel childLe := fun _ _ => Nat.decLe _ _

instance childLe.isTotal : IsTotal NodeT childLe := ⟨fun _ _ => Nat.le_total _ _⟩

instance childLe.isTrans : IsTrans NodeT childLe := ⟨fun _ _ _ => Nat.le_trans⟩

/-- The internal-node constructor `Node::Node(NodePtrVec, size_t)`:
children are sorted by max leaf id before being stored. -/
def join (cs : List NodeT) : NodeT := internal (List.insertionSort childLe cs)

mutual

/-- Structural equality `Node::operator==`: equal hashes, equal child
counts, and pairwise structurally equal children. -/
def nodeEq : NodeT → NodeT → Bool
  | leaf i, b => (hashOf (leaf i) == hashOf b) && (children b).isEmpty
  | internal cs, b => (hashOf (internal cs) == hashOf b) && nodeEqChildren cs (children b)

/-- Helper of `nodeEq`: the child loop of `Node::operator==`, including
the child-count comparison. -/
def nodeEqChildren : List NodeT → List NodeT → Bool
  | [], [] => true
  | x :: xs, y :: ys => nodeEq x y && nodeEqChildren xs ys
  | _, _ => false

end

end NodeT

/-! ## The topology counter

`TreeCollection::TopologyCounter` itself is not in the source snapshot
(only its declaration and its doctest are). -/

/-- One step of counting a topology: find an entry that is structurally
equal (`Node::operator==`) and bump it, else append a fresh entry. -/
def counterIncr (t : NodeT) : List (NodeT × ℕ) → List (NodeT × ℕ)
  | [] => [(t, 1)]
  | (k, v) :: rest =>
      if NodeT.nodeEq k t then (k, v + 1) :: rest else (k, v) :: counterIncr t rest

/-- Modelled from the spec: `TreeCollection::TopologyCounter`, a "mapping
from distinct topology (by structural equality, not object identity) to a
positive integer multiplicity" over the collection's trees. -/
def topologyCounterOf (ts : List NodeT) : List (NodeT × ℕ) :=
  ts.foldl (fun acc t => counterIncr t acc) []

/-! ## Rootsplit and PCSS counters (`build.cpp`)

`BitsetUInt32Dict` and `PCSSDict` are hash maps; they are modelled as
association lists in insertion order (the C++ iteration order of an
`unordered_map` is unspecified; every property proved below is
insensitive to which fixed order the model realises).
-/

/-- `BitsetUInt32Dict::increment(key, count)`: add `count` to the entry
of `key`, inserting it (with previous value 0) if absent. -/
def dictIncr (k : Bitset) (c : ℕ) : List (Bitset × ℕ) → List (Bitset × ℕ)
  | [] => [(k, c)]
  | (k', v) :: rest => if k' = k then (k', v + c) :: rest else (k', v) :: dictIncr k c rest

/-- The rootsplits one topology contributes in `RootsplitCounterOf`: for
every node below the root (pre-order within each root child), the
minorized subtree clade. -/
def rootsplitsOfTopology (t : NodeT) : List Bitset :=
  ((NodeT.children t).flatMap NodeT.preOrder).map
    (fun v => minorize (NodeT.cladeOf (NodeT.leafCount t) v))

/-- `RootsplitCounterOf` from `build.cpp`: accumulate, over the topology
counter, each topology's rootsplits weighted by its multiplicity. -/
def rootsplitCounterOf (tc : List (NodeT × ℕ)) : List (Bitset × ℕ) :=
  tc.foldl (fun acc p => (rootsplitsOfTopology p.1).foldl (fun acc k => dictIncr k p.2 acc) acc) []

/-- The argument pack of one `PCSSFun` call in `Node::PCSSPreOrder`:
four (node, direction) pairs for sister, focal, child 0 and child 1. -/
structure PCSSArgs where
  sister : NodeT
  sisterDir : Bool
  focal : NodeT
  focalDir : Bool
  child0 : NodeT
  child0Dir : Bool
  child1 : NodeT
  child1Dir : Bool

/-- The `f_root` lambda of `Node::PCSSPreOrder`: emissions for one
rotation `(node0, node1, node2)` of the root trifurcation. -/
def fRoot (node0 node1 node2 : NodeT) : List PCSSArgs :=
  ⟨node2, false, node2, true, node0, false, node1, false⟩ ::
  (match node2 with
   | NodeT.internal [ch0, ch1] =>
      [⟨node0, false, node2, false, ch0, false, ch1, false⟩,
       ⟨node1, false, node2, false, ch0, false, ch1, false⟩,
       ⟨node2, true, node2, false, ch0, false, ch1, false⟩,
       ⟨ch1, false, node2, true, node0, false, node1, false⟩,
       ⟨ch0, false, node2, true, node0, false, node1, false⟩]
   | _ => [])

/-- The `f_internal` lambda of `Node::PCSSPreOrder`: emissions for one
`(parent, sister, node)` triple of `TriplePreOrderInternal`. -/
def fInternal (parent sister node : NodeT) : List PCSSArgs :=
  ⟨node, false, node, true, parent, true, sister, false⟩ ::
  (match node with
   | NodeT.internal [ch0, ch1] =>
      [⟨sister, false, node, false, ch0, false, ch1, false⟩,
       ⟨parent, true, node, false, ch0, false, ch1, false⟩,
       ⟨node, true, node, false, ch0, false, ch1, false⟩,
       ⟨ch1, false, node, true, sister, false, parent, true⟩,
       ⟨ch0, false, node, true, sister, false, parent, true⟩]
   | _ => [])

/-- `Node::TriplePreOrderInternal` with `f_internal` inlined: visit the
two (parent, sister, child) orientations of every internal node of a
binary subtree, in traversal order. -/
def pcssTPI : NodeT → List PCSSArgs
  | NodeT.internal [c0, c1] =>
      fInternal (NodeT.internal [c0, c1]) c1 c0 ++ pcssTPI c0 ++
        (fInternal (NodeT.internal [c0, c1]) c0 c1 ++ pcssTPI c1)
  | _ => []

/-- `Node::PCSSPreOrder` (via `TriplePreOrder`): the three rotations of
the root trifurcation through `f_root`, then each root subtree through
`TriplePreOrderInternal` with `f_internal`. -/
def pcssPreOrder : NodeT → List PCSSArgs
  | NodeT.internal [a, b, c] =>
      fRoot a b c ++ fRoot b c a ++ fRoot c a b ++
        (pcssTPI a ++ pcssTPI b ++ pcssTPI c)
  | _ => []

/-- A clade chunk as copied into a PCSS bitset by `Bitset::CopyFrom`
with a direction flag: the subtree clade, flipped if the flag is set. -/
def dirClade (n : ℕ) (v : NodeT) (d : Bool) : Bitset :=
  if d then bnot (NodeT.cladeOf n v) else NodeT.cladeOf n v

/-- The (parent, child) bitset pair built by the `PCSSCounterOf` lambda
from one `PCSSPreOrder` emission: sister chunk and focal chunk
concatenated (the `CopyFrom` calls at offsets 0 and `leaf_count`), and
the lexicographic minimum of the two child chunks. -/
def pcssKeyOf (n : ℕ) (e : PCSSArgs) : Bitset × Bitset :=
  (dirClade n e.sister e.sisterDir ++ dirClade n e.focal e.focalDir,
   bmin (dirClade n e.child0 e.child0Dir) (dirClade n e.child1 e.child1Dir))

/-- `PCSSDict` insertion: add `count` to `child` under `parent`, creating
the singleton child dictionary on first sight of the parent. -/
def pcssDictIncr (parent child : Bitset) (c : ℕ) :
    List (Bitset × List (Bitset × ℕ)) → List (Bitset × List (Bitset × ℕ))
  | [] => [(parent, [(child, c)])]
  | (p, cd) :: rest =>
      if p = parent then (p, dictIncr child c cd) :: rest
      else (p, cd) :: pcssDictIncr parent child c rest

/-- The PCSS (parent, child) keys one topology contributes, in emission
order. -/
def pcssPairsOfTopology (t : NodeT) : List (Bitset × Bitset) :=
  (pcssPreOrder t).map (pcssKeyOf (NodeT.leafCount t))

/-- `PCSSCounterOf` from `build.cpp`: accumulate, over the topology
counter, each topology's PCSS pairs weighted by its multiplicity. -/
def pcssCounterOf (tc : List (NodeT × ℕ)) : List (Bitset × List (Bitset × ℕ)) :=
  tc.foldl (fun acc p =>
    (pcssPairsOfTopology p.1).foldl (fun acc kc => pcssDictIncr kc.1 kc.2 p.2 acc) acc) []

/-! ## Rooted views of an unrooted topology

`SBNMaps::IndexerRepresentationOf` (in `sbn_maps.cpp`) is not in the
source snapshot — only its callers and its golden doctest are — so the
enumeration of rooted views is modelled from the specification (§4.2):
"produce, for each of the 2·(leaf count)−3 edges, the ordered list of
(rootsplit-or-PCSS) keys that describe the tree as if rooted at that
edge".  An edge is identified by its lower endpoint; rerooting hangs the
rest of the tree next to that endpoint.
-/

/-- Modelled from the spec: all virtual rootings within a subtree `v`
whose surroundings have been gathered into the tree `above`: each pair is
(subtree below the rooting edge, tree hanging above it). -/
def viewsAux (above : NodeT) (v : NodeT) : List (NodeT × NodeT) :=
  (v, above) ::
  (match v with
   | NodeT.internal [c0, c1] =>
      viewsAux (NodeT.internal [c1, above]) c0 ++ viewsAux (NodeT.internal [c0, above]) c1
   | _ => [])

/-- Modelled from the spec: one virtual rooting per edge of the unrooted
(trifurcating-root) topology, an edge being identified by its lower
endpoint. -/
def virtualRootings : NodeT → List (NodeT × NodeT)
  | NodeT.internal [a, b, c] =>
      viewsAux (NodeT.internal [b, c]) a ++
        (viewsAux (NodeT.internal [c, a]) b ++ viewsAux (NodeT.internal [a, b]) c)
  | _ => []

/-- Modelled from the spec: the PCSS keys of the internal edges of a
rooted subtree, given the clade chunk of its sister; parent chunks are
sister-then-focal, the child chunk is the lexicographically smaller child
clade, exactly the canonical form `PCSSCounterOf` builds. -/
def pcssKeysBelow (n : ℕ) (sisterChunk : Bitset) : NodeT → List Bitset
  | NodeT.internal [c0, c1] =>
      ((sisterChunk ++ NodeT.cladeOf n (NodeT.internal [c0, c1])) ++
        bmin (NodeT.cladeOf n c0) (NodeT.cladeOf n c1)) ::
      (pcssKeysBelow n (NodeT.cladeOf n c1) c0 ++ pcssKeysBelow n (NodeT.cladeOf n c0) c1)
  | _ => []

/-- Modelled from the spec: the ordered key list of one rooted view of a
topology rooted by a bifurcation: the (minorized) rootsplit of the root
edge followed by the PCSS keys of all internal edges. -/
def rootedKeys (n : ℕ) : NodeT → List Bitset
  | NodeT.internal [x, y] =>
      minorize (NodeT.cladeOf n x) ::
        (pcssKeysBelow n (NodeT.cladeOf n y) x ++ pcssKeysBelow n (NodeT.cladeOf n x) y)
  | _ => []

/-- Modelled from the spec: the sequence of rooted views of an unrooted
topology, one per virtual rooting. -/
def rootedViews (n : ℕ) (t : NodeT) : List (List Bitset) :=
  (virtualRootings t).map (fun p => rootedKeys n (NodeT.internal [p.1, p.2]))

/-! ## The SBN instance (`libsbn.cpp` / `libsbn.hpp`) -/

/-- A tree of the collection: a topology plus its branch lengths (the
`Tree` class). -/
structure TreeT where
  topology : NodeT
  branchLengths : List ℚ

/-- The state of an `SBNInstance` that the SBN core reads and writes:
the parameter vector, the SBN maps, the topology counter and the tree
collection.  `collectionTaxonNames` stands for
`tree_collection_.TaxonNames()`, fixed input data here. -/
structure SBNState where
  sbnParameters : List ℚ
  rootsplits : List Bitset
  indexer : List (Bitset × ℕ)
  indexToChild : List (ℕ × Bitset)
  parentToRange : List (Bitset × (ℕ × ℕ))
  topologyCounter : List (NodeT × ℕ)
  trees : List TreeT
  taxonNames : List String
  collectionTaxonNames : List String

/-- Bitwise and, used only by the modelled `ChildSubsplit`. -/
def band (a b : Bitset) : Bitset := List.zipWith and a b

/-- Modelled from the spec: `Bitset::ChildSubsplit(parent, child)` — the
subsplit of the child node, i.e. the focal chunk of `parent` split into
`child` and its complement within that chunk, "chunk with smaller
bit-pattern first". -/
def childSubsplit (parent child : Bitset) : Bitset :=
  let focal := parent.drop (parent.length / 2)
  let other := band focal (bnot child)
  if bitLt child other then child ++ other else other ++ child

/-- The rootsplit loop of `ProcessLoadedTrees`: each rootsplit key of the
counter receives the next index, starting from `i`. -/
def indexRootsplits : ℕ → List (Bitset × ℕ) → List (Bitset × ℕ)
  | _, [] => []
  | i, (k, _) :: rest => (k, i) :: indexRootsplits (i + 1) rest

/-- The inner child loop of `ProcessLoadedTrees`: each child of a parent
receives the next index; returns the indexer entries (keyed by
`parent + child`) and the `index_to_child_` entries. -/
def indexChildrenFrom (parent : Bitset) : ℕ → List (Bitset × ℕ) →
    List (Bitset × ℕ) × List (ℕ × Bitset)
  | _, [] => ([], [])
  | i, (child, _) :: rest =>
      let r := indexChildrenFrom parent (i + 1) rest
      ((parent ++ child, i) :: r.1, (i, childSubsplit parent child) :: r.2)

/-- The PCSS loop of `ProcessLoadedTrees`: for each parent of the PCSS
counter, record its contiguous range in `parent_to_range_` and index its
children; returns (indexer entries, parent ranges, `index_to_child_`
entries, final index). -/
def indexPCSSFrom : ℕ → List (Bitset × List (Bitset × ℕ)) →
    List (Bitset × ℕ) × List (Bitset × (ℕ × ℕ)) × List (ℕ × Bitset) × ℕ
  | i, [] => ([], [], [], i)
  | i, (parent, cd) :: rest =>
      let c := indexChildrenFrom parent i cd
      let r := indexPCSSFrom (i + cd.length) rest
      (c.1 ++ r.1, (parent, (i, i + cd.length)) :: r.2.1, c.2 ++ r.2.2.1, r.2.2.2)

/-- `SBNInstance::ProcessLoadedTrees` (`libsbn.cpp`): clear the
tree-collection-associated state, rebuild the topology counter, index
the rootsplits then the PCSSs parent block by parent block, resize the
parameter vector to the final index and set every entry to one. -/
def processLoadedTrees (s : SBNState) : SBNState :=
  let tc := topologyCounterOf (s.trees.map TreeT.topology)
  let rd := rootsplitCounterOf tc
  let pd := pcssCounterOf tc
  let ri := indexRootsplits 0 rd
  let pr := indexPCSSFrom rd.length pd
  { s with
    topologyCounter := tc
    rootsplits := rd.map Prod.fst
    indexer := ri ++ pr.1
    parentToRange := pr.2.1
    indexToChild := pr.2.2.1
    sbnParameters := List.replicate pr.2.2.2 1
    taxonNames := s.collectionTaxonNames }

/-- `SBNInstance::CheckSBNMapsAvailable`: fail unless all the SBN maps
are nonempty. -/
def checkSBNMapsAvailable (s : SBNState) : Except String Unit :=
  if s.indexer.isEmpty || s.indexToChild.isEmpty || s.parentToRange.isEmpty ||
      s.rootsplits.isEmpty || s.taxonNames.isEmpty then
    Except.error "Please call ProcessLoadedTrees to prepare your SBN maps."
  else Except.ok ()

/-- `SBNInstance::SampleIndex`: assert the range is nonempty and within
the parameter vector, then draw from the categorical distribution over
the (copied, normalized, exponentiated) parameter subrange — the draw is
modelled by the oracle `draw`, which `std::discrete_distribution`
guarantees to be less than the number of weights, `range.2 - range.1` —
and assert the shifted result is below the range's end.  The method is
`const`; the state is returned unchanged. -/
def sampleIndex (s : SBNState) (range : ℕ × ℕ) (draw : ℕ) : SBNState × Except String ℕ :=
  if range.1 < range.2 ∧ range.2 ≤ s.sbnParameters.length then
    let result := range.1 + draw
    if result < range.2 then (s, Except.ok result)
    else (s, Except.error "SampleIndex sampled a value out of range.")
  else (s, Except.error "SampleIndex given an invalid range.")

/-- Association-list lookup with a default, the behaviour of
`indexer_.at` guarded by presence (missing keys yield the default). -/
def lookupD : List (Bitset × ℕ) → Bitset → ℕ → ℕ
  | [], _, d => d
  | (k', v) :: rest, k, d => if k' = k then v else lookupD rest k d

/-- Modelled from the spec: `SBNMaps::IndexerRepresentationOf(indexer,
topology, default)` — every rooted view of the topology, each key mapped
through the indexer, "substituting the out-of-sample sentinel for missing
keys". -/
def indexerRepresentationOf (ixr : List (Bitset × ℕ)) (t : NodeT) (default : ℕ) :
    List (List ℕ) :=
  (rootedViews (NodeT.leafCount t) t).map (fun view => view.map (fun k => lookupD ixr k default))

/-- `SBNInstance::MakeIndexerRepresentations`: the indexer representation
of every tree in the collection, with `sbn_parameters_.size()` as the
out-of-sample sentinel. -/
def makeIndexerRepresentations (s : SBNState) : List (List (List ℕ)) :=
  s.trees.map (fun tr => indexerRepresentationOf s.indexer tr.topology s.sbnParameters.length)

/-- `SBNInstance::CalculateSBNProbabilities`: normalize a copy of the
parameter vector and score the indexer representations.
`SBNProbability::ProbabilityNormalizeParamsInLog` and
`SBNProbability::ProbabilityOf` live in `sbn_probability.cpp`, which is
not in the snapshot; they are taken as function arguments.  No member is
assigned, so the state is returned unchanged alongside the result. -/
def calculateSBNProbabilities
    (probabilityNormalizeParamsInLog : List ℚ → ℕ → List (Bitset × (ℕ × ℕ)) → List ℚ)
    (probabilityOf : List ℚ → List (List (List ℕ)) → List ℚ)
    (s : SBNState) : SBNState × List ℚ :=
  let sbnParametersCopy := s.sbnParameters
  let sbnParametersCopy :=
    probabilityNormalizeParamsInLog sbnParametersCopy s.rootsplits.length s.parentToRange
  (s, probabilityOf sbnParametersCopy (makeIndexerRepresentations s))

/-- `SBNInstance::SampleTrees`: require the SBN maps, clear the tree
collection, and fill it with `count` sampled topologies each carrying
`2 * leaf_count - 2` zero branch lengths (`leaf_count` read as
`rootsplits_[0].size()`).  The recursive `SampleTopology` draws are
modelled by the oracle `sample`. -/
def sampleTrees (s : SBNState) (count : ℕ) (sample : ℕ → NodeT) : Except String SBNState :=
  match checkSBNMapsAvailable s with
  | Except.error e => Except.error e
  | Except.ok _ =>
      let leafCnt := (s.rootsplits.headD []).length
      let edgeCount := 2 * leafCnt - 2
      Except.ok { s with
        trees := (List.range count).map (fun i => ⟨sample i, List.replicate edgeCount 0⟩) }

/-! ## The ratio-gradient self check (`fat_beagle.cpp`)

`FatBeagle::RatioGradient` and its helpers are pure arithmetic over a
rooted tree whose nodes carry ids (leaves `0..leaf_count-1`, internal
nodes above, the root last), heights, bounds, and the ratio / root-height
parameter vector.  The traversal orders (`BinaryIdPostOrder`,
`BinaryIdPreOrder`, `TripleIdPreOrderBifurcating` — the era's `Node`
sources are not in the snapshot) are carried as explicit visit lists in
the tree datum; `BranchLengthGradient` delegates to the external BEAGLE
engine and is an input vector here.  Doubles are modelled as `ℚ`.
-/

/-- The id-level data of a `RootedTree` as `FatBeagle::RatioGradient`
reads it. -/
structure RootedTreeIds where
  leafCount : ℕ
  parameters : List ℚ
  nodeHeights : List ℚ
  nodeBounds : List ℚ
  postOrderInternal : List (ℕ × ℕ × ℕ)
  preOrderInternalBin : List (ℕ × ℕ × ℕ)
  preOrderTriples : List (ℕ × ℕ × ℕ)

/-- `HeightGradient`: fold the branch gradient into per-height entries
over the `BinaryIdPreOrder` visit list. -/
def heightGradientOf (tr : RootedTreeIds) (rootId : ℕ) (bg : List ℚ) : List ℚ :=
  tr.preOrderInternalBin.foldl (fun hg t =>
    let i := t.1 - tr.leafCount
    let hg1 := if t.1 ≠ rootId then hg.set i (-(bg.getD t.1 0)) else hg
    let hg2 := if tr.leafCount ≤ t.2.1 then hg1.set i (hg1.getD i 0 + bg.getD t.2.1 0) else hg1
    if tr.leafCount ≤ t.2.2 then hg2.set i (hg2.getD i 0 + bg.getD t.2.2 0) else hg2)
    (List.replicate (tr.leafCount - 1) 0)

/-- `GetNodePartial`. -/
def getNodePartial (tr : RootedTreeIds) (nid : ℕ) : ℚ :=
  (tr.nodeHeights.getD nid 0 - tr.nodeBounds.getD nid 0) /
    tr.parameters.getD (nid - tr.leafCount) 0

/-- `GetEpochGradientAddition`. -/
def getEpochGradientAddition (tr : RootedTreeIds) (nid cid : ℕ) (acc : List ℚ) : ℚ :=
  if cid < tr.leafCount then 0
  else if tr.nodeBounds.getD nid 0 = tr.nodeBounds.getD cid 0 then
    acc.getD (cid - tr.leafCount) 0 * tr.parameters.getD cid 0 / tr.parameters.getD nid 0
  else
    acc.getD (cid - tr.leafCount) 0 * tr.parameters.getD cid 0 /
      (tr.nodeHeights.getD nid 0 - tr.nodeBounds.getD cid 0) * getNodePartial tr nid

/-- `GetLogTimeArray`: `1 / (height - bound)` for every internal
non-root node, over the `BinaryIdPostOrder` visit list. -/
def getLogTimeArray (tr : RootedTreeIds) (rootId : ℕ) : List ℚ :=
  tr.postOrderInternal.foldl (fun lt t =>
    if t.1 ≠ rootId then
      lt.set (t.1 - tr.leafCount) (1 / (tr.nodeHeights.getD t.1 0 - tr.nodeBounds.getD t.1 0))
    else lt)
    (List.replicate (tr.leafCount - 1) 0)

/-- `UpdateGradientUnWeightedLogDensity`: the three accumulations per
internal non-root node over the `BinaryIdPostOrder` visit list. -/
def updateGradientUnWeightedLogDensity (tr : RootedTreeIds) (rootId : ℕ)
    (gradients : List ℚ) : List ℚ :=
  tr.postOrderInternal.foldl (fun acc t =>
    let i := t.1 - tr.leafCount
    if tr.leafCount ≤ t.1 ∧ t.1 ≠ rootId then
      let a1 := acc.set i (acc.getD i 0 + getNodePartial tr t.1 * gradients.getD t.1 0)
      let a2 := a1.set i (a1.getD i 0 + getEpochGradientAddition tr t.1 t.2.1 a1)
      a2.set i (a2.getD i 0 + getEpochGradientAddition tr t.1 t.2.2 a2)
    else acc)
    (List.replicate (tr.leafCount - 1) 0)

/-- `UpdateHeightParameterGradientUnweightedLogDensity`: multiplier
propagation over the `TripleIdPreOrderBifurcating` visit list, then the
dot product with the gradient. -/
def updateHeightParameterGradientUnweightedLogDensity (tr : RootedTreeIds) (rootId : ℕ)
    (gradient : List ℚ) : ℚ :=
  let mult := tr.preOrderTriples.foldl (fun m t =>
    if tr.leafCount ≤ t.1 ∧ t.2.1 < t.1 ∧ t.1 ≠ rootId then
      m.set (t.1 - tr.leafCount)
        (tr.parameters.getD (t.1 - tr.leafCount) 0 * m.getD (t.2.2 - tr.leafCount) 0)
    else m)
    ((List.replicate (tr.leafCount - 1) 0).set (rootId - tr.leafCount) 1)
  (List.zip gradient mult).foldl (fun s p => s + p.1 * p.2) 0

/-- `FatBeagle::RatioGradient`, lines 413-450: build the height gradient
from the (BEAGLE-supplied) branch gradient, form the unweighted
log-density gradient and the log-Jacobian-determinant gradient with their
root entries overwritten by the height-parameter derivation, subtract in
place, recompute the root entry directly, and `Assert` the two
derivations agree; an assertion failure is the `Except.error` case. -/
def ratioGradient (tr : RootedTreeIds) (rootId : ℕ) (branchGradient : List ℚ) :
    Except String (List ℚ) :=
  let lc := tr.leafCount
  let heightGradient := heightGradientOf tr rootId branchGradient
  let gLD0 := updateGradientUnWeightedLogDensity tr rootId heightGradient
  let gLD := gLD0.set (rootId - lc)
    (updateHeightParameterGradientUnweightedLogDensity tr rootId heightGradient)
  let logTime := getLogTimeArray tr rootId
  let gLJD0 := updateGradientUnWeightedLogDensity tr rootId logTime
  let gLJD := gLJD0.set (rootId - lc)
    (updateHeightParameterGradientUnweightedLogDensity tr rootId logTime)
  let afterLoop := List.zipWith (fun g jp => g - ((jp : ℚ × ℚ).1 - 1 / jp.2)) gLD
    (List.zip gLJD tr.parameters)
  let temp := afterLoop.getD (rootId - lc) 0 - gLJD.getD (rootId - lc) 0
  let final := afterLoop.set (rootId - lc)
    (updateHeightParameterGradientUnweightedLogDensity tr rootId heightGradient -
      updateHeightParameterGradientUnweightedLogDensity tr rootId logTime)
  if temp = final.getD (rootId - lc) 0 then Except.ok final
  else Except.error "gradientLogDensity[root_id-leaf_count]"

/-- A concrete two-leaf rooted tree (leaves 0 and 1, root id 2 at height
one half, both leaves at height zero): the smallest input to
`RatioGradient`. -/
def twoLeafTree : RootedTreeIds where
  leafCount := 2
  parameters := [1 / 2]
  nodeHeights := [0, 0, 1 / 2]
  nodeBounds := [0, 0, 0]
  postOrderInternal := [(2, 0, 1)]
  preOrderInternalBin := [(2, 0, 1)]
  preOrderTriples := [(0, 1, 2), (1, 0, 2)]

/-- The well-formedness of a PCSS dictionary on `n` taxa: distinct
parents, each of length `2n`, with distinct children of length `n`. -/
def PcssInv (n : ℕ) (d : List (Bitset × List (Bitset × ℕ))) : Prop :=
  (d.map Prod.fst).Nodup ∧
    ∀ e ∈ d, e.1.length = 2 * n ∧ (e.2.map Prod.fst).Nodup ∧
      ∀ ch ∈ e.2.map Prod.fst, ch.length = n

/-- Total number of PCSS slots of a PCSS dictionary. -/
def totalChildren (pd : List (Bitset × List (Bitset × ℕ))) : ℕ :=
  (pd.map (fun p => p.2.length)).sum

/-- The topology counter `ProcessLoadedTrees` derives from the loaded
trees. -/
def observedTC (s : SBNState) : List (NodeT × ℕ) :=
  topologyCounterOf (s.trees.map TreeT.topology)

/-- `R`: the number of distinct observed rootsplits. -/
def observedR (s : SBNState) : ℕ := (rootsplitCounterOf (observedTC s)).length

/-- `P`: the total observed PCSS count. -/
def observedP (s : SBNState) : ℕ := totalChildren (pcssCounterOf (observedTC s))

/-- `M = R + P`: the parameter-vector length. -/
def observedM (s : SBNState) : ℕ := observedR s + observedP s

/-- An `SBNInstance` fresh after construction: nothing loaded. -/
def emptyState : SBNState where
  sbnParameters := []
  rootsplits := []
  indexer := []
  indexToChild := []
  parentToRange := []
  topologyCounter := []
  trees := []
  taxonNames := []
  collectionTaxonNames := []

/-- A state with one loaded three-taxon topology `(0,1,2)`. -/
def threeTaxonState : SBNState :=
  { emptyState with
    trees := [⟨NodeT.internal [NodeT.leaf 0, NodeT.leaf 1, NodeT.leaf 2], []⟩]
    collectionTaxonNames := ["x0", "x1", "x2"] }

/-- The four-taxon unrooted topology `(0,1,(2,3))`. -/
def fourTaxonTopology : NodeT :=
  NodeT.internal [NodeT.leaf 0, NodeT.leaf 1, NodeT.internal [NodeT.leaf 2, NodeT.leaf 3]]

/-! ## Clade-level set reasoning

Support for the no-double-counting claim: subtree clades are faithful
images of subtree leaf-id sets, and the clades met during one topology's
enumeration are pairwise distinguishable.
-/

/-- Two id lists describe the same set. -/
def sameSet (l₁ l₂ : List ℕ) : Prop := ∀ i : ℕ, i ∈ l₁ ↔ i ∈ l₂

/-! ## Counter accumulation values -/

/-- Read a PCSS counter: the count stored under (parent, child), zero if
absent (`PCSSDict` lookup with default). -/
def pcssLookupD : List (Bitset × List (Bitset × ℕ)) → Bitset → Bitset → ℕ
  | [], _, _ => 0
  | (p, cd) :: rest, parent, child =>
      if p = parent then lookupD cd child 0 else pcssLookupD rest parent child

/-! ## Theorems -/

@[simp] theorem length_zeroBits (n : ℕ) : (zeroBits n).length = n := by
  simp [zeroBits]

@[simp] theorem length_unitBit (n i : ℕ) : (unitBit n i).length = n := by
  simp [unitBit]

theorem length_bor {a b : Bitset} (h : a.length = b.length) :
    (bor a b).length = a.length := by
  simp [bor, h]

@[simp] theorem length_bnot (a : Bitset) : (bnot a).length = a.length := by
  simp [bnot]

theorem length_bmin (a b : Bitset) : (bmin a b).length = a.length ∨ (bmin a b).length = b.length := by
  unfold bmin
  by_cases h : bitLt b a = true <;> simp [h]

@[simp] theorem length_minorize (a : Bitset) : (minorize a).length = a.length := by
  unfold minorize
  by_cases h : tb a 0 = true <;> simp [h]

theorem tb_eq_getElem {a : Bitset} {i : ℕ} (h : i < a.length) : tb a i = a[i] := by
  simp [tb, List.getD, List.getElem?_eq_getElem h]

theorem tb_eq_false_of_le {a : Bitset} {i : ℕ} (h : a.length ≤ i) : tb a i = false := by
  simp [tb, List.getD, List.getElem?_eq_none_iff.mpr h]

theorem tb_unitBit (n i j : ℕ) : tb (unitBit n i) j = (decide (j = i) && decide (j < n)) := by
  by_cases hj : j < n
  · have hl : j < (unitBit n i).length := by simp [hj]
    rw [tb_eq_getElem hl]
    simp [unitBit, hj]
  · have : (unitBit n i).length ≤ j := by simp; omega
    simp [tb_eq_false_of_le this, hj]

theorem tb_bor {a b : Bitset} (h : a.length = b.length) (i : ℕ) :
    tb (bor a b) i = (tb a i || tb b i) := by
  by_cases hi : i < a.length
  · have hbor : i < (bor a b).length := by rw [length_bor h]; exact hi
    have hb : i < b.length := h ▸ hi
    rw [tb_eq_getElem hbor, tb_eq_getElem hi, tb_eq_getElem hb]
    simp [bor]
  · push_neg at hi
    rw [tb_eq_false_of_le (i := i) (by rw [length_bor h]; exact hi),
      tb_eq_false_of_le hi, tb_eq_false_of_le (h ▸ hi)]
    rfl

theorem tb_bnot {a : Bitset} {i : ℕ} (h : i < a.length) : tb (bnot a) i = !(tb a i) := by
  have hn : i < (bnot a).length := by simp [h]
  rw [tb_eq_getElem hn, tb_eq_getElem h]
  simp [bnot]

theorem bitset_ext {a b : Bitset} (hlen : a.length = b.length)
    (h : ∀ i, tb a i = tb b i) : a = b := by
  refine List.ext_getElem hlen (fun i h₁ h₂ => ?_)
  have := h i
  rwa [tb_eq_getElem h₁, tb_eq_getElem h₂] at this

theorem bnot_bnot (a : Bitset) : bnot (bnot a) = a := by
  induction a with
  | nil => rfl
  | cons h t ih =>
      simp only [bnot, List.map_cons, Bool.not_not] at ih ⊢
      rw [ih]

theorem bnot_ne {a : Bitset} (hne : a.length ≠ 0) : bnot a ≠ a := by
  intro h
  have h0 : 0 < a.length := Nat.pos_of_ne_zero hne
  have := congrArg (fun x => tb x 0) h
  simp only at this
  rw [tb_bnot h0] at this
  exact Bool.not_ne_self _ this

namespace NodeT

@[simp] theorem leafCount_leaf (i : ℕ) : leafCount (leaf i) = 1 := rfl

theorem leafCountList_eq (cs : List NodeT) : leafCountList cs = (cs.map leafCount).sum := by
  induction cs with
  | nil => rfl
  | cons c rest ih => rw [leafCountList, ih]; simp

theorem leafCount_internal (cs : List NodeT) :
    leafCount (internal cs) = (cs.map leafCount).sum := by
  rw [leafCount, leafCountList_eq]

@[simp] theorem maxLeafID_leaf (i : ℕ) : maxLeafID (leaf i) = i := rfl

@[simp] theorem leafList_leaf (i : ℕ) : leafList (leaf i) = [i] := rfl

theorem leafListList_eq (cs : List NodeT) : leafListList cs = cs.flatMap leafList := by
  induction cs with
  | nil => rfl
  | cons c rest ih => rw [leafListList, ih]; simp

theorem leafList_internal (cs : List NodeT) :
    leafList (internal cs) = cs.flatMap leafList := by
  rw [leafList, leafListList_eq]

theorem preOrderList_eq (cs : List NodeT) : preOrderList cs = cs.flatMap preOrder := by
  induction cs with
  | nil => rfl
  | cons c rest ih => rw [preOrderList, ih]; simp

theorem preOrder_internal (cs : List NodeT) :
    preOrder (internal cs) = internal cs :: cs.flatMap preOrder := by
  rw [preOrder, preOrderList_eq]

@[simp] theorem cladeOf_leaf (n i : ℕ) : cladeOf n (leaf i) = unitBit n i := rfl

theorem cladeFold_eq (n : ℕ) (acc : Bitset) (cs : List NodeT) :
    cladeFold n acc cs = cs.foldl (fun acc c => bor acc (cladeOf n c)) acc := by
  induction cs generalizing acc with
  | nil => rfl
  | cons c rest ih => rw [cladeFold, ih]; simp

theorem cladeOf_internal (n : ℕ) (cs : List NodeT) :
    cladeOf n (internal cs) = cs.foldl (fun acc c => bor acc (cladeOf n c)) (zeroBits n) := by
  rw [cladeOf, cladeFold_eq]

/-- Structural induction for `NodeT` with the nested-list hypothesis
unfolded to membership. -/
theorem inductionOn {P : NodeT → Prop} (hleaf : ∀ i, P (leaf i))
    (hint : ∀ cs, (∀ c ∈ cs, P c) → P (internal cs)) : ∀ t, P t
  | leaf i => hleaf i
  | internal cs => hint cs (fun c _hmem => inductionOn hleaf hint c)
decreasing_by
  have := List.sizeOf_lt_of_mem _hmem
  simp only [NodeT.internal.sizeOf_spec]
  omega

theorem length_leafList (t : NodeT) : (leafList t).length = leafCount t := by
  induction t using inductionOn with
  | hleaf i => simp
  | hint cs ih =>
      rw [leafList_internal, leafCount_internal, List.length_flatMap]
      exact congrArg _ (List.map_congr_left ih)

theorem length_cladeOf (n : ℕ) (t : NodeT) : (cladeOf n t).length = n := by
  induction t using inductionOn with
  | hleaf i => simp
  | hint cs ih =>
      rw [cladeOf_internal]
      have main : ∀ (l : List NodeT), (∀ c ∈ l, (cladeOf n c).length = n) →
          ∀ (acc : Bitset), acc.length = n →
          (l.foldl (fun acc c => bor acc (cladeOf n c)) acc).length = n := by
        intro l
        induction l with
        | nil => intro _ acc h; simpa
        | cons hd tl ihl =>
            intro hmem acc hacc
            simp only [List.foldl_cons]
            refine ihl (fun c hc => hmem c (List.mem_cons_of_mem _ hc)) _ ?_
            rw [length_bor (by rw [hacc, hmem hd (List.mem_cons_self hd tl)]), hacc]
      exact main cs ih _ (by simp)

theorem tb_cladeOf (n : ℕ) (t : NodeT) (i : ℕ) :
    tb (cladeOf n t) i = (decide (i ∈ leafList t) && decide (i < n)) := by
  induction t using inductionOn with
  | hleaf j => rw [cladeOf_leaf, tb_unitBit, leafList_leaf]; simp
  | hint cs ih =>
      rw [cladeOf_internal, leafList_internal]
      have main : ∀ (l : List NodeT), (∀ c ∈ l, tb (cladeOf n c) i =
            (decide (i ∈ leafList c) && decide (i < n))) →
          (∀ c ∈ l, (cladeOf n c).length = n) →
          ∀ (acc : Bitset), acc.length = n →
          tb (l.foldl (fun acc c => bor acc (cladeOf n c)) acc) i =
            (tb acc i || (decide (i ∈ l.flatMap leafList) && decide (i < n))) := by
        intro l
        induction l with
        | nil => intro _ _ acc _; simp
        | cons hd tl ihl =>
            intro hmem hlen acc hacc
            simp only [List.foldl_cons]
            rw [ihl (fun c hc => hmem c (List.mem_cons_of_mem _ hc))
              (fun c hc => hlen c (List.mem_cons_of_mem _ hc)) _
              (by rw [length_bor (by rw [hacc, hlen hd (List.mem_cons_self hd tl)]), hacc])]
            rw [tb_bor (by rw [hacc, hlen hd (List.mem_cons_self hd tl)])]
            rw [hmem hd (List.mem_cons_self hd tl)]
            simp only [List.flatMap_cons, List.mem_append]
            by_cases h1 : i ∈ leafList hd <;> by_cases h2 : i ∈ tl.flatMap leafList <;>
              by_cases h3 : i < n <;> simp [h1, h2, h3]
      rw [main cs ih (fun c _ => length_cladeOf n c) _ (by simp)]
      have : tb (zeroBits n) i = false := by
        by_cases h : i < n
        · rw [tb_eq_getElem (by simpa using h)]; simp [zeroBits]
        · exact tb_eq_false_of_le (by simpa using Nat.le_of_not_lt h)
      rw [this]
      simp

theorem nodeEq_rfl (t : NodeT) : nodeEq t t = true := by
  induction t using inductionOn with
  | hleaf i => rw [nodeEq]; simp [children]
  | hint cs ih =>
      rw [nodeEq]
      simp only [beq_self_eq_true, Bool.true_and, children]
      have : ∀ l : List NodeT, (∀ c ∈ l, nodeEq c c = true) → nodeEqChildren l l = true := by
        intro l
        induction l with
        | nil => intro _; rw [nodeEqChildren]
        | cons hd tl ihl =>
            intro h
            rw [nodeEqChildren]
            rw [h hd (List.mem_cons_self hd tl), ihl (fun c hc => h c (List.mem_cons_of_mem _ hc))]
            rfl
      exact this cs ih

/-- Two sorted lists that are permutations of each other and have
pairwise-distinct max leaf ids are equal (the situation `std::sort`
leaves the child vectors in: the constructor aborts on ties). -/
theorem sorted_perm_eq_of_nodup_keys : ∀ {l₁ l₂ : List NodeT},
    l₁.Perm l₂ → l₁.Sorted childLe → l₂.Sorted childLe →
    (l₁.map maxLeafID).Nodup → l₁ = l₂ := by
  intro l₁
  induction l₁ with
  | nil =>
      intro l₂ hperm _ _ _
      exact (hperm.nil_eq).symm ▸ rfl
  | cons a t₁ ih =>
      intro l₂ hperm hs₁ hs₂ hnodup
      cases l₂ with
      | nil => exact absurd hperm.eq_nil (by simp)
      | cons b t₂ =>
        by_cases hab : a = b
        · subst hab
          have := ih (hperm.cons_inv) (List.Sorted.of_cons hs₁) (List.Sorted.of_cons hs₂)
            (by simpa using (List.nodup_cons.mp (by simpa using hnodup)).2)
          rw [this]
        · exfalso
          have hamem : a ∈ t₂ := by
            have : a ∈ b :: t₂ := hperm.mem_iff.mp (List.mem_cons_self a t₁)
            rcases List.mem_cons.mp this with h | h
            · exact absurd h hab
            · exact h
          have hbmem : b ∈ t₁ := by
            have : b ∈ a :: t₁ := hperm.mem_iff.mpr (List.mem_cons_self b t₂)
            rcases List.mem_cons.mp this with h | h
            · exact absurd h.symm hab
            · exact h
          have h₁ : childLe a b := (List.sorted_cons.mp hs₁).1 b hbmem
          have h₂ : childLe b a := (List.sorted_cons.mp hs₂).1 a hamem
          have heq : maxLeafID a = maxLeafID b := Nat.le_antisymm h₁ h₂
          have : maxLeafID a ∉ t₁.map maxLeafID := (List.nodup_cons.mp (by simpa using hnodup)).1
          exact this (heq ▸ List.mem_map_of_mem maxLeafID hbmem)

/-- Building an internal node from any permutation of a child list with
pairwise-distinct max leaf ids yields the same node. -/
theorem join_perm_eq {cs₁ cs₂ : List NodeT} (hperm : cs₁.Perm cs₂)
    (hnodup : (cs₁.map maxLeafID).Nodup) : join cs₁ = join cs₂ := by
  unfold join
  refine congrArg internal (sorted_perm_eq_of_nodup_keys ?_ ?_ ?_ ?_)
  · exact ((List.perm_insertionSort childLe cs₁).trans hperm).trans
      (List.perm_insertionSort childLe cs₂).symm
  · exact List.sorted_insertionSort childLe cs₁
  · exact List.sorted_insertionSort childLe cs₂
  · exact ((List.perm_insertionSort childLe cs₁).map maxLeafID).nodup_iff.mpr hnodup

end NodeT

/-! ## Dictionary lemmas -/

theorem keys_dictIncr (k : Bitset) (c : ℕ) (d : List (Bitset × ℕ)) :
    (dictIncr k c d).map Prod.fst =
      if k ∈ d.map Prod.fst then d.map Prod.fst else d.map Prod.fst ++ [k] := by
  induction d with
  | nil => simp [dictIncr]
  | cons p rest ih =>
      obtain ⟨k', v⟩ := p
      by_cases h : k' = k
      · subst h
        simp [dictIncr]
      · simp only [dictIncr, if_neg h, List.map_cons, ih]
        by_cases hmem : k ∈ rest.map Prod.fst
        · rw [if_pos hmem, if_pos (List.mem_cons_of_mem _ hmem)]
        · rw [if_neg hmem, if_neg (by
            intro hk
            rcases List.mem_cons.mp hk with h' | h'
            · exact h h'.symm
            · exact hmem h')]
          simp

theorem nodup_keys_dictIncr (k : Bitset) (c : ℕ) (d : List (Bitset × ℕ))
    (h : (d.map Prod.fst).Nodup) : ((dictIncr k c d).map Prod.fst).Nodup := by
  rw [keys_dictIncr]
  by_cases hmem : k ∈ d.map Prod.fst
  · rw [if_pos hmem]; exact h
  · rw [if_neg hmem]
    refine List.Nodup.append h (List.nodup_singleton k) ?_
    intro a ha hak
    rw [List.mem_singleton] at hak
    exact hmem (hak ▸ ha)

theorem keyProp_dictIncr (P : Bitset → Prop) (k : Bitset) (c : ℕ) (d : List (Bitset × ℕ))
    (hd : ∀ x ∈ d.map Prod.fst, P x) (hk : P k) :
    ∀ x ∈ (dictIncr k c d).map Prod.fst, P x := by
  intro x hx
  rw [keys_dictIncr] at hx
  by_cases hmem : k ∈ d.map Prod.fst
  · rw [if_pos hmem] at hx
    exact hd x hx
  · rw [if_neg hmem] at hx
    rcases List.mem_append.mp hx with hx | hx
    · exact hd x hx
    · rw [List.mem_singleton] at hx
      exact hx ▸ hk

/-- Invariant preservation through a fold of `dictIncr`. -/
theorem dict_fold_invariant (P : List (Bitset × ℕ) → Prop)
    (hstep : ∀ d k c, P d → P (dictIncr k c d)) :
    ∀ (ks : List Bitset) (c : ℕ) (d : List (Bitset × ℕ)), P d →
      P (ks.foldl (fun acc k => dictIncr k c acc) d) := by
  intro ks
  induction ks with
  | nil => intro c d h; exact h
  | cons k rest ih => intro c d h; exact ih c _ (hstep d k c h)

theorem nodup_keys_rootsplitCounterOf (tc : List (NodeT × ℕ)) :
    ((rootsplitCounterOf tc).map Prod.fst).Nodup := by
  unfold rootsplitCounterOf
  have main : ∀ (l : List (NodeT × ℕ)) (d : List (Bitset × ℕ)), (d.map Prod.fst).Nodup →
      ((l.foldl (fun acc p => (rootsplitsOfTopology p.1).foldl
        (fun acc k => dictIncr k p.2 acc) acc) d).map Prod.fst).Nodup := by
    intro l
    induction l with
    | nil => intro d h; exact h
    | cons p rest ih =>
        intro d h
        exact ih _ (dict_fold_invariant (fun d => (d.map Prod.fst).Nodup)
          (fun d k c h => nodup_keys_dictIncr k c d h) _ _ _ h)
  exact main tc [] (by simp)

theorem keyProp_rootsplitCounterOf (P : Bitset → Prop) (tc : List (NodeT × ℕ))
    (h : ∀ p ∈ tc, ∀ k ∈ rootsplitsOfTopology p.1, P k) :
    ∀ x ∈ (rootsplitCounterOf tc).map Prod.fst, P x := by
  unfold rootsplitCounterOf
  have main : ∀ (l : List (NodeT × ℕ)), (∀ p ∈ l, ∀ k ∈ rootsplitsOfTopology p.1, P k) →
      ∀ (d : List (Bitset × ℕ)), (∀ x ∈ d.map Prod.fst, P x) →
      ∀ x ∈ ((l.foldl (fun acc p => (rootsplitsOfTopology p.1).foldl
        (fun acc k => dictIncr k p.2 acc) acc) d).map Prod.fst), P x := by
    intro l
    induction l with
    | nil => intro _ d hd; exact hd
    | cons p rest ih =>
        intro hl d hd
        refine ih (fun q hq => hl q (List.mem_cons_of_mem _ hq)) _ ?_
        have inner : ∀ (ks : List Bitset), (∀ k ∈ ks, P k) →
            ∀ (d' : List (Bitset × ℕ)), (∀ x ∈ d'.map Prod.fst, P x) →
            ∀ x ∈ ((ks.foldl (fun acc k => dictIncr k p.2 acc) d').map Prod.fst), P x := by
          intro ks
          induction ks with
          | nil => intro _ d' hd'; exact hd'
          | cons k krest ihk =>
              intro hks d' hd'
              exact ihk (fun k' hk' => hks k' (List.mem_cons_of_mem _ hk'))
                _ (keyProp_dictIncr P k p.2 d' hd' (hks k (List.mem_cons_self k krest)))
        exact inner _ (hl p (List.mem_cons_self p rest)) d hd
  exact main tc h [] (by simp)

theorem keys_pcssDictIncr (p ch : Bitset) (c : ℕ) (d : List (Bitset × List (Bitset × ℕ))) :
    (pcssDictIncr p ch c d).map Prod.fst =
      if p ∈ d.map Prod.fst then d.map Prod.fst else d.map Prod.fst ++ [p] := by
  induction d with
  | nil => simp [pcssDictIncr]
  | cons e rest ih =>
      obtain ⟨q, cd⟩ := e
      by_cases h : q = p
      · subst h
        simp [pcssDictIncr]
      · simp only [pcssDictIncr, if_neg h, List.map_cons, ih]
        by_cases hmem : p ∈ rest.map Prod.fst
        · rw [if_pos hmem, if_pos (List.mem_cons_of_mem _ hmem)]
        · rw [if_neg hmem, if_neg (by
            intro hk
            rcases List.mem_cons.mp hk with h' | h'
            · exact h h'.symm
            · exact hmem h')]
          simp

theorem pcssDictIncr_invariant {n : ℕ} (p ch : Bitset) (c : ℕ)
    (d : List (Bitset × List (Bitset × ℕ))) (hp : p.length = 2 * n) (hch : ch.length = n)
    (h : PcssInv n d) : PcssInv n (pcssDictIncr p ch c d) := by
  induction d with
  | nil =>
      refine ⟨by simp [pcssDictIncr], ?_⟩
      intro e he
      simp only [pcssDictIncr, List.mem_singleton] at he
      subst he
      exact ⟨hp, by simp, by simpa using hch⟩
  | cons e rest ih =>
      obtain ⟨q, cd⟩ := e
      obtain ⟨hnodup, hent⟩ := h
      by_cases hq : q = p
      · subst hq
        simp only [pcssDictIncr, if_pos rfl]
        refine ⟨by simpa using hnodup, ?_⟩
        intro e he
        rcases List.mem_cons.mp he with he | he
        · subst he
          obtain ⟨h1, h2, h3⟩ := hent (q, cd) (List.mem_cons_self _ _)
          exact ⟨h1, nodup_keys_dictIncr _ _ _ h2, keyProp_dictIncr _ _ _ _ h3 hch⟩
        · exact hent e (List.mem_cons_of_mem _ he)
      · simp only [pcssDictIncr, if_neg hq]
        have hrest : PcssInv n rest :=
          ⟨(List.nodup_cons.mp (by simpa using hnodup)).2,
            fun e he => hent e (List.mem_cons_of_mem _ he)⟩
        obtain ⟨ihnodup, ihent⟩ := ih hrest
        refine ⟨?_, ?_⟩
        · simp only [List.map_cons]
          rw [List.nodup_cons]
          refine ⟨?_, ihnodup⟩
          rw [keys_pcssDictIncr]
          have hqrest : q ∉ rest.map Prod.fst := (List.nodup_cons.mp (by simpa using hnodup)).1
          by_cases hmem : p ∈ rest.map Prod.fst
          · rw [if_pos hmem]; exact hqrest
          · rw [if_neg hmem]
            intro hmem2
            rcases List.mem_append.mp hmem2 with h' | h'
            · exact hqrest h'
            · rw [List.mem_singleton] at h'
              exact hq h'
        · intro e he
          rcases List.mem_cons.mp he with he | he
          · exact he ▸ hent (q, cd) (List.mem_cons_self _ _)
          · exact ihent e he

theorem pcssCounterOf_invariant (n : ℕ) (tc : List (NodeT × ℕ))
    (h : ∀ p ∈ tc, ∀ kc ∈ pcssPairsOfTopology p.1, kc.1.length = 2 * n ∧ kc.2.length = n) :
    PcssInv n (pcssCounterOf tc) := by
  unfold pcssCounterOf
  have main : ∀ (l : List (NodeT × ℕ)),
      (∀ p ∈ l, ∀ kc ∈ pcssPairsOfTopology p.1, kc.1.length = 2 * n ∧ kc.2.length = n) →
      ∀ (d : List (Bitset × List (Bitset × ℕ))), PcssInv n d →
      PcssInv n (l.foldl (fun acc p =>
        (pcssPairsOfTopology p.1).foldl (fun acc kc => pcssDictIncr kc.1 kc.2 p.2 acc) acc) d) := by
    intro l
    induction l with
    | nil => intro _ d hd; exact hd
    | cons p rest ih =>
        intro hl d hd
        refine ih (fun q hq => hl q (List.mem_cons_of_mem _ hq)) _ ?_
        have inner : ∀ (ks : List (Bitset × Bitset)),
            (∀ kc ∈ ks, kc.1.length = 2 * n ∧ kc.2.length = n) →
            ∀ (d' : List (Bitset × List (Bitset × ℕ))), PcssInv n d' →
            PcssInv n (ks.foldl (fun acc kc => pcssDictIncr kc.1 kc.2 p.2 acc) d') := by
          intro ks
          induction ks with
          | nil => intro _ d' hd'; exact hd'
          | cons kc krest ihk =>
              intro hks d' hd'
              refine ihk (fun kc' hk' => hks kc' (List.mem_cons_of_mem _ hk')) _ ?_
              obtain ⟨h1, h2⟩ := hks kc (List.mem_cons_self kc krest)
              exact pcssDictIncr_invariant _ _ _ _ h1 h2 hd'
        exact inner _ (hl p (List.mem_cons_self p rest)) d hd
  exact main tc h [] ⟨by simp, by simp⟩

@[simp] theorem length_dirClade (n : ℕ) (v : NodeT) (d : Bool) : (dirClade n v d).length = n := by
  unfold dirClade
  cases d <;> simp [NodeT.length_cladeOf]

theorem rootsplit_key_length (t : NodeT) :
    ∀ k ∈ rootsplitsOfTopology t, k.length = NodeT.leafCount t := by
  intro k hk
  unfold rootsplitsOfTopology at hk
  obtain ⟨v, _, rfl⟩ := List.mem_map.mp hk
  simp [NodeT.length_cladeOf]

theorem pcssPair_lengths (t : NodeT) :
    ∀ kc ∈ pcssPairsOfTopology t,
      kc.1.length = 2 * NodeT.leafCount t ∧ kc.2.length = NodeT.leafCount t := by
  intro kc hkc
  unfold pcssPairsOfTopology at hkc
  obtain ⟨e, _, rfl⟩ := List.mem_map.mp hkc
  constructor
  · simp [pcssKeyOf]
    ring
  · rcases length_bmin (dirClade (NodeT.leafCount t) e.child0 e.child0Dir)
        (dirClade (NodeT.leafCount t) e.child1 e.child1Dir) with h | h <;>
      simp [pcssKeyOf, h]

/-! ## Indexer construction lemmas -/

theorem indexRootsplits_keys (i : ℕ) (rd : List (Bitset × ℕ)) :
    (indexRootsplits i rd).map Prod.fst = rd.map Prod.fst := by
  induction rd generalizing i with
  | nil => rfl
  | cons p rest ih => obtain ⟨k, v⟩ := p; simp [indexRootsplits, ih]

theorem indexRootsplits_vals (i : ℕ) (rd : List (Bitset × ℕ)) :
    (indexRootsplits i rd).map Prod.snd = List.range' i rd.length := by
  induction rd generalizing i with
  | nil => rfl
  | cons p rest ih => obtain ⟨k, v⟩ := p; simp [indexRootsplits, ih, List.range'_succ]

theorem indexChildrenFrom_keys (parent : Bitset) (i : ℕ) (cd : List (Bitset × ℕ)) :
    (indexChildrenFrom parent i cd).1.map Prod.fst = cd.map (fun c => parent ++ c.1) := by
  induction cd generalizing i with
  | nil => rfl
  | cons p rest ih => obtain ⟨k, v⟩ := p; simp [indexChildrenFrom, ih]

theorem indexChildrenFrom_vals (parent : Bitset) (i : ℕ) (cd : List (Bitset × ℕ)) :
    (indexChildrenFrom parent i cd).1.map Prod.snd = List.range' i cd.length := by
  induction cd generalizing i with
  | nil => rfl
  | cons p rest ih => obtain ⟨k, v⟩ := p; simp [indexChildrenFrom, ih, List.range'_succ]

theorem indexPCSSFrom_fin (i : ℕ) (pd : List (Bitset × List (Bitset × ℕ))) :
    (indexPCSSFrom i pd).2.2.2 = i + totalChildren pd := by
  induction pd generalizing i with
  | nil => simp [indexPCSSFrom, totalChildren]
  | cons p rest ih =>
      obtain ⟨parent, cd⟩ := p
      simp only [indexPCSSFrom, ih]
      simp only [totalChildren, List.map_cons, List.sum_cons]
      omega

theorem indexPCSSFrom_keys (i : ℕ) (pd : List (Bitset × List (Bitset × ℕ))) :
    (indexPCSSFrom i pd).1.map Prod.fst =
      pd.flatMap (fun p => p.2.map (fun c => p.1 ++ c.1)) := by
  induction pd generalizing i with
  | nil => rfl
  | cons p rest ih =>
      obtain ⟨parent, cd⟩ := p
      simp [indexPCSSFrom, ih, indexChildrenFrom_keys]

theorem indexPCSSFrom_vals (i : ℕ) (pd : List (Bitset × List (Bitset × ℕ))) :
    (indexPCSSFrom i pd).1.map Prod.snd = List.range' i (totalChildren pd) := by
  induction pd generalizing i with
  | nil => simp [indexPCSSFrom, totalChildren]
  | cons p rest ih =>
      obtain ⟨parent, cd⟩ := p
      simp only [indexPCSSFrom, List.map_append, ih, indexChildrenFrom_vals]
      rw [List.range'_append_1]
      have : totalChildren ((parent, cd) :: rest) = totalChildren rest + cd.length := by
        simp only [totalChildren, List.map_cons, List.sum_cons]
        omega
      rw [this]

theorem indexPCSSFrom_ranges_fst (i : ℕ) (pd : List (Bitset × List (Bitset × ℕ))) :
    (indexPCSSFrom i pd).2.1.map Prod.fst = pd.map Prod.fst := by
  induction pd generalizing i with
  | nil => rfl
  | cons p rest ih =>
      obtain ⟨parent, cd⟩ := p
      simp [indexPCSSFrom, ih]

theorem indexPCSSFrom_ranges_bounds (i : ℕ) (pd : List (Bitset × List (Bitset × ℕ))) :
    ∀ pr ∈ (indexPCSSFrom i pd).2.1,
      i ≤ pr.2.1 ∧ pr.2.1 ≤ pr.2.2 ∧ pr.2.2 ≤ i + totalChildren pd := by
  induction pd generalizing i with
  | nil => simp [indexPCSSFrom]
  | cons p rest ih =>
      obtain ⟨parent, cd⟩ := p
      intro pr hpr
      simp only [indexPCSSFrom] at hpr
      rcases List.mem_cons.mp hpr with h | h
      · subst h
        simp only
        have : totalChildren ((parent, cd) :: rest) = cd.length + totalChildren rest := by
          simp [totalChildren]
        omega
      · have := ih (i + cd.length) pr h
        have htot : totalChildren ((parent, cd) :: rest) = cd.length + totalChildren rest := by
          simp [totalChildren]
        omega

theorem indexPCSSFrom_ranges_cover (i : ℕ) (pd : List (Bitset × List (Bitset × ℕ))) :
    ∀ j, i ≤ j → j < i + totalChildren pd →
      ∃! pr, pr ∈ (indexPCSSFrom i pd).2.1 ∧ pr.2.1 ≤ j ∧ j < pr.2.2 := by
  induction pd generalizing i with
  | nil =>
      intro j h1 h2
      rw [totalChildren] at h2
      simp at h2
      omega
  | cons p rest ih =>
      obtain ⟨parent, cd⟩ := p
      intro j h1 h2
      have htot : totalChildren ((parent, cd) :: rest) = cd.length + totalChildren rest := by
        simp [totalChildren]
      by_cases hj : j < i + cd.length
      · refine ⟨(parent, (i, i + cd.length)), ⟨List.mem_cons_self _ _, h1, hj⟩, ?_⟩
        rintro pr ⟨hpr, hle, hlt⟩
        simp only [indexPCSSFrom] at hpr
        rcases List.mem_cons.mp hpr with h | h
        · exact h
        · have := indexPCSSFrom_ranges_bounds (i + cd.length) rest pr h
          omega
      · push_neg at hj
        obtain ⟨pr, ⟨hpr, hle, hlt⟩, huniq⟩ := ih (i + cd.length) j hj (by omega)
        refine ⟨pr, ⟨List.mem_cons_of_mem _ (by simpa [indexPCSSFrom] using hpr), hle, hlt⟩, ?_⟩
        rintro pr' ⟨hpr', hle', hlt'⟩
        simp only [indexPCSSFrom] at hpr'
        rcases List.mem_cons.mp hpr' with h | h
        · subst h
          simp only at hle' hlt'
          omega
        · exact huniq pr' ⟨h, hle', hlt'⟩

theorem indexRootsplits_mem (i : ℕ) (rd : List (Bitset × ℕ)) :
    ∀ pr ∈ indexRootsplits i rd, pr.1 ∈ rd.map Prod.fst ∧ i ≤ pr.2 ∧ pr.2 < i + rd.length := by
  induction rd generalizing i with
  | nil => simp [indexRootsplits]
  | cons p rest ih =>
      obtain ⟨k, v⟩ := p
      intro pr hpr
      rcases List.mem_cons.mp hpr with h | h
      · subst h
        simp
      · have := ih (i + 1) pr h
        obtain ⟨h1, h2, h3⟩ := this
        exact ⟨List.mem_cons_of_mem _ h1, by omega, by simpa [Nat.add_comm, Nat.add_left_comm] using by omega⟩

theorem indexChildrenFrom_mem (parent : Bitset) (i : ℕ) (cd : List (Bitset × ℕ)) :
    ∀ pr ∈ (indexChildrenFrom parent i cd).1,
      (∃ c ∈ cd.map Prod.fst, pr.1 = parent ++ c) ∧ i ≤ pr.2 ∧ pr.2 < i + cd.length := by
  induction cd generalizing i with
  | nil => simp [indexChildrenFrom]
  | cons p rest ih =>
      obtain ⟨k, v⟩ := p
      intro pr hpr
      rcases List.mem_cons.mp hpr with h | h
      · subst h
        exact ⟨⟨k, by simp, rfl⟩, by simp, by simp⟩
      · obtain ⟨⟨c, hc, hceq⟩, h2, h3⟩ := ih (i + 1) pr h
        exact ⟨⟨c, List.mem_cons_of_mem _ hc, hceq⟩, by omega, by simp; omega⟩

theorem indexPCSSFrom_mem (i : ℕ) (pd : List (Bitset × List (Bitset × ℕ))) :
    ∀ pr ∈ (indexPCSSFrom i pd).1,
      (∃ p ∈ pd, ∃ c ∈ p.2.map Prod.fst, pr.1 = p.1 ++ c) ∧
        i ≤ pr.2 ∧ pr.2 < i + totalChildren pd := by
  induction pd generalizing i with
  | nil => simp [indexPCSSFrom]
  | cons p rest ih =>
      obtain ⟨parent, cd⟩ := p
      intro pr hpr
      have htot : totalChildren ((parent, cd) :: rest) = cd.length + totalChildren rest := by
        simp [totalChildren]
      simp only [indexPCSSFrom] at hpr
      rcases List.mem_append.mp hpr with h | h
      · obtain ⟨⟨c, hc, hceq⟩, h2, h3⟩ := indexChildrenFrom_mem parent i cd pr h
        exact ⟨⟨(parent, cd), List.mem_cons_self _ _, c, hc, hceq⟩, h2, by omega⟩
      · obtain ⟨⟨q, hq, c, hc, hceq⟩, h2, h3⟩ := ih (i + cd.length) pr h
        exact ⟨⟨q, List.mem_cons_of_mem _ hq, c, hc, hceq⟩, by omega, by omega⟩

/-- The PCSS block of the indexer has pairwise-distinct keys: children
are distinct within a parent, parents are distinct and recoverable from
the first `2n` bits of the key. -/
theorem nodup_pcss_keys (n : ℕ) (pd : List (Bitset × List (Bitset × ℕ)))
    (hinv : PcssInv n pd) :
    (pd.flatMap (fun p => p.2.map (fun c => p.1 ++ c.1))).Nodup := by
  induction pd with
  | nil => simp
  | cons p rest ih =>
      obtain ⟨parent, cd⟩ := p
      obtain ⟨hnodup, hent⟩ := hinv
      obtain ⟨hplen, hcnodup, hclen⟩ := hent (parent, cd) (List.mem_cons_self _ _)
      have hrestinv : PcssInv n rest :=
        ⟨(List.nodup_cons.mp (by simpa using hnodup)).2,
          fun e he => hent e (List.mem_cons_of_mem _ he)⟩
      rw [List.flatMap_cons]
      refine List.Nodup.append ?_ (ih hrestinv) ?_
      · have : cd.map (fun c => parent ++ c.1) = (cd.map Prod.fst).map (fun c => parent ++ c) := by
          simp [List.map_map]
        rw [this]
        exact List.Nodup.map (fun a b h => List.append_cancel_left h) hcnodup
      · intro x hx hx'
        obtain ⟨c, hc, hceq⟩ := List.mem_map.mp hx
        obtain ⟨q, hq, hq'⟩ := List.mem_flatMap.mp hx'
        obtain ⟨c', hc', hceq'⟩ := List.mem_map.mp hq'
        obtain ⟨hqlen, _, hqclen⟩ := hent q (List.mem_cons_of_mem _ hq)
        have heq : parent ++ c.1 = q.1 ++ c'.1 := by rw [hceq, hceq']
        have hlen : parent.length = q.1.length := by rw [hplen, hqlen]
        have := (List.append_inj heq hlen).1
        have hqfst : q.1 ∈ rest.map Prod.fst := List.mem_map_of_mem Prod.fst hq
        have hparent_not : parent ∉ rest.map Prod.fst :=
          (List.nodup_cons.mp (by simpa using hnodup)).1
        exact hparent_not (this ▸ hqfst)

theorem mem_topologyCounterOf_keys (ts : List NodeT) :
    ∀ k ∈ (topologyCounterOf ts).map Prod.fst, k ∈ ts := by
  unfold topologyCounterOf
  have step : ∀ (t : NodeT) (d : List (NodeT × ℕ)),
      ∀ k ∈ (counterIncr t d).map Prod.fst, k ∈ d.map Prod.fst ∨ k = t := by
    intro t d
    induction d with
    | nil => simp [counterIncr]
    | cons p rest ih =>
        obtain ⟨k', v⟩ := p
        intro k hk
        simp only [counterIncr] at hk
        by_cases h : NodeT.nodeEq k' t
        · rw [if_pos h, List.map_cons] at hk
          rcases List.mem_cons.mp hk with h' | h'
          · exact Or.inl (by rw [List.map_cons]; exact h' ▸ List.mem_cons_self _ _)
          · exact Or.inl (by rw [List.map_cons]; exact List.mem_cons_of_mem _ h')
        · rw [if_neg h, List.map_cons] at hk
          rcases List.mem_cons.mp hk with h' | h'
          · exact Or.inl (by rw [List.map_cons]; exact h' ▸ List.mem_cons_self _ _)
          · rcases ih k h' with h'' | h''
            · exact Or.inl (by rw [List.map_cons]; exact List.mem_cons_of_mem _ h'')
            · exact Or.inr h''
  have main : ∀ (l : List NodeT) (d : List (NodeT × ℕ)) (P : NodeT → Prop),
      (∀ k ∈ d.map Prod.fst, P k) → (∀ t ∈ l, P t) →
      ∀ k ∈ ((l.foldl (fun acc t => counterIncr t acc) d).map Prod.fst), P k := by
    intro l
    induction l with
    | nil => intro d P hd _ k hk; exact hd k hk
    | cons t rest ih =>
        intro d P hd hl k hk
        refine ih (counterIncr t d) P ?_ (fun t' ht' => hl t' (List.mem_cons_of_mem _ ht')) k hk
        intro k' hk'
        rcases step t d k' hk' with h | h
        · exact hd k' h
        · exact h ▸ hl t (List.mem_cons_self t rest)
  exact main ts [] (· ∈ ts) (by simp) (fun t ht => ht)

theorem processLoadedTrees_eq (s : SBNState) :
    processLoadedTrees s =
      { s with
        topologyCounter := observedTC s
        rootsplits := (rootsplitCounterOf (observedTC s)).map Prod.fst
        indexer := indexRootsplits 0 (rootsplitCounterOf (observedTC s)) ++
          (indexPCSSFrom (observedR s) (pcssCounterOf (observedTC s))).1
        parentToRange := (indexPCSSFrom (observedR s) (pcssCounterOf (observedTC s))).2.1
        indexToChild := (indexPCSSFrom (observedR s) (pcssCounterOf (observedTC s))).2.2.1
        sbnParameters :=
          List.replicate ((indexPCSSFrom (observedR s) (pcssCounterOf (observedTC s))).2.2.2) 1
        taxonNames := s.collectionTaxonNames } := rfl

theorem indexRootsplits_length (i : ℕ) (rd : List (Bitset × ℕ)) :
    (indexRootsplits i rd).length = rd.length := by
  have := congrArg List.length (indexRootsplits_keys i rd)
  simpa using this

/-- Claim C1, part of the hypotheses: every topology in the counter has
`n` leaves when every loaded tree does. -/
theorem observedTC_leafCount (s : SBNState) (n : ℕ)
    (htrees : ∀ tr ∈ s.trees, NodeT.leafCount tr.topology = n) :
    ∀ p ∈ observedTC s, NodeT.leafCount p.1 = n := by
  intro p hp
  have h1 : p.1 ∈ (observedTC s).map Prod.fst := List.mem_map_of_mem Prod.fst hp
  have h2 : p.1 ∈ s.trees.map TreeT.topology := mem_topologyCounterOf_keys _ _ h1
  obtain ⟨tr, htr, heq⟩ := List.mem_map.mp h2
  rw [← heq]
  exact htrees tr htr

theorem rootsplitKeys_length (s : SBNState) (n : ℕ)
    (htrees : ∀ tr ∈ s.trees, NodeT.leafCount tr.topology = n) :
    ∀ k ∈ (rootsplitCounterOf (observedTC s)).map Prod.fst, k.length = n := by
  refine keyProp_rootsplitCounterOf _ _ ?_
  intro p hp k hk
  rw [rootsplit_key_length p.1 k hk, observedTC_leafCount s n htrees p hp]

theorem pcssInv_observed (s : SBNState) (n : ℕ)
    (htrees : ∀ tr ∈ s.trees, NodeT.leafCount tr.topology = n) :
    PcssInv n (pcssCounterOf (observedTC s)) := by
  refine pcssCounterOf_invariant n _ ?_
  intro p hp kc hkc
  obtain ⟨h1, h2⟩ := pcssPair_lengths p.1 kc hkc
  rw [observedTC_leafCount s n htrees p hp] at h1 h2
  exact ⟨h1, h2⟩

theorem processedIndexer_nodup (s : SBNState) (n : ℕ) (hn : 0 < n)
    (htrees : ∀ tr ∈ s.trees, NodeT.leafCount tr.topology = n) :
    ((processLoadedTrees s).indexer.map Prod.fst).Nodup := by
  have hinv := pcssInv_observed s n htrees
  rw [processLoadedTrees_eq]
  simp only
  rw [List.map_append, indexRootsplits_keys, indexPCSSFrom_keys]
  refine List.Nodup.append (nodup_keys_rootsplitCounterOf _) (nodup_pcss_keys n _ hinv) ?_
  intro x hx hx'
  have h1 : x.length = n := rootsplitKeys_length s n htrees x hx
  obtain ⟨q, hq, hq'⟩ := List.mem_flatMap.mp hx'
  obtain ⟨c, hc, hceq⟩ := List.mem_map.mp hq'
  obtain ⟨hqlen, _, hqclen⟩ := hinv.2 q hq
  have h2 : x.length = 3 * n := by
    rw [← hceq]
    simp only [List.length_append]
    rw [hqlen, hqclen c.1 (List.mem_map_of_mem Prod.fst hc)]
    omega
  omega

theorem processedIndexer_vals (s : SBNState) :
    (processLoadedTrees s).indexer.map Prod.snd = List.range (observedM s) := by
  rw [processLoadedTrees_eq]
  simp only
  rw [List.map_append, indexRootsplits_vals, indexPCSSFrom_vals]
  have h0 : (0 : ℕ) + (rootsplitCounterOf (observedTC s)).length = observedR s := by
    rw [Nat.zero_add]
    rfl
  rw [show observedR s = 0 + (rootsplitCounterOf (observedTC s)).length from h0.symm ▸ rfl]
  rw [List.range'_append_1, List.range_eq_range']
  congr 1
  rw [observedM, observedR, observedP]
  omega

theorem processedParams_length (s : SBNState) :
    (processLoadedTrees s).sbnParameters.length = observedM s := by
  rw [processLoadedTrees_eq]
  simp only [List.length_replicate]
  rw [indexPCSSFrom_fin]
  rfl

/-- Claim C1: after `ProcessLoadedTrees` builds the indexer from a
topology set with `R` distinct observed rootsplits and total observed
PCSS count `P`, the indexer is a bijection from the observed
rootsplit/PCSS keys onto `[0, M)` with `M = R + P` (distinct keys whose
indices are exactly `0, 1, ..., M-1` in order); indices `[0, R)` are
exactly the rootsplits; each distinct parent subsplit's children occupy
one contiguous range recorded in `parent_to_range`, and these ranges
partition `[R, M)` with no gaps or overlaps; the parameter vector then
has length `M` with every entry equal to `1.0`. -/
theorem claim_C1 (s : SBNState) (n : ℕ) (hn : 0 < n)
    (htrees : ∀ tr ∈ s.trees, NodeT.leafCount tr.topology = n) :
    (processLoadedTrees s).sbnParameters = List.replicate (observedM s) 1 ∧
    ((processLoadedTrees s).indexer.map Prod.fst).Nodup ∧
    (processLoadedTrees s).indexer.map Prod.snd = List.range (observedM s) ∧
    ((processLoadedTrees s).indexer.take (observedR s)).map Prod.fst =
      (processLoadedTrees s).rootsplits ∧
    (∀ pr ∈ (processLoadedTrees s).indexer,
      (pr.2 < observedR s ↔ pr.1 ∈ (processLoadedTrees s).rootsplits)) ∧
    (processLoadedTrees s).parentToRange.map Prod.fst =
      (pcssCounterOf (observedTC s)).map Prod.fst ∧
    (∀ pr ∈ (processLoadedTrees s).parentToRange,
      observedR s ≤ pr.2.1 ∧ pr.2.1 ≤ pr.2.2 ∧ pr.2.2 ≤ observedM s) ∧
    (∀ j, observedR s ≤ j → j < observedM s →
      ∃! pr, pr ∈ (processLoadedTrees s).parentToRange ∧ pr.2.1 ≤ j ∧ j < pr.2.2) := by
  have hrdlen := rootsplitKeys_length s n htrees
  have hinv := pcssInv_observed s n htrees
  refine ⟨?_, processedIndexer_nodup s n hn htrees, processedIndexer_vals s, ?_, ?_, ?_, ?_, ?_⟩
  · rw [processLoadedTrees_eq]
    simp only
    rw [indexPCSSFrom_fin]
    rfl
  all_goals rw [processLoadedTrees_eq]
  all_goals simp only
  · rw [List.take_append_of_le_length (by rw [indexRootsplits_length]; exact Nat.le_refl _)]
    rw [List.take_of_length_le (by rw [indexRootsplits_length]; exact Nat.le_refl _)]
    exact indexRootsplits_keys 0 _
  · intro pr hpr
    rcases List.mem_append.mp hpr with h | h
    · obtain ⟨h1, _, h3⟩ := indexRootsplits_mem 0 _ pr h
      rw [Nat.zero_add] at h3
      exact ⟨fun _ => h1, fun _ => h3⟩
    · obtain ⟨⟨q, hq, c, hc, hceq⟩, h2, _⟩ := indexPCSSFrom_mem (observedR s) _ pr h
      constructor
      · intro hlt
        omega
      · intro hmem
        exfalso
        have hxlen : pr.1.length = n := hrdlen pr.1 hmem
        obtain ⟨hqlen, _, hqclen⟩ := hinv.2 q hq
        have h3n : pr.1.length = 3 * n := by
          rw [hceq]
          simp only [List.length_append]
          rw [hqlen, hqclen c hc]
          omega
        omega
  · exact indexPCSSFrom_ranges_fst _ _
  · intro pr hpr
    have hb := indexPCSSFrom_ranges_bounds (observedR s) _ pr hpr
    have hM : observedM s = observedR s + totalChildren (pcssCounterOf (observedTC s)) := rfl
    omega
  · intro j h1 h2
    refine indexPCSSFrom_ranges_cover (observedR s) _ j h1 ?_
    have hM : observedM s = observedR s + totalChildren (pcssCounterOf (observedTC s)) := rfl
    omega

theorem lookupD_of_not_mem (d : List (Bitset × ℕ)) (k : Bitset) (dflt : ℕ)
    (h : k ∉ d.map Prod.fst) : lookupD d k dflt = dflt := by
  induction d with
  | nil => rfl
  | cons p rest ih =>
      obtain ⟨k', v⟩ := p
      rw [List.map_cons] at h
      rw [lookupD, if_neg (fun he => h (by rw [← he]; exact List.mem_cons_self _ _))]
      exact ih (fun hm => h (List.mem_cons_of_mem _ hm))

theorem lookupD_of_mem (d : List (Bitset × ℕ)) (k : Bitset) (i dflt : ℕ)
    (hnodup : (d.map Prod.fst).Nodup) (h : (k, i) ∈ d) : lookupD d k dflt = i := by
  induction d with
  | nil => exact absurd h (List.not_mem_nil _)
  | cons p rest ih =>
      obtain ⟨k', v⟩ := p
      rcases List.mem_cons.mp h with he | he
      · have h1 : k = k' ∧ i = v := by
          rw [Prod.ext_iff] at he
          exact he
        rw [lookupD, if_pos h1.1.symm]
        exact h1.2.symm
      · have hk : k' ≠ k := by
          intro heq
          subst heq
          have : k' ∈ rest.map Prod.fst := List.mem_map_of_mem Prod.fst he
          exact (List.nodup_cons.mp (by simpa using hnodup)).1 this
        rw [lookupD, if_neg hk]
        exact ih (List.nodup_cons.mp (by simpa using hnodup)).2 he

/-- Claim C5: for every topology queried through
`MakeIndexerRepresentations` against a state built by
`ProcessLoadedTrees`, the representation maps each key through the
indexer with the sentinel `sbn_parameters_.size()` for missing keys;
that sentinel equals `M`, one past the valid index range (every present
key maps to its unique indexer slot, which is below `M`). -/
theorem claim_C5 (s : SBNState) (n : ℕ) (hn : 0 < n)
    (htrees : ∀ tr ∈ s.trees, NodeT.leafCount tr.topology = n) :
    makeIndexerRepresentations (processLoadedTrees s) =
      (processLoadedTrees s).trees.map (fun tr =>
        (rootedViews (NodeT.leafCount tr.topology) tr.topology).map
          (fun view => view.map (fun k =>
            lookupD (processLoadedTrees s).indexer k
              (processLoadedTrees s).sbnParameters.length))) ∧
    (processLoadedTrees s).sbnParameters.length = observedM s ∧
    (∀ k : Bitset, k ∉ (processLoadedTrees s).indexer.map Prod.fst →
      lookupD (processLoadedTrees s).indexer k
        (processLoadedTrees s).sbnParameters.length = observedM s) ∧
    (∀ k : Bitset, ∀ i : ℕ, (k, i) ∈ (processLoadedTrees s).indexer →
      lookupD (processLoadedTrees s).indexer k
        (processLoadedTrees s).sbnParameters.length = i ∧ i < observedM s) := by
  refine ⟨rfl, processedParams_length s, ?_, ?_⟩
  · intro k hk
    rw [lookupD_of_not_mem _ _ _ hk]
    exact processedParams_length s
  · intro k i hki
    refine ⟨lookupD_of_mem _ _ _ _ (processedIndexer_nodup s n hn htrees) hki, ?_⟩
    have hvals := processedIndexer_vals s
    have : i ∈ (processLoadedTrees s).indexer.map Prod.snd :=
      List.mem_map_of_mem Prod.snd hki
    rw [hvals] at this
    exact List.mem_range.mp this

theorem claim_C5_witness :
    (0 < 3 ∧ (∀ tr ∈ threeTaxonState.trees, NodeT.leafCount tr.topology = 3)) ∧
    (makeIndexerRepresentations (processLoadedTrees threeTaxonState) =
      (processLoadedTrees threeTaxonState).trees.map (fun tr =>
        (rootedViews (NodeT.leafCount tr.topology) tr.topology).map
          (fun view => view.map (fun k =>
            lookupD (processLoadedTrees threeTaxonState).indexer k
              (processLoadedTrees threeTaxonState).sbnParameters.length))) ∧
    (processLoadedTrees threeTaxonState).sbnParameters.length = observedM threeTaxonState ∧
    (∀ k : Bitset, k ∉ (processLoadedTrees threeTaxonState).indexer.map Prod.fst →
      lookupD (processLoadedTrees threeTaxonState).indexer k
        (processLoadedTrees threeTaxonState).sbnParameters.length = observedM threeTaxonState) ∧
    (∀ k : Bitset, ∀ i : ℕ, (k, i) ∈ (processLoadedTrees threeTaxonState).indexer →
      lookupD (processLoadedTrees threeTaxonState).indexer k
        (processLoadedTrees threeTaxonState).sbnParameters.length = i ∧
          i < observedM threeTaxonState)) :=
  ⟨⟨by decide, by decide⟩, claim_C5 threeTaxonState 3 (by decide) (by decide)⟩

theorem claim_C1_witness :
    (0 < 3 ∧ (∀ tr ∈ threeTaxonState.trees, NodeT.leafCount tr.topology = 3)) ∧
    ((processLoadedTrees threeTaxonState).sbnParameters =
        List.replicate (observedM threeTaxonState) 1 ∧
      ((processLoadedTrees threeTaxonState).indexer.map Prod.fst).Nodup ∧
      (processLoadedTrees threeTaxonState).indexer.map Prod.snd =
        List.range (observedM threeTaxonState) ∧
      ((processLoadedTrees threeTaxonState).indexer.take (observedR threeTaxonState)).map
          Prod.fst = (processLoadedTrees threeTaxonState).rootsplits ∧
      (∀ pr ∈ (processLoadedTrees threeTaxonState).indexer,
        (pr.2 < observedR threeTaxonState ↔
          pr.1 ∈ (processLoadedTrees threeTaxonState).rootsplits)) ∧
      (processLoadedTrees threeTaxonState).parentToRange.map Prod.fst =
        (pcssCounterOf (observedTC threeTaxonState)).map Prod.fst ∧
      (∀ pr ∈ (processLoadedTrees threeTaxonState).parentToRange,
        observedR threeTaxonState ≤ pr.2.1 ∧ pr.2.1 ≤ pr.2.2 ∧
          pr.2.2 ≤ observedM threeTaxonState) ∧
      (∀ j, observedR threeTaxonState ≤ j → j < observedM threeTaxonState →
        ∃! pr, pr ∈ (processLoadedTrees threeTaxonState).parentToRange ∧
          pr.2.1 ≤ j ∧ j < pr.2.2)) :=
  ⟨⟨by decide, by decide⟩, claim_C1 threeTaxonState 3 (by decide) (by decide)⟩

/-- Claim C4, counterexample: building against an empty topology set
does not fail — `ProcessLoadedTrees` has no failure path at all in this
snapshot (no emptiness check is performed; `CheckTopologyCounter` is only
declared, not called or defined here).  On a freshly constructed
instance it completes normally and returns the instance unchanged, all
SBN maps empty, instead of failing with a "nothing loaded" condition. -/
theorem claim_C4_counterexample : processLoadedTrees emptyState = emptyState := rfl

/-- Claim C4 (amended): building the indexer from an empty topology set
does not itself fail; it completes leaving every SBN map and the
parameter vector empty.  Sampling before the SBN maps have been built
(`SampleTrees` on any state with an empty indexer, in particular the one
`ProcessLoadedTrees` leaves after an empty build) fails fast with the
descriptive condition `"Please call ProcessLoadedTrees to prepare your
SBN maps."`; the snapshot's training entry points perform no such
check. -/
theorem claim_C4 (s : SBNState) (h : s.trees = []) :
    processLoadedTrees s =
      { s with
        sbnParameters := []
        rootsplits := []
        indexer := []
        indexToChild := []
        parentToRange := []
        topologyCounter := []
        taxonNames := s.collectionTaxonNames } ∧
    checkSBNMapsAvailable (processLoadedTrees s) =
      Except.error "Please call ProcessLoadedTrees to prepare your SBN maps." ∧
    (∀ count sample, sampleTrees (processLoadedTrees s) count sample =
      Except.error "Please call ProcessLoadedTrees to prepare your SBN maps.") ∧
    (∀ s₂ : SBNState, s₂.indexer = [] → ∀ count sample, sampleTrees s₂ count sample =
      Except.error "Please call ProcessLoadedTrees to prepare your SBN maps.") := by
  have htc : observedTC s = [] := by
    rw [observedTC, h]
    rfl
  have hR : observedR s = 0 := by
    rw [observedR, htc]
    rfl
  have heq : processLoadedTrees s =
      { s with
        sbnParameters := []
        rootsplits := []
        indexer := []
        indexToChild := []
        parentToRange := []
        topologyCounter := []
        taxonNames := s.collectionTaxonNames } := by
    rw [processLoadedTrees_eq, htc, hR]
    rfl
  have hcheck : ∀ s₂ : SBNState, s₂.indexer = [] →
      checkSBNMapsAvailable s₂ =
        Except.error "Please call ProcessLoadedTrees to prepare your SBN maps." := by
    intro s₂ h₂
    rw [checkSBNMapsAvailable, if_pos]
    rw [h₂]
    simp
  have hsample : ∀ s₂ : SBNState, s₂.indexer = [] → ∀ count sample,
      sampleTrees s₂ count sample =
        Except.error "Please call ProcessLoadedTrees to prepare your SBN maps." := by
    intro s₂ h₂ count sample
    rw [sampleTrees, hcheck s₂ h₂]
  refine ⟨heq, hcheck _ (by rw [heq]), fun count sample => hsample _ (by rw [heq]) count sample,
    hsample⟩

theorem claim_C4_witness :
    emptyState.trees = [] ∧
    (processLoadedTrees emptyState =
      { emptyState with
        sbnParameters := []
        rootsplits := []
        indexer := []
        indexToChild := []
        parentToRange := []
        topologyCounter := []
        taxonNames := emptyState.collectionTaxonNames } ∧
    checkSBNMapsAvailable (processLoadedTrees emptyState) =
      Except.error "Please call ProcessLoadedTrees to prepare your SBN maps." ∧
    (∀ count sample, sampleTrees (processLoadedTrees emptyState) count sample =
      Except.error "Please call ProcessLoadedTrees to prepare your SBN maps.") ∧
    (∀ s₂ : SBNState, s₂.indexer = [] → ∀ count sample, sampleTrees s₂ count sample =
      Except.error "Please call ProcessLoadedTrees to prepare your SBN maps.")) :=
  ⟨rfl, claim_C4 emptyState rfl⟩

/-- Claim C6: `SampleIndex(range = [start, end))` fails if and only if
the range is empty (`start >= end`) or out of bounds
(`end > sbn_parameters_.size()`); when it succeeds the returned index
lies in `[start, end)`, so the out-of-range assertion after the draw
never fires (the out-of-range error message is never produced).  The
invalid-range check runs before anything is drawn, so the failure
direction holds for every draw value; the success bound and the
never-fired second assertion additionally use that the draw oracle is
below the weight count, as `std::discrete_distribution` guarantees. -/
theorem claim_C6 (s : SBNState) (range : ℕ × ℕ) (draw : ℕ) :
    ((range.2 ≤ range.1 ∨ s.sbnParameters.length < range.2) →
      (sampleIndex s range draw).2 =
        Except.error "SampleIndex given an invalid range.") ∧
    (draw < range.2 - range.1 →
      (((∃ e, (sampleIndex s range draw).2 = Except.error e) ↔
        (range.2 ≤ range.1 ∨ s.sbnParameters.length < range.2)) ∧
      (∀ r, (sampleIndex s range draw).2 = Except.ok r → range.1 ≤ r ∧ r < range.2) ∧
      (sampleIndex s range draw).2 ≠
        Except.error "SampleIndex sampled a value out of range.")) := by
  constructor
  · intro h
    have hv : ¬ (range.1 < range.2 ∧ range.2 ≤ s.sbnParameters.length) := by omega
    rw [sampleIndex, if_neg hv]
  · intro hdraw
    by_cases hv : range.1 < range.2 ∧ range.2 ≤ s.sbnParameters.length
    · have hlt : range.1 + draw < range.2 := by omega
      rw [sampleIndex, if_pos hv]
      simp only [if_pos hlt]
      refine ⟨⟨fun ⟨e, he⟩ => absurd he (by simp), fun hr => absurd hv (by omega)⟩, ?_, by simp⟩
      intro r hr
      have : range.1 + draw = r := by
        simpa using hr
      omega
    · rw [sampleIndex, if_neg hv]
      refine ⟨⟨fun _ => by omega, fun _ => ⟨_, rfl⟩⟩, fun r hr => absurd hr (by simp), ?_⟩
      simp only [ne_eq, Except.error.injEq]
      decide

theorem claim_C6_witness :
    ((sampleIndex (processLoadedTrees threeTaxonState) (2, 2) 7).2 =
      Except.error "SampleIndex given an invalid range.") ∧
    1 < 2 - 0 ∧
    (((∃ e, (sampleIndex (processLoadedTrees threeTaxonState) (0, 2) 1).2 =
        Except.error e) ↔
      (2 ≤ 0 ∨ (processLoadedTrees threeTaxonState).sbnParameters.length < 2)) ∧
    (∀ r, (sampleIndex (processLoadedTrees threeTaxonState) (0, 2) 1).2 = Except.ok r →
      0 ≤ r ∧ r < 2) ∧
    (sampleIndex (processLoadedTrees threeTaxonState) (0, 2) 1).2 ≠
      Except.error "SampleIndex sampled a value out of range.") :=
  ⟨(claim_C6 (processLoadedTrees threeTaxonState) (2, 2) 7).1 (by decide),
   by decide,
   (claim_C6 (processLoadedTrees threeTaxonState) (0, 2) 1).2 (by decide)⟩

/-- Claim C8: `SampleIndex` and `CalculateSBNProbabilities` leave
`sbn_parameters_`, the indexer and `parent_to_range_` unchanged — both
work on a copy of the relevant (sub)vector and assign no member — for
every choice of the (externally defined) normalization and scoring
functions. -/
theorem claim_C8 (f : List ℚ → ℕ → List (Bitset × (ℕ × ℕ)) → List ℚ)
    (g : List ℚ → List (List (List ℕ)) → List ℚ)
    (s : SBNState) (range : ℕ × ℕ) (draw : ℕ) :
    (calculateSBNProbabilities f g s).1.sbnParameters = s.sbnParameters ∧
    (calculateSBNProbabilities f g s).1.indexer = s.indexer ∧
    (calculateSBNProbabilities f g s).1.parentToRange = s.parentToRange ∧
    (sampleIndex s range draw).1.sbnParameters = s.sbnParameters ∧
    (sampleIndex s range draw).1.indexer = s.indexer ∧
    (sampleIndex s range draw).1.parentToRange = s.parentToRange := by
  have hsi : (sampleIndex s range draw).1 = s := by
    rw [sampleIndex]
    split
    · by_cases h2 : range.1 + draw < range.2 <;> simp [h2]
    · rfl
  exact ⟨rfl, rfl, rfl, by rw [hsi], by rw [hsi], by rw [hsi]⟩

/-- Claim C9: the code violates this claim.  In `RatioGradient` the
in-place loop subtracts the log-Jacobian-determinant entry (plus the
`1/parameters_[i]` term) from the root entry as well, and `temp` then
subtracts that entry once more, so `temp` differs from the directly
recomputed difference of the two
`UpdateHeightParameterGradientUnweightedLogDensity` calls by
`1/root_height - d(logJacobian)/d(rootHeight)`.  Already on a two-leaf
tree with root height one half this gap is `2`, so the internal equality
assertion fails for every branch gradient the engine could return. -/
theorem claim_C9 (branchGradient : List ℚ) :
    ratioGradient twoLeafTree 2 branchGradient =
      Except.error "gradientLogDensity[root_id-leaf_count]" := by
  simp [ratioGradient, twoLeafTree, heightGradientOf, updateGradientUnWeightedLogDensity,
    updateHeightParameterGradientUnweightedLogDensity, getLogTimeArray, getNodePartial,
    getEpochGradientAddition]

/-- Claim C10: `SampleTrees(count)` fails fast exactly when the SBN maps
are unavailable; on success the tree collection holds exactly `count`
freshly sampled topologies, each with a zero branch-length vector of
length `2 * leaf_count - 2` (`leaf_count` being `rootsplits_[0].size()`),
while the indexer, parameter vector, parent-to-range map and topology
counter are unchanged. -/
theorem claim_C10 (s : SBNState) (count : ℕ) (sample : ℕ → NodeT) :
    ((∃ e, sampleTrees s count sample = Except.error e) ↔
      checkSBNMapsAvailable s ≠ Except.ok ()) ∧
    (∀ s', sampleTrees s count sample = Except.ok s' →
      s'.trees = (List.range count).map
        (fun i => ⟨sample i, List.replicate (2 * (s.rootsplits.headD []).length - 2) 0⟩) ∧
      s'.trees.length = count ∧
      (∀ tr ∈ s'.trees,
        tr.branchLengths = List.replicate (2 * (s.rootsplits.headD []).length - 2) 0) ∧
      s'.indexer = s.indexer ∧ s'.sbnParameters = s.sbnParameters ∧
      s'.parentToRange = s.parentToRange ∧ s'.topologyCounter = s.topologyCounter) := by
  cases hcheck : checkSBNMapsAvailable s with
  | error e =>
      have hrun : sampleTrees s count sample = Except.error e := by
        rw [sampleTrees, hcheck]
      refine ⟨⟨fun _ => by simp [hcheck], fun _ => ⟨e, hrun⟩⟩, ?_⟩
      intro s' hs'
      rw [hrun] at hs'
      exact absurd hs' (by simp)
  | ok u =>
      cases u
      have hrun : sampleTrees s count sample = Except.ok
          { s with trees := ((List.range count).map (fun i => TreeT.mk (sample i) (List.replicate (2 * (s.rootsplits.headD []).length - 2) 0))) } := by
        rw [sampleTrees, hcheck]
      refine ⟨⟨fun ⟨e, he⟩ => absurd (hrun ▸ he) (by simp), fun hne => absurd rfl hne⟩, ?_⟩
      intro s' hs'
      rw [hrun] at hs'
      have hs'' : s' =
          { s with trees := ((List.range count).map (fun i => TreeT.mk (sample i) (List.replicate (2 * (s.rootsplits.headD []).length - 2) 0))) } := by
        simpa using hs'.symm
      subst hs''
      refine ⟨rfl, by simp, ?_, rfl, rfl, rfl, rfl⟩
      intro tr htr
      simp only [List.mem_map] at htr
      obtain ⟨i, _, rfl⟩ := htr
      rfl

theorem claim_C10_witness :
    ((∃ e, sampleTrees (processLoadedTrees threeTaxonState) 2 (fun _ => NodeT.leaf 0) =
        Except.error e) ↔
      checkSBNMapsAvailable (processLoadedTrees threeTaxonState) ≠ Except.ok ()) ∧
    (∀ s', sampleTrees (processLoadedTrees threeTaxonState) 2 (fun _ => NodeT.leaf 0) =
        Except.ok s' →
      s'.trees = (List.range 2).map
        (fun i => ⟨(fun _ => NodeT.leaf 0) i, List.replicate
          (2 * ((processLoadedTrees threeTaxonState).rootsplits.headD []).length - 2) 0⟩) ∧
      s'.trees.length = 2 ∧
      (∀ tr ∈ s'.trees, tr.branchLengths = List.replicate
        (2 * ((processLoadedTrees threeTaxonState).rootsplits.headD []).length - 2) 0) ∧
      s'.indexer = (processLoadedTrees threeTaxonState).indexer ∧
      s'.sbnParameters = (processLoadedTrees threeTaxonState).sbnParameters ∧
      s'.parentToRange = (processLoadedTrees threeTaxonState).parentToRange ∧
      s'.topologyCounter = (processLoadedTrees threeTaxonState).topologyCounter) :=
  claim_C10 (processLoadedTrees threeTaxonState) 2 (fun _ => NodeT.leaf 0)

theorem one_le_leafCount_of_isBinary : ∀ t : NodeT, NodeT.isBinary t = true →
    1 ≤ NodeT.leafCount t
  | NodeT.leaf i, _ => by simp
  | NodeT.internal [c0, c1], h => by
      have h0 : NodeT.isBinary c0 = true := by
        have : NodeT.isBinary c0 = true ∧ NodeT.isBinary c1 = true := by
          simpa [NodeT.isBinary] using h
        exact this.1
      have := one_le_leafCount_of_isBinary c0 h0
      rw [NodeT.leafCount_internal]
      simp only [List.map_cons, List.map_nil, List.sum_cons, List.sum_nil]
      omega
  | NodeT.internal [], h => absurd h Bool.false_ne_true
  | NodeT.internal [c], h => absurd h Bool.false_ne_true
  | NodeT.internal (c0 :: c1 :: c2 :: rest), h => absurd h Bool.false_ne_true

theorem viewsAux_length : ∀ (v above : NodeT), NodeT.isBinary v = true →
    (viewsAux above v).length = 2 * NodeT.leafCount v - 1
  | NodeT.leaf i, above, _ => by simp [viewsAux]
  | NodeT.internal [c0, c1], above, h => by
      obtain ⟨h0, h1⟩ : NodeT.isBinary c0 = true ∧ NodeT.isBinary c1 = true := by
        simpa [NodeT.isBinary] using h
      have l0 := viewsAux_length c0 (NodeT.internal [c1, above]) h0
      have l1 := viewsAux_length c1 (NodeT.internal [c0, above]) h1
      have p0 := one_le_leafCount_of_isBinary c0 h0
      have p1 := one_le_leafCount_of_isBinary c1 h1
      rw [viewsAux]
      simp only [List.length_cons, List.length_append, l0, l1, NodeT.leafCount_internal,
        List.map_cons, List.map_nil, List.sum_cons, List.sum_nil]
      omega
  | NodeT.internal [], above, h => absurd h Bool.false_ne_true
  | NodeT.internal [c], above, h => absurd h Bool.false_ne_true
  | NodeT.internal (c0 :: c1 :: c2 :: rest), above, h => absurd h Bool.false_ne_true

theorem viewsAux_map_fst : ∀ (v above : NodeT), NodeT.isBinary v = true →
    (viewsAux above v).map Prod.fst = NodeT.preOrder v
  | NodeT.leaf i, above, _ => by simp [viewsAux, NodeT.preOrder]
  | NodeT.internal [c0, c1], above, h => by
      obtain ⟨h0, h1⟩ : NodeT.isBinary c0 = true ∧ NodeT.isBinary c1 = true := by
        simpa [NodeT.isBinary] using h
      rw [viewsAux]
      simp only [List.map_cons, List.map_append,
        viewsAux_map_fst c0 (NodeT.internal [c1, above]) h0,
        viewsAux_map_fst c1 (NodeT.internal [c0, above]) h1]
      rw [NodeT.preOrder_internal]
      simp
  | NodeT.internal [], above, h => absurd h Bool.false_ne_true
  | NodeT.internal [c], above, h => absurd h Bool.false_ne_true
  | NodeT.internal (c0 :: c1 :: c2 :: rest), above, h => absurd h Bool.false_ne_true

theorem viewsAux_mem : ∀ (v above : NodeT), NodeT.isBinary v = true →
    NodeT.isBinary above = true →
    ∀ p ∈ viewsAux above v, NodeT.isBinary p.1 = true ∧ NodeT.isBinary p.2 = true ∧
      NodeT.leafCount p.1 + NodeT.leafCount p.2 =
        NodeT.leafCount v + NodeT.leafCount above
  | NodeT.leaf i, above, _, habove, p, hp => by
      have hp' : p ∈ [(NodeT.leaf i, above)] := hp
      rw [List.mem_singleton] at hp'
      subst hp'
      exact ⟨rfl, habove, rfl⟩
  | NodeT.internal [c0, c1], above, h, habove, p, hp => by
      obtain ⟨h0, h1⟩ : NodeT.isBinary c0 = true ∧ NodeT.isBinary c1 = true := by
        simpa [NodeT.isBinary] using h
      rw [viewsAux] at hp
      rcases List.mem_cons.mp hp with he | he
      · subst he
        exact ⟨h, habove, rfl⟩
      · have hsum : NodeT.leafCount (NodeT.internal [c0, c1]) =
            NodeT.leafCount c0 + NodeT.leafCount c1 := by
          rw [NodeT.leafCount_internal]
          simp
        rcases List.mem_append.mp he with he' | he'
        · have hab : NodeT.isBinary (NodeT.internal [c1, above]) = true := by
            simp [NodeT.isBinary, h1, habove]
          obtain ⟨q1, q2, q3⟩ := viewsAux_mem c0 (NodeT.internal [c1, above]) h0 hab p he'
          refine ⟨q1, q2, ?_⟩
          rw [q3, hsum]
          have : NodeT.leafCount (NodeT.internal [c1, above]) =
              NodeT.leafCount c1 + NodeT.leafCount above := by
            rw [NodeT.leafCount_internal]
            simp
          omega
        · have hab : NodeT.isBinary (NodeT.internal [c0, above]) = true := by
            simp [NodeT.isBinary, h0, habove]
          obtain ⟨q1, q2, q3⟩ := viewsAux_mem c1 (NodeT.internal [c0, above]) h1 hab p he'
          refine ⟨q1, q2, ?_⟩
          rw [q3, hsum]
          have : NodeT.leafCount (NodeT.internal [c0, above]) =
              NodeT.leafCount c0 + NodeT.leafCount above := by
            rw [NodeT.leafCount_internal]
            simp
          omega
  | NodeT.internal [], above, h, _, p, hp => absurd h Bool.false_ne_true
  | NodeT.internal [c], above, h, _, p, hp => absurd h Bool.false_ne_true
  | NodeT.internal (c0 :: c1 :: c2 :: rest), above, h, _, p, hp => absurd h Bool.false_ne_true

theorem pcssKeysBelow_length : ∀ (v : NodeT) (n : ℕ) (sc : Bitset),
    NodeT.isBinary v = true →
    (pcssKeysBelow n sc v).length = NodeT.leafCount v - 1
  | NodeT.leaf i, n, sc, _ => by simp [pcssKeysBelow]
  | NodeT.internal [c0, c1], n, sc, h => by
      obtain ⟨h0, h1⟩ : NodeT.isBinary c0 = true ∧ NodeT.isBinary c1 = true := by
        simpa [NodeT.isBinary] using h
      have l0 := pcssKeysBelow_length c0 n (NodeT.cladeOf n c1) h0
      have l1 := pcssKeysBelow_length c1 n (NodeT.cladeOf n c0) h1
      have p0 := one_le_leafCount_of_isBinary c0 h0
      have p1 := one_le_leafCount_of_isBinary c1 h1
      rw [pcssKeysBelow]
      simp only [List.length_cons, List.length_append, l0, l1, NodeT.leafCount_internal,
        List.map_cons, List.map_nil, List.sum_cons, List.sum_nil]
      omega
  | NodeT.internal [], n, sc, h => absurd h Bool.false_ne_true
  | NodeT.internal [c], n, sc, h => absurd h Bool.false_ne_true
  | NodeT.internal (c0 :: c1 :: c2 :: rest), n, sc, h => absurd h Bool.false_ne_true

theorem sameSet_symm {l₁ l₂ : List ℕ} (h : sameSet l₁ l₂) : sameSet l₂ l₁ :=
  fun i => (h i).symm

theorem not_sameSet_of_disjoint {l₁ l₂ : List ℕ} (hne : l₁ ≠ [])
    (hdisj : ∀ i ∈ l₁, i ∉ l₂) : ¬ sameSet l₁ l₂ := by
  intro hss
  obtain ⟨i, hi⟩ := List.exists_mem_of_ne_nil l₁ hne
  exact hdisj i hi ((hss i).mp hi)

theorem cladeOf_eq_of_sameSet {n : ℕ} {x y : NodeT}
    (h : sameSet (NodeT.leafList x) (NodeT.leafList y)) :
    NodeT.cladeOf n x = NodeT.cladeOf n y := by
  refine bitset_ext (by rw [NodeT.length_cladeOf, NodeT.length_cladeOf]) (fun i => ?_)
  rw [NodeT.tb_cladeOf, NodeT.tb_cladeOf]
  by_cases hi : i ∈ NodeT.leafList x
  · rw [decide_eq_true hi, decide_eq_true ((h i).mp hi)]
  · rw [decide_eq_false hi, decide_eq_false (fun hm => hi ((h i).mpr hm))]

theorem sameSet_of_cladeOf_eq {n : ℕ} {x y : NodeT}
    (hbx : ∀ i ∈ NodeT.leafList x, i < n) (hby : ∀ i ∈ NodeT.leafList y, i < n)
    (h : NodeT.cladeOf n x = NodeT.cladeOf n y) :
    sameSet (NodeT.leafList x) (NodeT.leafList y) := by
  intro i
  have := congrArg (fun b => tb b i) h
  simp only at this
  rw [NodeT.tb_cladeOf, NodeT.tb_cladeOf] at this
  constructor
  · intro hi
    have hlt : i < n := hbx i hi
    rw [decide_eq_true hi, decide_eq_true hlt] at this
    have := this.symm
    rcases Bool.and_eq_true_iff.mp this with ⟨h1, _⟩
    exact of_decide_eq_true h1
  · intro hi
    have hlt : i < n := hby i hi
    rw [decide_eq_true hi, decide_eq_true hlt] at this
    rcases Bool.and_eq_true_iff.mp this with ⟨h1, _⟩
    exact of_decide_eq_true h1

/-- The key discrimination step: two direction-tagged clade chunks of
the same topology can only coincide when the directions agree and the
leaf sets agree, provided some taxon lies outside both subtrees (which
rules the flipped/unflipped mix out). -/
theorem dirClade_eq_cases {n : ℕ} {x y : NodeT} {dx dy : Bool}
    (hbx : ∀ i ∈ NodeT.leafList x, i < n) (hby : ∀ i ∈ NodeT.leafList y, i < n)
    (i₀ : ℕ) (hi₀ : i₀ < n) (hix : i₀ ∉ NodeT.leafList x) (hiy : i₀ ∉ NodeT.leafList y)
    (h : dirClade n x dx = dirClade n y dy) :
    dx = dy ∧ sameSet (NodeT.leafList x) (NodeT.leafList y) := by
  have hlx : i₀ < (NodeT.cladeOf n x).length := by rw [NodeT.length_cladeOf]; exact hi₀
  have hly : i₀ < (NodeT.cladeOf n y).length := by rw [NodeT.length_cladeOf]; exact hi₀
  have htx : tb (NodeT.cladeOf n x) i₀ = false := by
    rw [NodeT.tb_cladeOf, decide_eq_false hix]
    rfl
  have hty : tb (NodeT.cladeOf n y) i₀ = false := by
    rw [NodeT.tb_cladeOf, decide_eq_false hiy]
    rfl
  cases dx <;> cases dy
  · exact ⟨rfl, sameSet_of_cladeOf_eq hbx hby (by simpa [dirClade] using h)⟩
  · exfalso
    have hcl : NodeT.cladeOf n x = bnot (NodeT.cladeOf n y) := by simpa [dirClade] using h
    have := congrArg (fun b => tb b i₀) hcl
    simp only at this
    rw [htx, tb_bnot hly, hty] at this
    exact Bool.false_ne_true this
  · exfalso
    have hcl : bnot (NodeT.cladeOf n x) = NodeT.cladeOf n y := by simpa [dirClade] using h
    have := congrArg (fun b => tb b i₀) hcl
    simp only at this
    rw [tb_bnot hlx, htx, hty] at this
    exact Bool.false_ne_true this.symm
  · have : NodeT.cladeOf n x = NodeT.cladeOf n y := by
      have hb := congrArg bnot (by simpa [dirClade] using h)
      rwa [bnot_bnot, bnot_bnot] at hb
    exact ⟨rfl, sameSet_of_cladeOf_eq hbx hby this⟩

/-- Claim C2: for an input topology with `n` leaves, a trifurcating root
and binary internal nodes otherwise, enumerating all virtual rootings
produces exactly `2n - 3` rooted views, one per edge of the unrooted
tree (the edges' lower endpoints are exactly the nodes below the root,
the same per-edge enumeration the rootsplit counter walks), and each
view is the rootsplit key designated by that rooting followed by the
PCSS keys of that rooted view's `n - 2` internal edges (so each view has
`n - 1` keys). -/
theorem claim_C2 (t : NodeT) (hWF : NodeT.isTrifurcating t = true) :
    (rootedViews (NodeT.leafCount t) t).length = 2 * NodeT.leafCount t - 3 ∧
    (virtualRootings t).map Prod.fst = (NodeT.children t).flatMap NodeT.preOrder ∧
    (∀ p ∈ virtualRootings t,
      rootedKeys (NodeT.leafCount t) (NodeT.internal [p.1, p.2]) =
        minorize (NodeT.cladeOf (NodeT.leafCount t) p.1) ::
          (pcssKeysBelow (NodeT.leafCount t) (NodeT.cladeOf (NodeT.leafCount t) p.2) p.1 ++
           pcssKeysBelow (NodeT.leafCount t) (NodeT.cladeOf (NodeT.leafCount t) p.1) p.2) ∧
      (rootedKeys (NodeT.leafCount t) (NodeT.internal [p.1, p.2])).length =
        NodeT.leafCount t - 1) := by
  match t, hWF with
  | NodeT.internal [a, b, c], hWF =>
    obtain ⟨⟨ha, hb⟩, hc⟩ : (NodeT.isBinary a = true ∧ NodeT.isBinary b = true) ∧
        NodeT.isBinary c = true := by
      simpa [NodeT.isTrifurcating] using hWF
    have hla := one_le_leafCount_of_isBinary a ha
    have hlb := one_le_leafCount_of_isBinary b hb
    have hlc := one_le_leafCount_of_isBinary c hc
    have hn : NodeT.leafCount (NodeT.internal [a, b, c]) =
        NodeT.leafCount a + NodeT.leafCount b + NodeT.leafCount c := by
      rw [NodeT.leafCount_internal]
      simp only [List.map_cons, List.map_nil, List.sum_cons, List.sum_nil]
      omega
    have hvr : virtualRootings (NodeT.internal [a, b, c]) =
        viewsAux (NodeT.internal [b, c]) a ++
          (viewsAux (NodeT.internal [c, a]) b ++ viewsAux (NodeT.internal [a, b]) c) := rfl
    have hbc : NodeT.isBinary (NodeT.internal [b, c]) = true := by
      simp [NodeT.isBinary, hb, hc]
    have hca : NodeT.isBinary (NodeT.internal [c, a]) = true := by
      simp [NodeT.isBinary, hc, ha]
    have hab : NodeT.isBinary (NodeT.internal [a, b]) = true := by
      simp [NodeT.isBinary, ha, hb]
    refine ⟨?_, ?_, ?_⟩
    · rw [rootedViews, List.length_map, hvr]
      simp only [List.length_append]
      rw [viewsAux_length a _ ha, viewsAux_length b _ hb, viewsAux_length c _ hc, hn]
      omega
    · rw [hvr]
      simp only [List.map_append]
      rw [viewsAux_map_fst a _ ha, viewsAux_map_fst b _ hb, viewsAux_map_fst c _ hc]
      show _ = [a, b, c].flatMap NodeT.preOrder
      simp
    · intro p hp
      have hmem : NodeT.isBinary p.1 = true ∧ NodeT.isBinary p.2 = true ∧
          NodeT.leafCount p.1 + NodeT.leafCount p.2 =
            NodeT.leafCount (NodeT.internal [a, b, c]) := by
        rw [hvr] at hp
        rcases List.mem_append.mp hp with h | h
        · obtain ⟨q1, q2, q3⟩ := viewsAux_mem a (NodeT.internal [b, c]) ha hbc p h
          refine ⟨q1, q2, ?_⟩
          rw [q3, hn]
          have : NodeT.leafCount (NodeT.internal [b, c]) =
              NodeT.leafCount b + NodeT.leafCount c := by
            rw [NodeT.leafCount_internal]
            simp
          omega
        · rcases List.mem_append.mp h with h' | h'
          · obtain ⟨q1, q2, q3⟩ := viewsAux_mem b (NodeT.internal [c, a]) hb hca p h'
            refine ⟨q1, q2, ?_⟩
            rw [q3, hn]
            have : NodeT.leafCount (NodeT.internal [c, a]) =
                NodeT.leafCount c + NodeT.leafCount a := by
              rw [NodeT.leafCount_internal]
              simp
            omega
          · obtain ⟨q1, q2, q3⟩ := viewsAux_mem c (NodeT.internal [a, b]) hc hab p h'
            refine ⟨q1, q2, ?_⟩
            rw [q3, hn]
            have : NodeT.leafCount (NodeT.internal [a, b]) =
                NodeT.leafCount a + NodeT.leafCount b := by
              rw [NodeT.leafCount_internal]
              simp
            omega
      obtain ⟨hp1, hp2, hpsum⟩ := hmem
      refine ⟨rfl, ?_⟩
      show (minorize (NodeT.cladeOf _ p.1) ::
        (pcssKeysBelow _ (NodeT.cladeOf _ p.2) p.1 ++
          pcssKeysBelow _ (NodeT.cladeOf _ p.1) p.2)).length = _
      simp only [List.length_cons, List.length_append]
      rw [pcssKeysBelow_length p.1 _ _ hp1, pcssKeysBelow_length p.2 _ _ hp2]
      have q1 := one_le_leafCount_of_isBinary p.1 hp1
      have q2 := one_le_leafCount_of_isBinary p.2 hp2
      omega

theorem claim_C2_witness :
    NodeT.isTrifurcating fourTaxonTopology = true ∧
    ((rootedViews (NodeT.leafCount fourTaxonTopology) fourTaxonTopology).length =
        2 * NodeT.leafCount fourTaxonTopology - 3 ∧
    (virtualRootings fourTaxonTopology).map Prod.fst =
      (NodeT.children fourTaxonTopology).flatMap NodeT.preOrder ∧
    (∀ p ∈ virtualRootings fourTaxonTopology,
      rootedKeys (NodeT.leafCount fourTaxonTopology) (NodeT.internal [p.1, p.2]) =
        minorize (NodeT.cladeOf (NodeT.leafCount fourTaxonTopology) p.1) ::
          (pcssKeysBelow (NodeT.leafCount fourTaxonTopology)
            (NodeT.cladeOf (NodeT.leafCount fourTaxonTopology) p.2) p.1 ++
           pcssKeysBelow (NodeT.leafCount fourTaxonTopology)
            (NodeT.cladeOf (NodeT.leafCount fourTaxonTopology) p.1) p.2) ∧
      (rootedKeys (NodeT.leafCount fourTaxonTopology) (NodeT.internal [p.1, p.2])).length =
        NodeT.leafCount fourTaxonTopology - 1)) :=
  ⟨by decide, claim_C2 fourTaxonTopology (by decide)⟩

theorem topologyCounterOf_pair (t : NodeT) : topologyCounterOf [t, t] = [(t, 2)] := by
  show counterIncr t (counterIncr t []) = [(t, 2)]
  simp [counterIncr, NodeT.nodeEq_rfl]

/-- Claim C7: constructing the same topology with the children of an
internal node supplied in a different order yields structurally equal
nodes — the internal-node constructor sorts children by max leaf id, so
the built nodes are identical, with identical tag, hash and a true
`operator==`; consequently the topology counter maps the two trees to a
single entry whose multiplicity is the sum (here `1 + 1 = 2`).  The
distinct-max-leaf-id hypothesis is the condition under which the
constructor accepts the child list at all (it aborts on ties). -/
theorem claim_C7 (cs₁ cs₂ : List NodeT) (hperm : cs₁.Perm cs₂)
    (hnodup : (cs₁.map NodeT.maxLeafID).Nodup) :
    NodeT.join cs₁ = NodeT.join cs₂ ∧
    NodeT.tagOf (NodeT.join cs₁) = NodeT.tagOf (NodeT.join cs₂) ∧
    NodeT.hashOf (NodeT.join cs₁) = NodeT.hashOf (NodeT.join cs₂) ∧
    NodeT.nodeEq (NodeT.join cs₁) (NodeT.join cs₂) = true ∧
    topologyCounterOf [NodeT.join cs₁, NodeT.join cs₂] = [(NodeT.join cs₁, 2)] := by
  have heq := NodeT.join_perm_eq hperm hnodup
  refine ⟨heq, by rw [heq], by rw [heq], ?_, ?_⟩
  · rw [heq]
    exact NodeT.nodeEq_rfl _
  · rw [← heq]
    exact topologyCounterOf_pair _

theorem claim_C7_witness :
    ([NodeT.internal [NodeT.leaf 1, NodeT.leaf 2], NodeT.leaf 0].Perm
      [NodeT.leaf 0, NodeT.internal [NodeT.leaf 1, NodeT.leaf 2]] ∧
     (([NodeT.internal [NodeT.leaf 1, NodeT.leaf 2],
        NodeT.leaf 0]).map NodeT.maxLeafID).Nodup) ∧
    (NodeT.join [NodeT.internal [NodeT.leaf 1, NodeT.leaf 2], NodeT.leaf 0] =
      NodeT.join [NodeT.leaf 0, NodeT.internal [NodeT.leaf 1, NodeT.leaf 2]] ∧
    NodeT.tagOf (NodeT.join [NodeT.internal [NodeT.leaf 1, NodeT.leaf 2], NodeT.leaf 0]) =
      NodeT.tagOf (NodeT.join [NodeT.leaf 0, NodeT.internal [NodeT.leaf 1, NodeT.leaf 2]]) ∧
    NodeT.hashOf (NodeT.join [NodeT.internal [NodeT.leaf 1, NodeT.leaf 2], NodeT.leaf 0]) =
      NodeT.hashOf (NodeT.join [NodeT.leaf 0, NodeT.internal [NodeT.leaf 1, NodeT.leaf 2]]) ∧
    NodeT.nodeEq (NodeT.join [NodeT.internal [NodeT.leaf 1, NodeT.leaf 2], NodeT.leaf 0])
      (NodeT.join [NodeT.leaf 0, NodeT.internal [NodeT.leaf 1, NodeT.leaf 2]]) = true ∧
    topologyCounterOf
      [NodeT.join [NodeT.internal [NodeT.leaf 1, NodeT.leaf 2], NodeT.leaf 0],
       NodeT.join [NodeT.leaf 0, NodeT.internal [NodeT.leaf 1, NodeT.leaf 2]]] =
      [(NodeT.join [NodeT.internal [NodeT.leaf 1, NodeT.leaf 2], NodeT.leaf 0], 2)]) :=
  ⟨⟨List.Perm.swap _ _ _, by decide⟩,
    claim_C7 _ _ (List.Perm.swap _ _ _) (by decide)⟩

/-! ## Pre-order traversal and leaf sets

The no-double-counting argument needs: subtree leaf sets are monotone
along the traversal, nonempty below a binary node, and pairwise distinct
across the traversal of a duplicate-free topology.
-/

theorem self_mem_preOrder (t : NodeT) : t ∈ NodeT.preOrder t := by
  cases t with
  | leaf i => exact List.mem_singleton.mpr rfl
  | internal cs => rw [NodeT.preOrder_internal]; exact List.mem_cons_self _ _

theorem leafList_subset_of_mem_preOrder :
    ∀ t : NodeT, ∀ w ∈ NodeT.preOrder t, ∀ i ∈ NodeT.leafList w, i ∈ NodeT.leafList t := by
  intro t
  induction t using NodeT.inductionOn with
  | hleaf j =>
      intro w hw i hi
      have hw' : w ∈ [NodeT.leaf j] := hw
      rw [List.mem_singleton] at hw'
      subst hw'
      exact hi
  | hint cs ih =>
      intro w hw i hi
      rw [NodeT.preOrder_internal] at hw
      rcases List.mem_cons.mp hw with h | h
      · subst h; exact hi
      · obtain ⟨c, hc, hwc⟩ := List.mem_flatMap.mp h
        rw [NodeT.leafList_internal]
        exact List.mem_flatMap.mpr ⟨c, hc, ih c hc w hwc i hi⟩

theorem leafList_ne_nil_of_isBinary (t : NodeT) (hb : NodeT.isBinary t = true) :
    NodeT.leafList t ≠ [] := by
  intro h
  have h1 := one_le_leafCount_of_isBinary t hb
  rw [← NodeT.length_leafList, h, List.length_nil] at h1
  omega

theorem isBinary_of_mem_preOrder :
    ∀ t : NodeT, NodeT.isBinary t = true → ∀ w ∈ NodeT.preOrder t, NodeT.isBinary w = true
  | NodeT.leaf j, _, w, hw => by
      have hw' : w ∈ [NodeT.leaf j] := hw
      rw [List.mem_singleton] at hw'
      subst hw'
      rfl
  | NodeT.internal [c0, c1], h, w, hw => by
      obtain ⟨h0, h1⟩ : NodeT.isBinary c0 = true ∧ NodeT.isBinary c1 = true := by
        simpa [NodeT.isBinary] using h
      rw [NodeT.preOrder_internal] at hw
      rcases List.mem_cons.mp hw with he | he
      · subst he; exact h
      · simp only [List.flatMap_cons, List.flatMap_nil, List.append_nil] at he
        rcases List.mem_append.mp he with he' | he'
        · exact isBinary_of_mem_preOrder c0 h0 w he'
        · exact isBinary_of_mem_preOrder c1 h1 w he'
  | NodeT.internal [], h, w, hw => absurd h Bool.false_ne_true
  | NodeT.internal [c], h, w, hw => absurd h Bool.false_ne_true
  | NodeT.internal (c0 :: c1 :: c2 :: rest), h, w, hw => absurd h Bool.false_ne_true

theorem leafList_binary_pair (c0 c1 : NodeT) :
    NodeT.leafList (NodeT.internal [c0, c1]) = NodeT.leafList c0 ++ NodeT.leafList c1 := by
  rw [NodeT.leafList_internal]
  simp

/-- Distinct positions in the pre-order of a binary, duplicate-free
subtree carry distinct leaf sets. -/
theorem preOrder_pairwise_sets :
    ∀ t : NodeT, NodeT.isBinary t = true → (NodeT.leafList t).Nodup →
    (NodeT.preOrder t).Pairwise
      (fun x y => ¬ sameSet (NodeT.leafList x) (NodeT.leafList y))
  | NodeT.leaf j, _, _ => List.pairwise_singleton _ _
  | NodeT.internal [c0, c1], h, hnd => by
      obtain ⟨h0, h1⟩ : NodeT.isBinary c0 = true ∧ NodeT.isBinary c1 = true := by
        simpa [NodeT.isBinary] using h
      rw [leafList_binary_pair] at hnd
      obtain ⟨hnd0, hnd1, hdisj⟩ := List.nodup_append.mp hnd
      rw [NodeT.preOrder_internal]
      simp only [List.flatMap_cons, List.flatMap_nil, List.append_nil]
      obtain ⟨i1, hi1⟩ := List.exists_mem_of_ne_nil _ (leafList_ne_nil_of_isBinary c1 h1)
      obtain ⟨i0, hi0⟩ := List.exists_mem_of_ne_nil _ (leafList_ne_nil_of_isBinary c0 h0)
      refine List.Pairwise.cons ?_ (List.pairwise_append.mpr
        ⟨preOrder_pairwise_sets c0 h0 hnd0, preOrder_pairwise_sets c1 h1 hnd1, ?_⟩)
      · intro w hw hss
        rcases List.mem_append.mp hw with hw' | hw'
        · have hsub := leafList_subset_of_mem_preOrder c0 w hw'
          have : i1 ∈ NodeT.leafList w := by
            refine (hss i1).mp ?_
            rw [leafList_binary_pair]
            exact List.mem_append_right _ hi1
          exact hdisj (hsub i1 this) hi1
        · have hsub := leafList_subset_of_mem_preOrder c1 w hw'
          have : i0 ∈ NodeT.leafList w := by
            refine (hss i0).mp ?_
            rw [leafList_binary_pair]
            exact List.mem_append_left _ hi0
          exact hdisj hi0 (hsub i0 this)
      · intro x hx y hy hss
        have hsx := leafList_subset_of_mem_preOrder c0 x hx
        have hsy := leafList_subset_of_mem_preOrder c1 y hy
        have hbx := isBinary_of_mem_preOrder c0 h0 x hx
        obtain ⟨j, hj⟩ := List.exists_mem_of_ne_nil _ (leafList_ne_nil_of_isBinary x hbx)
        exact hdisj (hsx j hj) (hsy j ((hss j).mp hj))
  | NodeT.internal [], h, _ => absurd h Bool.false_ne_true
  | NodeT.internal [c], h, _ => absurd h Bool.false_ne_true
  | NodeT.internal (c0 :: c1 :: c2 :: rest), h, _ => absurd h Bool.false_ne_true

/-- On a list whose members have pairwise distinct leaf sets, equal leaf
sets force equal members. -/
theorem eq_of_sameSet_of_pairwise {l : List NodeT}
    (hpw : l.Pairwise (fun x y => ¬ sameSet (NodeT.leafList x) (NodeT.leafList y)))
    {x y : NodeT} (hx : x ∈ l) (hy : y ∈ l)
    (hss : sameSet (NodeT.leafList x) (NodeT.leafList y)) : x = y := by
  by_contra hne
  have hsymm : Symmetric (fun x y : NodeT =>
      ¬ sameSet (NodeT.leafList x) (NodeT.leafList y)) :=
    fun a b hab hss' => hab (sameSet_symm hss')
  exact (hpw.forall hsymm hx hy hne) hss

/-! ## PCSS key discrimination -/

theorem pcssKey_take (n : ℕ) (e : PCSSArgs) :
    ((pcssKeyOf n e).1).take n = dirClade n e.sister e.sisterDir := by
  have h := List.take_left (dirClade n e.sister e.sisterDir) (dirClade n e.focal e.focalDir)
  rw [length_dirClade] at h
  exact h

theorem pcssKey_drop (n : ℕ) (e : PCSSArgs) :
    ((pcssKeyOf n e).1).drop n = dirClade n e.focal e.focalDir := by
  have h := List.drop_left (dirClade n e.sister e.sisterDir) (dirClade n e.focal e.focalDir)
  rw [length_dirClade] at h
  exact h

/-- Equal PCSS parent keys decompose into equal sister chunks and equal
focal chunks (the key is their concatenation at fixed width `n`). -/
theorem pcssKey_eq_parts {n : ℕ} {e₁ e₂ : PCSSArgs}
    (h : pcssKeyOf n e₁ = pcssKeyOf n e₂) :
    dirClade n e₁.sister e₁.sisterDir = dirClade n e₂.sister e₂.sisterDir ∧
    dirClade n e₁.focal e₁.focalDir = dirClade n e₂.focal e₂.focalDir := by
  have h1 : (pcssKeyOf n e₁).1 = (pcssKeyOf n e₂).1 := congrArg Prod.fst h
  constructor
  · have := congrArg (List.take n) h1
    rwa [pcssKey_take, pcssKey_take] at this
  · have := congrArg (List.drop n) h1
    rwa [pcssKey_drop, pcssKey_drop] at this

theorem dirClade_ne_of_dir {n : ℕ} {x y : NodeT} {dx dy : Bool}
    (hbx : ∀ i ∈ NodeT.leafList x, i < n) (hby : ∀ i ∈ NodeT.leafList y, i < n)
    (i₀ : ℕ) (hi₀ : i₀ < n) (hix : i₀ ∉ NodeT.leafList x) (hiy : i₀ ∉ NodeT.leafList y)
    (hd : dx ≠ dy) : dirClade n x dx ≠ dirClade n y dy :=
  fun h => hd (dirClade_eq_cases hbx hby i₀ hi₀ hix hiy h).1

theorem dirClade_ne_of_sets {n : ℕ} {x y : NodeT} {dx dy : Bool}
    (hbx : ∀ i ∈ NodeT.leafList x, i < n) (hby : ∀ i ∈ NodeT.leafList y, i < n)
    (i₀ : ℕ) (hi₀ : i₀ < n) (hix : i₀ ∉ NodeT.leafList x) (hiy : i₀ ∉ NodeT.leafList y)
    (hns : ¬ sameSet (NodeT.leafList x) (NodeT.leafList y)) :
    dirClade n x dx ≠ dirClade n y dy :=
  fun h => hns (dirClade_eq_cases hbx hby i₀ hi₀ hix hiy h).2

theorem pcssKeyOf_ne_of_sister {n : ℕ} {e₁ e₂ : PCSSArgs}
    (h : dirClade n e₁.sister e₁.sisterDir ≠ dirClade n e₂.sister e₂.sisterDir) :
    pcssKeyOf n e₁ ≠ pcssKeyOf n e₂ :=
  fun he => h (pcssKey_eq_parts he).1

theorem pcssKeyOf_ne_of_focal {n : ℕ} {e₁ e₂ : PCSSArgs}
    (h : dirClade n e₁.focal e₁.focalDir ≠ dirClade n e₂.focal e₂.focalDir) :
    pcssKeyOf n e₁ ≠ pcssKeyOf n e₂ :=
  fun he => h (pcssKey_eq_parts he).2

/-! ## Emission groups

One `f_internal` (resp. `f_root`) call emits up to six PCSS argument
packs; their keys are pairwise distinct given the surrounding leaf-set
geometry, and all of them have the call's node as focal subtree.
-/

theorem fInternal_focal (p s v : NodeT) : ∀ e ∈ fInternal p s v, e.focal = v := by
  intro e he
  rcases List.mem_cons.mp he with rfl | h
  · rfl
  · rcases v with i | (_ | ⟨c0, _ | ⟨c1, _ | ⟨c2, rest⟩⟩⟩)
    · exact absurd h (List.not_mem_nil e)
    · exact absurd h (List.not_mem_nil e)
    · exact absurd h (List.not_mem_nil e)
    · rcases List.mem_cons.mp h with rfl | h
      · rfl
      rcases List.mem_cons.mp h with rfl | h
      · rfl
      rcases List.mem_cons.mp h with rfl | h
      · rfl
      rcases List.mem_cons.mp h with rfl | h
      · rfl
      rcases List.mem_singleton.mp h with rfl
      rfl
    · exact absurd h (List.not_mem_nil e)

theorem fRoot_focal (n0 n1 v : NodeT) : ∀ e ∈ fRoot n0 n1 v, e.focal = v := by
  intro e he
  rcases List.mem_cons.mp he with rfl | h
  · rfl
  · rcases v with i | (_ | ⟨c0, _ | ⟨c1, _ | ⟨c2, rest⟩⟩⟩)
    · exact absurd h (List.not_mem_nil e)
    · exact absurd h (List.not_mem_nil e)
    · exact absurd h (List.not_mem_nil e)
    · rcases List.mem_cons.mp h with rfl | h
      · rfl
      rcases List.mem_cons.mp h with rfl | h
      · rfl
      rcases List.mem_cons.mp h with rfl | h
      · rfl
      rcases List.mem_cons.mp h with rfl | h
      · rfl
      rcases List.mem_singleton.mp h with rfl
      rfl
    · exact absurd h (List.not_mem_nil e)

theorem fInternal_keys_nodup (n : ℕ) (p s v : NodeT)
    (hbin : NodeT.isBinary v = true)
    (hS : NodeT.leafList s ≠ [])
    (hVnd : (NodeT.leafList v).Nodup)
    (hdisjSV : ∀ i ∈ NodeT.leafList s, i ∉ NodeT.leafList v)
    (hP : ∀ i, i ∈ NodeT.leafList p ↔ i ∈ NodeT.leafList s ∨ i ∈ NodeT.leafList v)
    (hb : ∀ i ∈ NodeT.leafList p, i < n)
    (o₀ : ℕ) (ho : o₀ < n) (hoP : o₀ ∉ NodeT.leafList p) :
    ((fInternal p s v).map (pcssKeyOf n)).Nodup := by
  have hbS : ∀ i ∈ NodeT.leafList s, i < n := fun i hi => hb i ((hP i).mpr (Or.inl hi))
  have hbV : ∀ i ∈ NodeT.leafList v, i < n := fun i hi => hb i ((hP i).mpr (Or.inr hi))
  have hoS : o₀ ∉ NodeT.leafList s := fun h => hoP ((hP o₀).mpr (Or.inl h))
  have hoV : o₀ ∉ NodeT.leafList v := fun h => hoP ((hP o₀).mpr (Or.inr h))
  rcases v with i | (_ | ⟨c0, _ | ⟨c1, _ | ⟨c2, rest⟩⟩⟩)
  · exact List.nodup_singleton _
  · exact absurd hbin Bool.false_ne_true
  · exact absurd hbin Bool.false_ne_true
  · obtain ⟨h0, h1⟩ : NodeT.isBinary c0 = true ∧ NodeT.isBinary c1 = true := by
      simpa [NodeT.isBinary] using hbin
    have hpair := leafList_binary_pair c0 c1
    have hsub0 : ∀ i ∈ NodeT.leafList c0, i ∈ NodeT.leafList (NodeT.internal [c0, c1]) := by
      intro i hi; rw [hpair]; exact List.mem_append_left _ hi
    have hsub1 : ∀ i ∈ NodeT.leafList c1, i ∈ NodeT.leafList (NodeT.internal [c0, c1]) := by
      intro i hi; rw [hpair]; exact List.mem_append_right _ hi
    have hnd' := hVnd
    rw [hpair] at hnd'
    obtain ⟨-, -, hd01⟩ := List.nodup_append.mp hnd'
    obtain ⟨i0, hi0⟩ := List.exists_mem_of_ne_nil _ (leafList_ne_nil_of_isBinary c0 h0)
    obtain ⟨i1, hi1⟩ := List.exists_mem_of_ne_nil _ (leafList_ne_nil_of_isBinary c1 h1)
    obtain ⟨is0, his0⟩ := List.exists_mem_of_ne_nil _ hS
    have hbV0 : ∀ i ∈ NodeT.leafList c0, i < n := fun i hi => hbV i (hsub0 i hi)
    have hbV1 : ∀ i ∈ NodeT.leafList c1, i < n := fun i hi => hbV i (hsub1 i hi)
    have hoV0 : o₀ ∉ NodeT.leafList c0 := fun h => hoV (hsub0 o₀ h)
    have hoV1 : o₀ ∉ NodeT.leafList c1 := fun h => hoV (hsub1 o₀ h)
    have hnsPV : ¬ sameSet (NodeT.leafList p) (NodeT.leafList (NodeT.internal [c0, c1])) := by
      intro hss
      exact hdisjSV is0 his0 ((hss is0).mp ((hP is0).mpr (Or.inl his0)))
    have hnsVV1 : ¬ sameSet (NodeT.leafList (NodeT.internal [c0, c1])) (NodeT.leafList c1) := by
      intro hss
      exact hd01 hi0 ((hss i0).mp (hsub0 i0 hi0))
    have hnsVV0 : ¬ sameSet (NodeT.leafList (NodeT.internal [c0, c1])) (NodeT.leafList c0) := by
      intro hss
      exact hd01 ((hss i1).mp (hsub1 i1 hi1)) hi1
    have hnsV1V0 : ¬ sameSet (NodeT.leafList c1) (NodeT.leafList c0) := by
      intro hss
      exact hd01 ((hss i1).mp hi1) hi1
    refine List.Pairwise.map (pcssKeyOf n) (fun a b h => h) ?_
    refine List.Pairwise.cons ?_ (List.Pairwise.cons ?_ (List.Pairwise.cons ?_
      (List.Pairwise.cons ?_ (List.Pairwise.cons ?_ (List.pairwise_singleton _ _)))))
    · intro a ha
      rcases List.mem_cons.mp ha with rfl | ha
      · exact pcssKeyOf_ne_of_focal (dirClade_ne_of_dir hbV hbV o₀ ho hoV hoV (by simp))
      rcases List.mem_cons.mp ha with rfl | ha
      · exact pcssKeyOf_ne_of_focal (dirClade_ne_of_dir hbV hbV o₀ ho hoV hoV (by simp))
      rcases List.mem_cons.mp ha with rfl | ha
      · exact pcssKeyOf_ne_of_focal (dirClade_ne_of_dir hbV hbV o₀ ho hoV hoV (by simp))
      rcases List.mem_cons.mp ha with rfl | ha
      · exact pcssKeyOf_ne_of_sister (dirClade_ne_of_sets hbV hbV1 o₀ ho hoV hoV1 hnsVV1)
      rcases List.mem_singleton.mp ha with rfl
      exact pcssKeyOf_ne_of_sister (dirClade_ne_of_sets hbV hbV0 o₀ ho hoV hoV0 hnsVV0)
    · intro a ha
      rcases List.mem_cons.mp ha with rfl | ha
      · exact pcssKeyOf_ne_of_sister (dirClade_ne_of_dir hbS hb o₀ ho hoS hoP (by simp))
      rcases List.mem_cons.mp ha with rfl | ha
      · exact pcssKeyOf_ne_of_sister (dirClade_ne_of_dir hbS hbV o₀ ho hoS hoV (by simp))
      rcases List.mem_cons.mp ha with rfl | ha
      · exact pcssKeyOf_ne_of_focal (dirClade_ne_of_dir hbV hbV o₀ ho hoV hoV (by simp))
      rcases List.mem_singleton.mp ha with rfl
      exact pcssKeyOf_ne_of_focal (dirClade_ne_of_dir hbV hbV o₀ ho hoV hoV (by simp))
    · intro a ha
      rcases List.mem_cons.mp ha with rfl | ha
      · exact pcssKeyOf_ne_of_sister (dirClade_ne_of_sets hb hbV o₀ ho hoP hoV hnsPV)
      rcases List.mem_cons.mp ha with rfl | ha
      · exact pcssKeyOf_ne_of_focal (dirClade_ne_of_dir hbV hbV o₀ ho hoV hoV (by simp))
      rcases List.mem_singleton.mp ha with rfl
      exact pcssKeyOf_ne_of_focal (dirClade_ne_of_dir hbV hbV o₀ ho hoV hoV (by simp))
    · intro a ha
      rcases List.mem_cons.mp ha with rfl | ha
      · exact pcssKeyOf_ne_of_focal (dirClade_ne_of_dir hbV hbV o₀ ho hoV hoV (by simp))
      rcases List.mem_singleton.mp ha with rfl
      exact pcssKeyOf_ne_of_focal (dirClade_ne_of_dir hbV hbV o₀ ho hoV hoV (by simp))
    · intro a ha
      rcases List.mem_singleton.mp ha with rfl
      exact pcssKeyOf_ne_of_sister (dirClade_ne_of_sets hbV1 hbV0 o₀ ho hoV1 hoV0 hnsV1V0)
  · exact absurd hbin Bool.false_ne_true

theorem fRoot_keys_nodup (n : ℕ) (n0 n1 v : NodeT)
    (hbv : NodeT.isBinary v = true)
    (h0ne : NodeT.leafList n0 ≠ []) (h1ne : NodeT.leafList n1 ≠ [])
    (hVnd : (NodeT.leafList v).Nodup)
    (hd01 : ∀ i ∈ NodeT.leafList n0, i ∉ NodeT.leafList n1)
    (hd0V : ∀ i ∈ NodeT.leafList n0, i ∉ NodeT.leafList v)
    (hd1V : ∀ i ∈ NodeT.leafList n1, i ∉ NodeT.leafList v)
    (hb0 : ∀ i ∈ NodeT.leafList n0, i < n) (hb1 : ∀ i ∈ NodeT.leafList n1, i < n)
    (hbV : ∀ i ∈ NodeT.leafList v, i < n) :
    ((fRoot n0 n1 v).map (pcssKeyOf n)).Nodup := by
  obtain ⟨j0, hj0⟩ := List.exists_mem_of_ne_nil _ h0ne
  obtain ⟨j1, hj1⟩ := List.exists_mem_of_ne_nil _ h1ne
  have hj0V : j0 ∉ NodeT.leafList v := hd0V j0 hj0
  have hj1V : j1 ∉ NodeT.leafList v := hd1V j1 hj1
  have hj0n : j0 < n := hb0 j0 hj0
  have hj1n : j1 < n := hb1 j1 hj1
  have hj0N1 : j0 ∉ NodeT.leafList n1 := hd01 j0 hj0
  have hj1N0 : j1 ∉ NodeT.leafList n0 := fun h => hd01 j1 h hj1
  rcases v with i | (_ | ⟨c0, _ | ⟨c1, _ | ⟨c2, rest⟩⟩⟩)
  · exact List.nodup_singleton _
  · exact absurd hbv Bool.false_ne_true
  · exact absurd hbv Bool.false_ne_true
  · obtain ⟨h0, h1⟩ : NodeT.isBinary c0 = true ∧ NodeT.isBinary c1 = true := by
      simpa [NodeT.isBinary] using hbv
    have hpair := leafList_binary_pair c0 c1
    have hsub0 : ∀ i ∈ NodeT.leafList c0, i ∈ NodeT.leafList (NodeT.internal [c0, c1]) := by
      intro i hi; rw [hpair]; exact List.mem_append_left _ hi
    have hsub1 : ∀ i ∈ NodeT.leafList c1, i ∈ NodeT.leafList (NodeT.internal [c0, c1]) := by
      intro i hi; rw [hpair]; exact List.mem_append_right _ hi
    have hnd' := hVnd
    rw [hpair] at hnd'
    obtain ⟨-, -, hdc⟩ := List.nodup_append.mp hnd'
    obtain ⟨i0, hi0⟩ := List.exists_mem_of_ne_nil _ (leafList_ne_nil_of_isBinary c0 h0)
    obtain ⟨i1, hi1⟩ := List.exists_mem_of_ne_nil _ (leafList_ne_nil_of_isBinary c1 h1)
    have hiV : i0 ∈ NodeT.leafList (NodeT.internal [c0, c1]) := hsub0 i0 hi0
    have hi0n : i0 < n := hbV i0 hiV
    have hi0N0 : i0 ∉ NodeT.leafList n0 := fun h => hd0V i0 h hiV
    have hi0N1 : i0 ∉ NodeT.leafList n1 := fun h => hd1V i0 h hiV
    have hbV0 : ∀ i ∈ NodeT.leafList c0, i < n := fun i hi => hbV i (hsub0 i hi)
    have hbV1 : ∀ i ∈ NodeT.leafList c1, i < n := fun i hi => hbV i (hsub1 i hi)
    have hj0V0 : j0 ∉ NodeT.leafList c0 := fun h => hj0V (hsub0 j0 h)
    have hj0V1 : j0 ∉ NodeT.leafList c1 := fun h => hj0V (hsub1 j0 h)
    have hnsN0N1 : ¬ sameSet (NodeT.leafList n0) (NodeT.leafList n1) := by
      intro hss
      exact hj0N1 ((hss j0).mp hj0)
    have hnsVV1 : ¬ sameSet (NodeT.leafList (NodeT.internal [c0, c1])) (NodeT.leafList c1) := by
      intro hss
      exact hdc hi0 ((hss i0).mp (hsub0 i0 hi0))
    have hnsVV0 : ¬ sameSet (NodeT.leafList (NodeT.internal [c0, c1])) (NodeT.leafList c0) := by
      intro hss
      exact hdc ((hss i1).mp (hsub1 i1 hi1)) hi1
    have hnsV1V0 : ¬ sameSet (NodeT.leafList c1) (NodeT.leafList c0) := by
      intro hss
      exact hdc ((hss i1).mp hi1) hi1
    refine List.Pairwise.map (pcssKeyOf n) (fun a b h => h) ?_
    refine List.Pairwise.cons ?_ (List.Pairwise.cons ?_ (List.Pairwise.cons ?_
      (List.Pairwise.cons ?_ (List.Pairwise.cons ?_ (List.pairwise_singleton _ _)))))
    · intro a ha
      rcases List.mem_cons.mp ha with rfl | ha
      · exact pcssKeyOf_ne_of_focal (dirClade_ne_of_dir hbV hbV j0 hj0n hj0V hj0V (by simp))
      rcases List.mem_cons.mp ha with rfl | ha
      · exact pcssKeyOf_ne_of_focal (dirClade_ne_of_dir hbV hbV j0 hj0n hj0V hj0V (by simp))
      rcases List.mem_cons.mp ha with rfl | ha
      · exact pcssKeyOf_ne_of_focal (dirClade_ne_of_dir hbV hbV j0 hj0n hj0V hj0V (by simp))
      rcases List.mem_cons.mp ha with rfl | ha
      · exact pcssKeyOf_ne_of_sister (dirClade_ne_of_sets hbV hbV1 j0 hj0n hj0V hj0V1 hnsVV1)
      rcases List.mem_singleton.mp ha with rfl
      exact pcssKeyOf_ne_of_sister (dirClade_ne_of_sets hbV hbV0 j0 hj0n hj0V hj0V0 hnsVV0)
    · intro a ha
      rcases List.mem_cons.mp ha with rfl | ha
      · exact pcssKeyOf_ne_of_sister (dirClade_ne_of_sets hb0 hb1 i0 hi0n hi0N0 hi0N1 hnsN0N1)
      rcases List.mem_cons.mp ha with rfl | ha
      · exact pcssKeyOf_ne_of_sister (dirClade_ne_of_dir hb0 hbV j1 hj1n hj1N0 hj1V (by simp))
      rcases List.mem_cons.mp ha with rfl | ha
      · exact pcssKeyOf_ne_of_focal (dirClade_ne_of_dir hbV hbV j0 hj0n hj0V hj0V (by simp))
      rcases List.mem_singleton.mp ha with rfl
      exact pcssKeyOf_ne_of_focal (dirClade_ne_of_dir hbV hbV j0 hj0n hj0V hj0V (by simp))
    · intro a ha
      rcases List.mem_cons.mp ha with rfl | ha
      · exact pcssKeyOf_ne_of_sister (dirClade_ne_of_dir hb1 hbV j0 hj0n hj0N1 hj0V (by simp))
      rcases List.mem_cons.mp ha with rfl | ha
      · exact pcssKeyOf_ne_of_focal (dirClade_ne_of_dir hbV hbV j0 hj0n hj0V hj0V (by simp))
      rcases List.mem_singleton.mp ha with rfl
      exact pcssKeyOf_ne_of_focal (dirClade_ne_of_dir hbV hbV j0 hj0n hj0V hj0V (by simp))
    · intro a ha
      rcases List.mem_cons.mp ha with rfl | ha
      · exact pcssKeyOf_ne_of_focal (dirClade_ne_of_dir hbV hbV j0 hj0n hj0V hj0V (by simp))
      rcases List.mem_singleton.mp ha with rfl
      exact pcssKeyOf_ne_of_focal (dirClade_ne_of_dir hbV hbV j0 hj0n hj0V hj0V (by simp))
    · intro a ha
      rcases List.mem_singleton.mp ha with rfl
      exact pcssKeyOf_ne_of_sister (dirClade_ne_of_sets hbV1 hbV0 j0 hj0n hj0V1 hj0V0 hnsV1V0)
  · exact absurd hbv Bool.false_ne_true

theorem preOrder_eq_cons (w : NodeT) :
    NodeT.preOrder w = w :: (NodeT.children w).flatMap NodeT.preOrder := by
  cases w with
  | leaf i => rfl
  | internal cs => rw [NodeT.preOrder_internal]; rfl

theorem mem_preOrder_of_mem_childrenFlat {w x : NodeT}
    (h : x ∈ (NodeT.children w).flatMap NodeT.preOrder) : x ∈ NodeT.preOrder w := by
  rw [preOrder_eq_cons]
  exact List.mem_cons_of_mem _ h

theorem nodup_of_pairwise_sets {l : List NodeT}
    (hpw : l.Pairwise (fun x y => ¬ sameSet (NodeT.leafList x) (NodeT.leafList y))) :
    l.Nodup :=
  hpw.imp (fun h heq => h (by subst heq; exact fun i => Iff.rfl))

theorem not_sameSet_of_pairwise {l : List NodeT}
    (hpw : l.Pairwise (fun x y => ¬ sameSet (NodeT.leafList x) (NodeT.leafList y)))
    {x y : NodeT} (hx : x ∈ l) (hy : y ∈ l) (hne : x ≠ y) :
    ¬ sameSet (NodeT.leafList x) (NodeT.leafList y) := by
  have hsymm : Symmetric (fun x y : NodeT =>
      ¬ sameSet (NodeT.leafList x) (NodeT.leafList y)) :=
    fun a b hab hss' => hab (sameSet_symm hss')
  exact hpw.forall hsymm hx hy hne

/-- Emissions whose focal subtrees carry different leaf sets (with a
taxon outside both) have different PCSS keys. -/
theorem pcssKeyOf_ne_cross {n : ℕ} {e f : PCSSArgs}
    (hbe : ∀ i ∈ NodeT.leafList e.focal, i < n)
    (hbf : ∀ i ∈ NodeT.leafList f.focal, i < n)
    (i₀ : ℕ) (hi₀ : i₀ < n) (hie : i₀ ∉ NodeT.leafList e.focal)
    (hif : i₀ ∉ NodeT.leafList f.focal)
    (hns : ¬ sameSet (NodeT.leafList e.focal) (NodeT.leafList f.focal)) :
    pcssKeyOf n e ≠ pcssKeyOf n f :=
  pcssKeyOf_ne_of_focal (dirClade_ne_of_sets hbe hbf i₀ hi₀ hie hif hns)

/-- The `TriplePreOrderInternal` traversal of a binary, duplicate-free
subtree with a taxon left outside emits pairwise-distinct PCSS keys, and
every emission's focal subtree is a proper subtree. -/
theorem pcssTPI_keys (n : ℕ) :
    ∀ v : NodeT, NodeT.isBinary v = true → (NodeT.leafList v).Nodup →
    (∀ i ∈ NodeT.leafList v, i < n) →
    ∀ o₀ : ℕ, o₀ < n → o₀ ∉ NodeT.leafList v →
    ((pcssTPI v).map (pcssKeyOf n)).Nodup ∧
    (∀ e ∈ pcssTPI v, e.focal ∈ (NodeT.children v).flatMap NodeT.preOrder)
  | NodeT.leaf i, _, _, _, o₀, _, _ =>
      ⟨List.nodup_nil, fun e he => absurd he (List.not_mem_nil e)⟩
  | NodeT.internal [c0, c1], hb, hnd, hbound, o₀, ho, hoV => by
      obtain ⟨h0, h1⟩ : NodeT.isBinary c0 = true ∧ NodeT.isBinary c1 = true := by
        simpa [NodeT.isBinary] using hb
      have hpair := leafList_binary_pair c0 c1
      have hsub0 : ∀ i ∈ NodeT.leafList c0,
          i ∈ NodeT.leafList (NodeT.internal [c0, c1]) := by
        intro i hi; rw [hpair]; exact List.mem_append_left _ hi
      have hsub1 : ∀ i ∈ NodeT.leafList c1,
          i ∈ NodeT.leafList (NodeT.internal [c0, c1]) := by
        intro i hi; rw [hpair]; exact List.mem_append_right _ hi
      have hnd' := hnd
      rw [hpair] at hnd'
      obtain ⟨hnd0, hnd1, hdc⟩ := List.nodup_append.mp hnd'
      obtain ⟨i0, hi0⟩ := List.exists_mem_of_ne_nil _ (leafList_ne_nil_of_isBinary c0 h0)
      obtain ⟨i1, hi1⟩ := List.exists_mem_of_ne_nil _ (leafList_ne_nil_of_isBinary c1 h1)
      have hb0 : ∀ i ∈ NodeT.leafList c0, i < n := fun i hi => hbound i (hsub0 i hi)
      have hb1 : ∀ i ∈ NodeT.leafList c1, i < n := fun i hi => hbound i (hsub1 i hi)
      have ho0 : o₀ ∉ NodeT.leafList c0 := fun h => hoV (hsub0 o₀ h)
      have ho1 : o₀ ∉ NodeT.leafList c1 := fun h => hoV (hsub1 o₀ h)
      obtain ⟨hT0nd, hT0f⟩ := pcssTPI_keys n c0 h0 hnd0 hb0 o₀ ho ho0
      obtain ⟨hT1nd, hT1f⟩ := pcssTPI_keys n c1 h1 hnd1 hb1 o₀ ho ho1
      have hG0nd : ((fInternal (NodeT.internal [c0, c1]) c1 c0).map (pcssKeyOf n)).Nodup := by
        refine fInternal_keys_nodup n _ c1 c0 h0
          (leafList_ne_nil_of_isBinary c1 h1) hnd0
          (fun i hi hm => hdc hm hi) ?_ hbound o₀ ho hoV
        intro i
        rw [hpair, List.mem_append]
        exact or_comm
      have hG1nd : ((fInternal (NodeT.internal [c0, c1]) c0 c1).map (pcssKeyOf n)).Nodup := by
        refine fInternal_keys_nodup n _ c0 c1 h1
          (leafList_ne_nil_of_isBinary c0 h0) hnd1
          (fun i hi hm => hdc hi hm) ?_ hbound o₀ ho hoV
        intro i
        rw [hpair, List.mem_append]
      have hG0f := fInternal_focal (NodeT.internal [c0, c1]) c1 c0
      have hG1f := fInternal_focal (NodeT.internal [c0, c1]) c0 c1
      have hPW : (NodeT.preOrder c0 ++ NodeT.preOrder c1).Pairwise
          (fun x y => ¬ sameSet (NodeT.leafList x) (NodeT.leafList y)) := by
        have hpo := preOrder_pairwise_sets (NodeT.internal [c0, c1]) hb hnd
        rw [NodeT.preOrder_internal] at hpo
        simp only [List.flatMap_cons, List.flatMap_nil, List.append_nil] at hpo
        exact (List.pairwise_cons.mp hpo).2
      have hWsub : ∀ w ∈ NodeT.preOrder c0 ++ NodeT.preOrder c1,
          ∀ i ∈ NodeT.leafList w, i ∈ NodeT.leafList (NodeT.internal [c0, c1]) := by
        intro w hw i hi
        rcases List.mem_append.mp hw with h | h
        · exact hsub0 i (leafList_subset_of_mem_preOrder c0 w h i hi)
        · exact hsub1 i (leafList_subset_of_mem_preOrder c1 w h i hi)
      have hWb : ∀ w ∈ NodeT.preOrder c0 ++ NodeT.preOrder c1,
          ∀ i ∈ NodeT.leafList w, i < n :=
        fun w hw i hi => hbound i (hWsub w hw i hi)
      have hWo : ∀ w ∈ NodeT.preOrder c0 ++ NodeT.preOrder c1,
          o₀ ∉ NodeT.leafList w :=
        fun w hw h => hoV (hWsub w hw o₀ h)
      have hc0mem : c0 ∈ NodeT.preOrder c0 ++ NodeT.preOrder c1 :=
        List.mem_append_left _ (self_mem_preOrder c0)
      have hc1mem : c1 ∈ NodeT.preOrder c0 ++ NodeT.preOrder c1 :=
        List.mem_append_right _ (self_mem_preOrder c1)
      have hc0nmem : c0 ∉ (NodeT.children c0).flatMap NodeT.preOrder := by
        have hndp := nodup_of_pairwise_sets (preOrder_pairwise_sets c0 h0 hnd0)
        rw [preOrder_eq_cons] at hndp
        exact (List.nodup_cons.mp hndp).1
      have hc1nmem : c1 ∉ (NodeT.children c1).flatMap NodeT.preOrder := by
        have hndp := nodup_of_pairwise_sets (preOrder_pairwise_sets c1 h1 hnd1)
        rw [preOrder_eq_cons] at hndp
        exact (List.nodup_cons.mp hndp).1
      -- A generic way to close a cross pair given focal membership and distinctness.
      have hcross : ∀ e f : PCSSArgs,
          e.focal ∈ NodeT.preOrder c0 ++ NodeT.preOrder c1 →
          f.focal ∈ NodeT.preOrder c0 ++ NodeT.preOrder c1 →
          e.focal ≠ f.focal → pcssKeyOf n e ≠ pcssKeyOf n f := by
        intro e f hme hmf hne
        exact pcssKeyOf_ne_cross (hWb _ hme) (hWb _ hmf) o₀ ho (hWo _ hme) (hWo _ hmf)
          (not_sameSet_of_pairwise hPW hme hmf hne)
      have hne_G0T0 : ∀ e ∈ fInternal (NodeT.internal [c0, c1]) c1 c0, ∀ f ∈ pcssTPI c0,
          pcssKeyOf n e ≠ pcssKeyOf n f := by
        intro e he f hf
        have hef := hG0f e he
        have hff := hT0f f hf
        refine hcross e f (hef ▸ hc0mem)
          (List.mem_append_left _ (mem_preOrder_of_mem_childrenFlat hff)) ?_
        rw [hef]
        intro heq
        rw [← heq] at hff
        exact hc0nmem hff
      have hne_G1T1 : ∀ e ∈ fInternal (NodeT.internal [c0, c1]) c0 c1, ∀ f ∈ pcssTPI c1,
          pcssKeyOf n e ≠ pcssKeyOf n f := by
        intro e he f hf
        have hef := hG1f e he
        have hff := hT1f f hf
        refine hcross e f (hef ▸ hc1mem)
          (List.mem_append_right _ (mem_preOrder_of_mem_childrenFlat hff)) ?_
        rw [hef]
        intro heq
        rw [← heq] at hff
        exact hc1nmem hff
      have hne_G0G1 : ∀ e ∈ fInternal (NodeT.internal [c0, c1]) c1 c0,
          ∀ f ∈ fInternal (NodeT.internal [c0, c1]) c0 c1,
          pcssKeyOf n e ≠ pcssKeyOf n f := by
        intro e he f hf
        have hef := hG0f e he
        have hff := hG1f f hf
        refine hcross e f (hef ▸ hc0mem) (hff ▸ hc1mem) ?_
        rw [hef, hff]
        intro heq
        exact hdc hi0 (heq ▸ hi0)
      have hne_G0T1 : ∀ e ∈ fInternal (NodeT.internal [c0, c1]) c1 c0, ∀ f ∈ pcssTPI c1,
          pcssKeyOf n e ≠ pcssKeyOf n f := by
        intro e he f hf
        have hef := hG0f e he
        have hff := hT1f f hf
        have hmf : f.focal ∈ NodeT.preOrder c1 := mem_preOrder_of_mem_childrenFlat hff
        refine hcross e f (hef ▸ hc0mem) (List.mem_append_right _ hmf) ?_
        rw [hef]
        intro heq
        have : i0 ∈ NodeT.leafList f.focal := by rw [← heq]; exact hi0
        exact hdc hi0 (leafList_subset_of_mem_preOrder c1 f.focal hmf i0 this)
      have hne_T0G1 : ∀ e ∈ pcssTPI c0, ∀ f ∈ fInternal (NodeT.internal [c0, c1]) c0 c1,
          pcssKeyOf n e ≠ pcssKeyOf n f := by
        intro e he f hf
        have hef := hT0f e he
        have hff := hG1f f hf
        have hme : e.focal ∈ NodeT.preOrder c0 := mem_preOrder_of_mem_childrenFlat hef
        refine hcross e f (List.mem_append_left _ hme) (hff ▸ hc1mem) ?_
        rw [hff]
        intro heq
        have : i1 ∈ NodeT.leafList e.focal := by rw [heq]; exact hi1
        exact hdc (leafList_subset_of_mem_preOrder c0 e.focal hme i1 this) hi1
      have hne_T0T1 : ∀ e ∈ pcssTPI c0, ∀ f ∈ pcssTPI c1,
          pcssKeyOf n e ≠ pcssKeyOf n f := by
        intro e he f hf
        have hef := hT0f e he
        have hff := hT1f f hf
        have hme : e.focal ∈ NodeT.preOrder c0 := mem_preOrder_of_mem_childrenFlat hef
        have hmf : f.focal ∈ NodeT.preOrder c1 := mem_preOrder_of_mem_childrenFlat hff
        refine hcross e f (List.mem_append_left _ hme) (List.mem_append_right _ hmf) ?_
        intro heq
        have hbe := isBinary_of_mem_preOrder c0 h0 e.focal hme
        obtain ⟨j, hj⟩ := List.exists_mem_of_ne_nil _ (leafList_ne_nil_of_isBinary _ hbe)
        have hj1 : j ∈ NodeT.leafList f.focal := by rw [← heq]; exact hj
        exact hdc (leafList_subset_of_mem_preOrder c0 e.focal hme j hj)
          (leafList_subset_of_mem_preOrder c1 f.focal hmf j hj1)
      constructor
      · rw [pcssTPI, List.map_append, List.map_append, List.map_append]
        refine List.Nodup.append (List.Nodup.append hG0nd hT0nd ?_)
          (List.Nodup.append hG1nd hT1nd ?_) ?_
        · intro k hk1 hk2
          obtain ⟨e, he, rfl⟩ := List.mem_map.mp hk1
          obtain ⟨f, hf, hkey⟩ := List.mem_map.mp hk2
          exact hne_G0T0 e he f hf hkey.symm
        · intro k hk1 hk2
          obtain ⟨e, he, rfl⟩ := List.mem_map.mp hk1
          obtain ⟨f, hf, hkey⟩ := List.mem_map.mp hk2
          exact hne_G1T1 e he f hf hkey.symm
        · intro k hk1 hk2
          rcases List.mem_append.mp hk1 with hk1 | hk1 <;>
            rcases List.mem_append.mp hk2 with hk2 | hk2
          · obtain ⟨e, he, rfl⟩ := List.mem_map.mp hk1
            obtain ⟨f, hf, hkey⟩ := List.mem_map.mp hk2
            exact hne_G0G1 e he f hf hkey.symm
          · obtain ⟨e, he, rfl⟩ := List.mem_map.mp hk1
            obtain ⟨f, hf, hkey⟩ := List.mem_map.mp hk2
            exact hne_G0T1 e he f hf hkey.symm
          · obtain ⟨e, he, rfl⟩ := List.mem_map.mp hk1
            obtain ⟨f, hf, hkey⟩ := List.mem_map.mp hk2
            exact hne_T0G1 e he f hf hkey.symm
          · obtain ⟨e, he, rfl⟩ := List.mem_map.mp hk1
            obtain ⟨f, hf, hkey⟩ := List.mem_map.mp hk2
            exact hne_T0T1 e he f hf hkey.symm
      · intro e he
        rw [pcssTPI] at he
        rcases List.mem_append.mp he with he1 | he1
        · rcases List.mem_append.mp he1 with he2 | he2
          · refine List.mem_flatMap.mpr ⟨c0, List.mem_cons_self _ _, ?_⟩
            rw [hG0f e he2]
            exact self_mem_preOrder c0
          · exact List.mem_flatMap.mpr ⟨c0, List.mem_cons_self _ _,
              mem_preOrder_of_mem_childrenFlat (hT0f e he2)⟩
        · rcases List.mem_append.mp he1 with he2 | he2
          · refine List.mem_flatMap.mpr
              ⟨c1, List.mem_cons_of_mem _ (List.mem_cons_self _ _), ?_⟩
            rw [hG1f e he2]
            exact self_mem_preOrder c1
          · exact List.mem_flatMap.mpr ⟨c1, List.mem_cons_of_mem _ (List.mem_cons_self _ _),
              mem_preOrder_of_mem_childrenFlat (hT1f e he2)⟩
  | NodeT.internal [], hb, _, _, _, _, _ => absurd hb Bool.false_ne_true
  | NodeT.internal [c], hb, _, _, _, _, _ => absurd hb Bool.false_ne_true
  | NodeT.internal (c0 :: c1 :: c2 :: rest), hb, _, _, _, _, _ =>
      absurd hb Bool.false_ne_true

/-- The full PCSS emission list of one trifurcating topology with
well-formed leaf ids yields pairwise-distinct (parent, child) keys. -/
theorem pcssPairs_nodup :
    ∀ t : NodeT, NodeT.isTrifurcating t = true → (NodeT.leafList t).Nodup →
    (∀ i ∈ NodeT.leafList t, i < NodeT.leafCount t) →
    (pcssPairsOfTopology t).Nodup := by
  intro t hWF hnd hbound
  rcases t with i | (_ | ⟨a, _ | ⟨b, _ | ⟨c, _ | ⟨d, rest⟩⟩⟩⟩)
  · exact absurd hWF Bool.false_ne_true
  · exact absurd hWF Bool.false_ne_true
  · exact absurd hWF Bool.false_ne_true
  · exact absurd hWF Bool.false_ne_true
  case _ =>
    have hWF' : ((NodeT.isBinary a && NodeT.isBinary b) && NodeT.isBinary c) = true := hWF
    obtain ⟨hab, hbc⟩ := Bool.and_eq_true_iff.mp hWF'
    obtain ⟨hba, hbb⟩ := Bool.and_eq_true_iff.mp hab
    have hpair3 : NodeT.leafList (NodeT.internal [a, b, c]) =
        NodeT.leafList a ++ (NodeT.leafList b ++ NodeT.leafList c) := by
      rw [NodeT.leafList_internal]; simp
    have hnd' := hnd
    rw [hpair3] at hnd'
    obtain ⟨hnda, hnd'', hdA⟩ := List.nodup_append.mp hnd'
    obtain ⟨hndb, hndc, hdBC⟩ := List.nodup_append.mp hnd''
    have dAB : ∀ i ∈ NodeT.leafList a, i ∉ NodeT.leafList b :=
      fun i hi h => hdA hi (List.mem_append_left _ h)
    have dAC : ∀ i ∈ NodeT.leafList a, i ∉ NodeT.leafList c :=
      fun i hi h => hdA hi (List.mem_append_right _ h)
    have dBC : ∀ i ∈ NodeT.leafList b, i ∉ NodeT.leafList c := fun i hi h => hdBC hi h
    have dBA : ∀ i ∈ NodeT.leafList b, i ∉ NodeT.leafList a := fun i hi h => dAB i h hi
    have dCA : ∀ i ∈ NodeT.leafList c, i ∉ NodeT.leafList a := fun i hi h => dAC i h hi
    have dCB : ∀ i ∈ NodeT.leafList c, i ∉ NodeT.leafList b := fun i hi h => dBC i h hi
    have hsubA : ∀ i ∈ NodeT.leafList a, i ∈ NodeT.leafList (NodeT.internal [a, b, c]) := by
      intro i hi; rw [hpair3]; exact List.mem_append_left _ hi
    have hsubB : ∀ i ∈ NodeT.leafList b, i ∈ NodeT.leafList (NodeT.internal [a, b, c]) := by
      intro i hi; rw [hpair3]; exact List.mem_append_right _ (List.mem_append_left _ hi)
    have hsubC : ∀ i ∈ NodeT.leafList c, i ∈ NodeT.leafList (NodeT.internal [a, b, c]) := by
      intro i hi; rw [hpair3]; exact List.mem_append_right _ (List.mem_append_right _ hi)
    have hbLa : ∀ i ∈ NodeT.leafList a, i < NodeT.leafCount (NodeT.internal [a, b, c]) :=
      fun i hi => hbound i (hsubA i hi)
    have hbLb : ∀ i ∈ NodeT.leafList b, i < NodeT.leafCount (NodeT.internal [a, b, c]) :=
      fun i hi => hbound i (hsubB i hi)
    have hbLc : ∀ i ∈ NodeT.leafList c, i < NodeT.leafCount (NodeT.internal [a, b, c]) :=
      fun i hi => hbound i (hsubC i hi)
    have hNa := leafList_ne_nil_of_isBinary a hba
    have hNb := leafList_ne_nil_of_isBinary b hbb
    have hNc := leafList_ne_nil_of_isBinary c hbc
    obtain ⟨ja, hja⟩ := List.exists_mem_of_ne_nil _ hNa
    obtain ⟨jb, hjb⟩ := List.exists_mem_of_ne_nil _ hNb
    obtain ⟨jc, hjc⟩ := List.exists_mem_of_ne_nil _ hNc
    have hjan := hbLa ja hja
    have hjbn := hbLb jb hjb
    have hjcn := hbLc jc hjc
    obtain ⟨hT4nd, hT4f⟩ := pcssTPI_keys (NodeT.leafCount (NodeT.internal [a, b, c]))
      a hba hnda hbLa jb hjbn (dBA jb hjb)
    obtain ⟨hT5nd, hT5f⟩ := pcssTPI_keys (NodeT.leafCount (NodeT.internal [a, b, c]))
      b hbb hndb hbLb ja hjan (dAB ja hja)
    obtain ⟨hT6nd, hT6f⟩ := pcssTPI_keys (NodeT.leafCount (NodeT.internal [a, b, c]))
      c hbc hndc hbLc ja hjan (dAC ja hja)
    have hB1nd := fRoot_keys_nodup (NodeT.leafCount (NodeT.internal [a, b, c]))
      a b c hbc hNa hNb hndc dAB dAC dBC hbLa hbLb hbLc
    have hB2nd := fRoot_keys_nodup (NodeT.leafCount (NodeT.internal [a, b, c]))
      b c a hba hNb hNc hnda dBC dBA dCA hbLb hbLc hbLa
    have hB3nd := fRoot_keys_nodup (NodeT.leafCount (NodeT.internal [a, b, c]))
      c a b hbb hNc hNa hndb dCA dCB dAB hbLc hbLa hbLb
    have hB1f := fRoot_focal a b c
    have hB2f := fRoot_focal b c a
    have hB3f := fRoot_focal c a b
    have crossAB : ∀ x ∈ NodeT.preOrder a, ∀ y ∈ NodeT.preOrder b,
        ¬ sameSet (NodeT.leafList x) (NodeT.leafList y) := by
      intro x hx y hy hss
      have hbx := isBinary_of_mem_preOrder a hba x hx
      obtain ⟨j, hj⟩ := List.exists_mem_of_ne_nil _ (leafList_ne_nil_of_isBinary x hbx)
      exact dAB j (leafList_subset_of_mem_preOrder a x hx j hj)
        (leafList_subset_of_mem_preOrder b y hy j ((hss j).mp hj))
    have crossAC : ∀ x ∈ NodeT.preOrder a, ∀ y ∈ NodeT.preOrder c,
        ¬ sameSet (NodeT.leafList x) (NodeT.leafList y) := by
      intro x hx y hy hss
      have hbx := isBinary_of_mem_preOrder a hba x hx
      obtain ⟨j, hj⟩ := List.exists_mem_of_ne_nil _ (leafList_ne_nil_of_isBinary x hbx)
      exact dAC j (leafList_subset_of_mem_preOrder a x hx j hj)
        (leafList_subset_of_mem_preOrder c y hy j ((hss j).mp hj))
    have crossBC : ∀ x ∈ NodeT.preOrder b, ∀ y ∈ NodeT.preOrder c,
        ¬ sameSet (NodeT.leafList x) (NodeT.leafList y) := by
      intro x hx y hy hss
      have hbx := isBinary_of_mem_preOrder b hbb x hx
      obtain ⟨j, hj⟩ := List.exists_mem_of_ne_nil _ (leafList_ne_nil_of_isBinary x hbx)
      exact dBC j (leafList_subset_of_mem_preOrder b x hx j hj)
        (leafList_subset_of_mem_preOrder c y hy j ((hss j).mp hj))
    have hPW : (NodeT.preOrder a ++ (NodeT.preOrder b ++ NodeT.preOrder c)).Pairwise
        (fun x y => ¬ sameSet (NodeT.leafList x) (NodeT.leafList y)) :=
      List.pairwise_append.mpr ⟨preOrder_pairwise_sets a hba hnda,
        List.pairwise_append.mpr ⟨preOrder_pairwise_sets b hbb hndb,
          preOrder_pairwise_sets c hbc hndc, crossBC⟩,
        fun x hx y hy => (List.mem_append.mp hy).elim (crossAB x hx y) (crossAC x hx y)⟩
    have hNW := nodup_of_pairwise_sets hPW
    obtain ⟨ndPa, ndRest, disjA⟩ := List.nodup_append.mp hNW
    obtain ⟨ndPb, ndPc, disjBC⟩ := List.nodup_append.mp ndRest
    have haCFa : a ∉ (NodeT.children a).flatMap NodeT.preOrder := by
      have h := ndPa
      rw [preOrder_eq_cons] at h
      exact (List.nodup_cons.mp h).1
    have hbCFb : b ∉ (NodeT.children b).flatMap NodeT.preOrder := by
      have h := ndPb
      rw [preOrder_eq_cons] at h
      exact (List.nodup_cons.mp h).1
    have hcCFc : c ∉ (NodeT.children c).flatMap NodeT.preOrder := by
      have h := ndPc
      rw [preOrder_eq_cons] at h
      exact (List.nodup_cons.mp h).1
    have haW : a ∈ NodeT.preOrder a ++ (NodeT.preOrder b ++ NodeT.preOrder c) :=
      List.mem_append_left _ (self_mem_preOrder a)
    have hbW : b ∈ NodeT.preOrder a ++ (NodeT.preOrder b ++ NodeT.preOrder c) :=
      List.mem_append_right _ (List.mem_append_left _ (self_mem_preOrder b))
    have hcW : c ∈ NodeT.preOrder a ++ (NodeT.preOrder b ++ NodeT.preOrder c) :=
      List.mem_append_right _ (List.mem_append_right _ (self_mem_preOrder c))
    have hmemA : ∀ x ∈ NodeT.preOrder a,
        x ∈ NodeT.preOrder a ++ (NodeT.preOrder b ++ NodeT.preOrder c) :=
      fun x hx => List.mem_append_left _ hx
    have hmemB : ∀ x ∈ NodeT.preOrder b,
        x ∈ NodeT.preOrder a ++ (NodeT.preOrder b ++ NodeT.preOrder c) :=
      fun x hx => List.mem_append_right _ (List.mem_append_left _ hx)
    have hmemC : ∀ x ∈ NodeT.preOrder c,
        x ∈ NodeT.preOrder a ++ (NodeT.preOrder b ++ NodeT.preOrder c) :=
      fun x hx => List.mem_append_right _ (List.mem_append_right _ hx)
    have hWb : ∀ w ∈ NodeT.preOrder a ++ (NodeT.preOrder b ++ NodeT.preOrder c),
        ∀ i ∈ NodeT.leafList w, i < NodeT.leafCount (NodeT.internal [a, b, c]) := by
      intro w hw i hi
      rcases List.mem_append.mp hw with h | h
      · exact hbLa i (leafList_subset_of_mem_preOrder a w h i hi)
      · rcases List.mem_append.mp h with h | h
        · exact hbLb i (leafList_subset_of_mem_preOrder b w h i hi)
        · exact hbLc i (leafList_subset_of_mem_preOrder c w h i hi)
    have hcross : ∀ e f : PCSSArgs,
        e.focal ∈ NodeT.preOrder a ++ (NodeT.preOrder b ++ NodeT.preOrder c) →
        f.focal ∈ NodeT.preOrder a ++ (NodeT.preOrder b ++ NodeT.preOrder c) →
        e.focal ≠ f.focal →
        ∀ i₀, i₀ < NodeT.leafCount (NodeT.internal [a, b, c]) →
        i₀ ∉ NodeT.leafList e.focal → i₀ ∉ NodeT.leafList f.focal →
        pcssKeyOf (NodeT.leafCount (NodeT.internal [a, b, c])) e ≠
          pcssKeyOf (NodeT.leafCount (NodeT.internal [a, b, c])) f :=
      fun e f hme hmf hne i₀ h1 h2 h3 =>
        pcssKeyOf_ne_cross (hWb _ hme) (hWb _ hmf) i₀ h1 h2 h3
          (not_sameSet_of_pairwise hPW hme hmf hne)
    have hnotA : ∀ (x : NodeT), x ∈ NodeT.preOrder a →
        ∀ j, j ∉ NodeT.leafList a → j ∉ NodeT.leafList x :=
      fun x hx j hj h => hj (leafList_subset_of_mem_preOrder a x hx j h)
    have hnotB : ∀ (x : NodeT), x ∈ NodeT.preOrder b →
        ∀ j, j ∉ NodeT.leafList b → j ∉ NodeT.leafList x :=
      fun x hx j hj h => hj (leafList_subset_of_mem_preOrder b x hx j h)
    have hnotC : ∀ (x : NodeT), x ∈ NodeT.preOrder c →
        ∀ j, j ∉ NodeT.leafList c → j ∉ NodeT.leafList x :=
      fun x hx j hj h => hj (leafList_subset_of_mem_preOrder c x hx j h)
    rw [pcssPairsOfTopology, pcssPreOrder, List.map_append, List.map_append,
      List.map_append, List.map_append, List.map_append]
    refine List.Nodup.append
      (List.Nodup.append (List.Nodup.append hB1nd hB2nd ?_) hB3nd ?_)
      (List.Nodup.append (List.Nodup.append hT4nd hT5nd ?_) hT6nd ?_) ?_
    · -- fRoot a b c (focal c) vs fRoot b c a (focal a)
      intro k hk1 hk2
      obtain ⟨e, he, rfl⟩ := List.mem_map.mp hk1
      obtain ⟨f, hf, hkey⟩ := List.mem_map.mp hk2
      have hef := hB1f e he
      have hff := hB2f f hf
      refine absurd hkey.symm (hcross e f ?_ ?_ ?_ jb hjbn ?_ ?_)
      · rw [hef]; exact hcW
      · rw [hff]; exact haW
      · rw [hef, hff]
        intro heq
        have : ja ∈ NodeT.leafList c := by rw [heq]; exact hja
        exact dAC ja hja this
      · rw [hef]; exact dBC jb hjb
      · rw [hff]; exact dBA jb hjb
    · -- (fRoot a b c ++ fRoot b c a) (focals c, a) vs fRoot c a b (focal b)
      intro k hk1 hk2
      obtain ⟨f, hf, hkey⟩ := List.mem_map.mp hk2
      have hff := hB3f f hf
      rcases List.mem_append.mp hk1 with hk1 | hk1
      · obtain ⟨e, he, rfl⟩ := List.mem_map.mp hk1
        have hef := hB1f e he
        refine absurd hkey.symm (hcross e f ?_ ?_ ?_ ja hjan ?_ ?_)
        · rw [hef]; exact hcW
        · rw [hff]; exact hbW
        · rw [hef, hff]
          intro heq
          have : jb ∈ NodeT.leafList c := by rw [heq]; exact hjb
          exact dBC jb hjb this
        · rw [hef]; exact dAC ja hja
        · rw [hff]; exact dAB ja hja
      · obtain ⟨e, he, rfl⟩ := List.mem_map.mp hk1
        have hef := hB2f e he
        refine absurd hkey.symm (hcross e f ?_ ?_ ?_ jc hjcn ?_ ?_)
        · rw [hef]; exact haW
        · rw [hff]; exact hbW
        · rw [hef, hff]
          intro heq
          have : jb ∈ NodeT.leafList a := by rw [heq]; exact hjb
          exact dBA jb hjb this
        · rw [hef]; exact dCA jc hjc
        · rw [hff]; exact dCB jc hjc
    · -- pcssTPI a vs pcssTPI b
      intro k hk1 hk2
      obtain ⟨e, he, rfl⟩ := List.mem_map.mp hk1
      obtain ⟨f, hf, hkey⟩ := List.mem_map.mp hk2
      have hme := mem_preOrder_of_mem_childrenFlat (hT4f e he)
      have hmf := mem_preOrder_of_mem_childrenFlat (hT5f f hf)
      refine absurd hkey.symm (hcross e f (hmemA _ hme) (hmemB _ hmf) ?_ jc hjcn ?_ ?_)
      · intro heq
        have : e.focal ∈ NodeT.preOrder b := by rw [heq]; exact hmf
        exact disjA hme (List.mem_append_left _ this)
      · exact hnotA _ hme jc (dCA jc hjc)
      · exact hnotB _ hmf jc (dCB jc hjc)
    · -- (pcssTPI a ++ pcssTPI b) vs pcssTPI c
      intro k hk1 hk2
      obtain ⟨f, hf, hkey⟩ := List.mem_map.mp hk2
      have hmf := mem_preOrder_of_mem_childrenFlat (hT6f f hf)
      rcases List.mem_append.mp hk1 with hk1 | hk1
      · obtain ⟨e, he, rfl⟩ := List.mem_map.mp hk1
        have hme := mem_preOrder_of_mem_childrenFlat (hT4f e he)
        refine absurd hkey.symm (hcross e f (hmemA _ hme) (hmemC _ hmf) ?_ jb hjbn ?_ ?_)
        · intro heq
          have : e.focal ∈ NodeT.preOrder c := by rw [heq]; exact hmf
          exact disjA hme (List.mem_append_right _ this)
        · exact hnotA _ hme jb (dBA jb hjb)
        · exact hnotC _ hmf jb (dBC jb hjb)
      · obtain ⟨e, he, rfl⟩ := List.mem_map.mp hk1
        have hme := mem_preOrder_of_mem_childrenFlat (hT5f e he)
        refine absurd hkey.symm (hcross e f (hmemB _ hme) (hmemC _ hmf) ?_ ja hjan ?_ ?_)
        · intro heq
          have : e.focal ∈ NodeT.preOrder c := by rw [heq]; exact hmf
          exact disjBC hme this
        · exact hnotB _ hme ja (dAB ja hja)
        · exact hnotC _ hmf ja (dAC ja hja)
    · -- the three fRoot groups vs the three TPI traversals
      intro k hk1 hk2
      rcases List.mem_append.mp hk1 with hk1 | hk1
      · rcases List.mem_append.mp hk1 with hk1 | hk1
        · -- focal c vs TPI blocks
          obtain ⟨e, he, rfl⟩ := List.mem_map.mp hk1
          have hef := hB1f e he
          rcases List.mem_append.mp hk2 with hk2 | hk2
          · rcases List.mem_append.mp hk2 with hk2 | hk2
            · obtain ⟨f, hf, hkey⟩ := List.mem_map.mp hk2
              have hmf := mem_preOrder_of_mem_childrenFlat (hT4f f hf)
              refine absurd hkey.symm (hcross e f ?_ (hmemA _ hmf) ?_ jb hjbn ?_ ?_)
              · rw [hef]; exact hcW
              · rw [hef]
                intro heq
                have : c ∈ NodeT.preOrder a := by rw [heq]; exact hmf
                exact disjA this (List.mem_append_right _ (self_mem_preOrder c))
              · rw [hef]; exact dBC jb hjb
              · exact hnotA _ hmf jb (dBA jb hjb)
            · obtain ⟨f, hf, hkey⟩ := List.mem_map.mp hk2
              have hmf := mem_preOrder_of_mem_childrenFlat (hT5f f hf)
              refine absurd hkey.symm (hcross e f ?_ (hmemB _ hmf) ?_ ja hjan ?_ ?_)
              · rw [hef]; exact hcW
              · rw [hef]
                intro heq
                have : c ∈ NodeT.preOrder b := by rw [heq]; exact hmf
                exact disjBC this (self_mem_preOrder c)
              · rw [hef]; exact dAC ja hja
              · exact hnotB _ hmf ja (dAB ja hja)
          · obtain ⟨f, hf, hkey⟩ := List.mem_map.mp hk2
            have hff := hT6f f hf
            have hmf := mem_preOrder_of_mem_childrenFlat hff
            refine absurd hkey.symm (hcross e f ?_ (hmemC _ hmf) ?_ ja hjan ?_ ?_)
            · rw [hef]; exact hcW
            · rw [hef]
              intro heq
              rw [← heq] at hff
              exact hcCFc hff
            · rw [hef]; exact dAC ja hja
            · exact hnotC _ hmf ja (dAC ja hja)
        · -- focal a vs TPI blocks
          obtain ⟨e, he, rfl⟩ := List.mem_map.mp hk1
          have hef := hB2f e he
          rcases List.mem_append.mp hk2 with hk2 | hk2
          · rcases List.mem_append.mp hk2 with hk2 | hk2
            · obtain ⟨f, hf, hkey⟩ := List.mem_map.mp hk2
              have hff := hT4f f hf
              have hmf := mem_preOrder_of_mem_childrenFlat hff
              refine absurd hkey.symm (hcross e f ?_ (hmemA _ hmf) ?_ jb hjbn ?_ ?_)
              · rw [hef]; exact haW
              · rw [hef]
                intro heq
                rw [← heq] at hff
                exact haCFa hff
              · rw [hef]; exact dBA jb hjb
              · exact hnotA _ hmf jb (dBA jb hjb)
            · obtain ⟨f, hf, hkey⟩ := List.mem_map.mp hk2
              have hmf := mem_preOrder_of_mem_childrenFlat (hT5f f hf)
              refine absurd hkey.symm (hcross e f ?_ (hmemB _ hmf) ?_ jc hjcn ?_ ?_)
              · rw [hef]; exact haW
              · rw [hef]
                intro heq
                have : a ∈ NodeT.preOrder b := by rw [heq]; exact hmf
                exact disjA (self_mem_preOrder a) (List.mem_append_left _ this)
              · rw [hef]; exact dCA jc hjc
              · exact hnotB _ hmf jc (dCB jc hjc)
          · obtain ⟨f, hf, hkey⟩ := List.mem_map.mp hk2
            have hmf := mem_preOrder_of_mem_childrenFlat (hT6f f hf)
            refine absurd hkey.symm (hcross e f ?_ (hmemC _ hmf) ?_ jb hjbn ?_ ?_)
            · rw [hef]; exact haW
            · rw [hef]
              intro heq
              have : a ∈ NodeT.preOrder c := by rw [heq]; exact hmf
              exact disjA (self_mem_preOrder a) (List.mem_append_right _ this)
            · rw [hef]; exact dBA jb hjb
            · exact hnotC _ hmf jb (dBC jb hjb)
      · -- focal b vs TPI blocks
        obtain ⟨e, he, rfl⟩ := List.mem_map.mp hk1
        have hef := hB3f e he
        rcases List.mem_append.mp hk2 with hk2 | hk2
        · rcases List.mem_append.mp hk2 with hk2 | hk2
          · obtain ⟨f, hf, hkey⟩ := List.mem_map.mp hk2
            have hmf := mem_preOrder_of_mem_childrenFlat (hT4f f hf)
            refine absurd hkey.symm (hcross e f ?_ (hmemA _ hmf) ?_ jc hjcn ?_ ?_)
            · rw [hef]; exact hbW
            · rw [hef]
              intro heq
              have : b ∈ NodeT.preOrder a := by rw [heq]; exact hmf
              exact disjA this
                (List.mem_append_left _ (self_mem_preOrder b))
            · rw [hef]; exact dCB jc hjc
            · exact hnotA _ hmf jc (dCA jc hjc)
          · obtain ⟨f, hf, hkey⟩ := List.mem_map.mp hk2
            have hff := hT5f f hf
            have hmf := mem_preOrder_of_mem_childrenFlat hff
            refine absurd hkey.symm (hcross e f ?_ (hmemB _ hmf) ?_ ja hjan ?_ ?_)
            · rw [hef]; exact hbW
            · rw [hef]
              intro heq
              rw [← heq] at hff
              exact hbCFb hff
            · rw [hef]; exact dAB ja hja
            · exact hnotB _ hmf ja (dAB ja hja)
        · obtain ⟨f, hf, hkey⟩ := List.mem_map.mp hk2
          have hmf := mem_preOrder_of_mem_childrenFlat (hT6f f hf)
          refine absurd hkey.symm (hcross e f ?_ (hmemC _ hmf) ?_ ja hjan ?_ ?_)
          · rw [hef]; exact hbW
          · rw [hef]
            intro heq
            have : b ∈ NodeT.preOrder c := by rw [heq]; exact hmf
            exact disjBC (self_mem_preOrder b) this
          · rw [hef]; exact dAB ja hja
          · exact hnotC _ hmf ja (dAC ja hja)
  case _ =>
    exact absurd hWF Bool.false_ne_true

/-! ## Rootsplit distinctness -/

theorem minorize_clade_ne {n : ℕ} {x y : NodeT}
    (hbx : ∀ i ∈ NodeT.leafList x, i < n) (hby : ∀ i ∈ NodeT.leafList y, i < n)
    (i₀ : ℕ) (hi₀ : i₀ < n) (hix : i₀ ∉ NodeT.leafList x) (hiy : i₀ ∉ NodeT.leafList y)
    (hns : ¬ sameSet (NodeT.leafList x) (NodeT.leafList y)) :
    minorize (NodeT.cladeOf n x) ≠ minorize (NodeT.cladeOf n y) := by
  intro h
  have hlx : i₀ < (NodeT.cladeOf n x).length := by rw [NodeT.length_cladeOf]; exact hi₀
  have hly : i₀ < (NodeT.cladeOf n y).length := by rw [NodeT.length_cladeOf]; exact hi₀
  have htx : tb (NodeT.cladeOf n x) i₀ = false := by
    rw [NodeT.tb_cladeOf, decide_eq_false hix]
    rfl
  have hty : tb (NodeT.cladeOf n y) i₀ = false := by
    rw [NodeT.tb_cladeOf, decide_eq_false hiy]
    rfl
  unfold minorize at h
  by_cases h0x : tb (NodeT.cladeOf n x) 0 = true <;>
    by_cases h0y : tb (NodeT.cladeOf n y) 0 = true
  · rw [if_pos h0x, if_pos h0y] at h
    have hb := congrArg bnot h
    rw [bnot_bnot, bnot_bnot] at hb
    exact hns (sameSet_of_cladeOf_eq hbx hby hb)
  · rw [if_pos h0x, if_neg h0y] at h
    have := congrArg (fun z => tb z i₀) h
    simp only at this
    rw [tb_bnot hlx, htx, hty] at this
    simp at this
  · rw [if_neg h0x, if_pos h0y] at h
    have := congrArg (fun z => tb z i₀) h
    simp only at this
    rw [tb_bnot hly, htx, hty] at this
    simp at this
  · rw [if_neg h0x, if_neg h0y] at h
    exact hns (sameSet_of_cladeOf_eq hbx hby h)

/-- The rootsplits one trifurcating, well-formed topology contributes
are pairwise distinct. -/
theorem rootsplits_nodup :
    ∀ t : NodeT, NodeT.isTrifurcating t = true → (NodeT.leafList t).Nodup →
    (∀ i ∈ NodeT.leafList t, i < NodeT.leafCount t) →
    (rootsplitsOfTopology t).Nodup := by
  intro t hWF hnd hbound
  rcases t with i | (_ | ⟨a, _ | ⟨b, _ | ⟨c, _ | ⟨d, rest⟩⟩⟩⟩)
  · exact absurd hWF Bool.false_ne_true
  · exact absurd hWF Bool.false_ne_true
  · exact absurd hWF Bool.false_ne_true
  · exact absurd hWF Bool.false_ne_true
  case _ =>
    have hWF' : ((NodeT.isBinary a && NodeT.isBinary b) && NodeT.isBinary c) = true := hWF
    obtain ⟨hab, hbc⟩ := Bool.and_eq_true_iff.mp hWF'
    obtain ⟨hba, hbb⟩ := Bool.and_eq_true_iff.mp hab
    have hpair3 : NodeT.leafList (NodeT.internal [a, b, c]) =
        NodeT.leafList a ++ (NodeT.leafList b ++ NodeT.leafList c) := by
      rw [NodeT.leafList_internal]; simp
    have hnd' := hnd
    rw [hpair3] at hnd'
    obtain ⟨hnda, hnd'', hdA⟩ := List.nodup_append.mp hnd'
    obtain ⟨hndb, hndc, hdBC⟩ := List.nodup_append.mp hnd''
    have dAB : ∀ i ∈ NodeT.leafList a, i ∉ NodeT.leafList b :=
      fun i hi h => hdA hi (List.mem_append_left _ h)
    have dAC : ∀ i ∈ NodeT.leafList a, i ∉ NodeT.leafList c :=
      fun i hi h => hdA hi (List.mem_append_right _ h)
    have dBC : ∀ i ∈ NodeT.leafList b, i ∉ NodeT.leafList c := fun i hi h => hdBC hi h
    have dBA : ∀ i ∈ NodeT.leafList b, i ∉ NodeT.leafList a := fun i hi h => dAB i h hi
    have dCA : ∀ i ∈ NodeT.leafList c, i ∉ NodeT.leafList a := fun i hi h => dAC i h hi
    have dCB : ∀ i ∈ NodeT.leafList c, i ∉ NodeT.leafList b := fun i hi h => dBC i h hi
    have hsubA : ∀ i ∈ NodeT.leafList a, i ∈ NodeT.leafList (NodeT.internal [a, b, c]) := by
      intro i hi; rw [hpair3]; exact List.mem_append_left _ hi
    have hsubB : ∀ i ∈ NodeT.leafList b, i ∈ NodeT.leafList (NodeT.internal [a, b, c]) := by
      intro i hi; rw [hpair3]; exact List.mem_append_right _ (List.mem_append_left _ hi)
    have hsubC : ∀ i ∈ NodeT.leafList c, i ∈ NodeT.leafList (NodeT.internal [a, b, c]) := by
      intro i hi; rw [hpair3]; exact List.mem_append_right _ (List.mem_append_right _ hi)
    have hbLa : ∀ i ∈ NodeT.leafList a, i < NodeT.leafCount (NodeT.internal [a, b, c]) :=
      fun i hi => hbound i (hsubA i hi)
    have hbLb : ∀ i ∈ NodeT.leafList b, i < NodeT.leafCount (NodeT.internal [a, b, c]) :=
      fun i hi => hbound i (hsubB i hi)
    have hbLc : ∀ i ∈ NodeT.leafList c, i < NodeT.leafCount (NodeT.internal [a, b, c]) :=
      fun i hi => hbound i (hsubC i hi)
    obtain ⟨ja, hja⟩ := List.exists_mem_of_ne_nil _ (leafList_ne_nil_of_isBinary a hba)
    obtain ⟨jb, hjb⟩ := List.exists_mem_of_ne_nil _ (leafList_ne_nil_of_isBinary b hbb)
    obtain ⟨jc, hjc⟩ := List.exists_mem_of_ne_nil _ (leafList_ne_nil_of_isBinary c hbc)
    have hjan := hbLa ja hja
    have hjbn := hbLb jb hjb
    have hjcn := hbLc jc hjc
    have crossAB : ∀ x ∈ NodeT.preOrder a, ∀ y ∈ NodeT.preOrder b,
        ¬ sameSet (NodeT.leafList x) (NodeT.leafList y) := by
      intro x hx y hy hss
      have hbx := isBinary_of_mem_preOrder a hba x hx
      obtain ⟨j, hj⟩ := List.exists_mem_of_ne_nil _ (leafList_ne_nil_of_isBinary x hbx)
      exact dAB j (leafList_subset_of_mem_preOrder a x hx j hj)
        (leafList_subset_of_mem_preOrder b y hy j ((hss j).mp hj))
    have crossAC : ∀ x ∈ NodeT.preOrder a, ∀ y ∈ NodeT.preOrder c,
        ¬ sameSet (NodeT.leafList x) (NodeT.leafList y) := by
      intro x hx y hy hss
      have hbx := isBinary_of_mem_preOrder a hba x hx
      obtain ⟨j, hj⟩ := List.exists_mem_of_ne_nil _ (leafList_ne_nil_of_isBinary x hbx)
      exact dAC j (leafList_subset_of_mem_preOrder a x hx j hj)
        (leafList_subset_of_mem_preOrder c y hy j ((hss j).mp hj))
    have crossBC : ∀ x ∈ NodeT.preOrder b, ∀ y ∈ NodeT.preOrder c,
        ¬ sameSet (NodeT.leafList x) (NodeT.leafList y) := by
      intro x hx y hy hss
      have hbx := isBinary_of_mem_preOrder b hbb x hx
      obtain ⟨j, hj⟩ := List.exists_mem_of_ne_nil _ (leafList_ne_nil_of_isBinary x hbx)
      exact dBC j (leafList_subset_of_mem_preOrder b x hx j hj)
        (leafList_subset_of_mem_preOrder c y hy j ((hss j).mp hj))
    have hPW : (NodeT.preOrder a ++ (NodeT.preOrder b ++ NodeT.preOrder c)).Pairwise
        (fun x y => ¬ sameSet (NodeT.leafList x) (NodeT.leafList y)) :=
      List.pairwise_append.mpr ⟨preOrder_pairwise_sets a hba hnda,
        List.pairwise_append.mpr ⟨preOrder_pairwise_sets b hbb hndb,
          preOrder_pairwise_sets c hbc hndc, crossBC⟩,
        fun x hx y hy => (List.mem_append.mp hy).elim (crossAB x hx y) (crossAC x hx y)⟩
    have hWb : ∀ w ∈ NodeT.preOrder a ++ (NodeT.preOrder b ++ NodeT.preOrder c),
        ∀ i ∈ NodeT.leafList w, i < NodeT.leafCount (NodeT.internal [a, b, c]) := by
      intro w hw i hi
      rcases List.mem_append.mp hw with h | h
      · exact hbLa i (leafList_subset_of_mem_preOrder a w h i hi)
      · rcases List.mem_append.mp h with h | h
        · exact hbLb i (leafList_subset_of_mem_preOrder b w h i hi)
        · exact hbLc i (leafList_subset_of_mem_preOrder c w h i hi)
    have hnotA : ∀ (x : NodeT), x ∈ NodeT.preOrder a →
        ∀ j, j ∉ NodeT.leafList a → j ∉ NodeT.leafList x :=
      fun x hx j hj h => hj (leafList_subset_of_mem_preOrder a x hx j h)
    have hnotB : ∀ (x : NodeT), x ∈ NodeT.preOrder b →
        ∀ j, j ∉ NodeT.leafList b → j ∉ NodeT.leafList x :=
      fun x hx j hj h => hj (leafList_subset_of_mem_preOrder b x hx j h)
    have hnotC : ∀ (x : NodeT), x ∈ NodeT.preOrder c →
        ∀ j, j ∉ NodeT.leafList c → j ∉ NodeT.leafList x :=
      fun x hx j hj h => hj (leafList_subset_of_mem_preOrder c x hx j h)
    have hpick : ∀ x ∈ NodeT.preOrder a ++ (NodeT.preOrder b ++ NodeT.preOrder c),
        ∀ y ∈ NodeT.preOrder a ++ (NodeT.preOrder b ++ NodeT.preOrder c),
        ∃ i₀, i₀ < NodeT.leafCount (NodeT.internal [a, b, c]) ∧
          i₀ ∉ NodeT.leafList x ∧ i₀ ∉ NodeT.leafList y := by
      intro x hx y hy
      rcases List.mem_append.mp hx with hx | hx
      · rcases List.mem_append.mp hy with hy | hy
        · exact ⟨jb, hjbn, hnotA _ hx jb (dBA jb hjb), hnotA _ hy jb (dBA jb hjb)⟩
        · rcases List.mem_append.mp hy with hy | hy
          · exact ⟨jc, hjcn, hnotA _ hx jc (dCA jc hjc), hnotB _ hy jc (dCB jc hjc)⟩
          · exact ⟨jb, hjbn, hnotA _ hx jb (dBA jb hjb), hnotC _ hy jb (dBC jb hjb)⟩
      · rcases List.mem_append.mp hx with hx | hx
        · rcases List.mem_append.mp hy with hy | hy
          · exact ⟨jc, hjcn, hnotB _ hx jc (dCB jc hjc), hnotA _ hy jc (dCA jc hjc)⟩
          · rcases List.mem_append.mp hy with hy | hy
            · exact ⟨ja, hjan, hnotB _ hx ja (dAB ja hja), hnotB _ hy ja (dAB ja hja)⟩
            · exact ⟨ja, hjan, hnotB _ hx ja (dAB ja hja), hnotC _ hy ja (dAC ja hja)⟩
        · rcases List.mem_append.mp hy with hy | hy
          · exact ⟨jb, hjbn, hnotC _ hx jb (dBC jb hjb), hnotA _ hy jb (dBA jb hjb)⟩
          · rcases List.mem_append.mp hy with hy | hy
            · exact ⟨ja, hjan, hnotC _ hx ja (dAC ja hja), hnotB _ hy ja (dAB ja hja)⟩
            · exact ⟨ja, hjan, hnotC _ hx ja (dAC ja hja), hnotC _ hy ja (dAC ja hja)⟩
    have hpwKeys : (NodeT.preOrder a ++ (NodeT.preOrder b ++ NodeT.preOrder c)).Pairwise
        (fun x y =>
          minorize (NodeT.cladeOf (NodeT.leafCount (NodeT.internal [a, b, c])) x) ≠
          minorize (NodeT.cladeOf (NodeT.leafCount (NodeT.internal [a, b, c])) y)) := by
      refine List.Pairwise.imp_of_mem ?_ hPW
      intro x y hx hy hns
      obtain ⟨i₀, h1, h2, h3⟩ := hpick x hx y hy
      exact minorize_clade_ne (hWb _ hx) (hWb _ hy) i₀ h1 h2 h3 hns
    rw [rootsplitsOfTopology]
    show (((NodeT.children (NodeT.internal [a, b, c])).flatMap NodeT.preOrder).map _).Nodup
    have hflat : (NodeT.children (NodeT.internal [a, b, c])).flatMap NodeT.preOrder =
        NodeT.preOrder a ++ (NodeT.preOrder b ++ NodeT.preOrder c) := by
      show ([a, b, c].flatMap NodeT.preOrder) = _
      simp
    rw [hflat]
    exact List.Pairwise.map _ (fun a' b' h => h) hpwKeys
  case _ =>
    exact absurd hWF Bool.false_ne_true

theorem lookupD_dictIncr (k : Bitset) (c : ℕ) (d : List (Bitset × ℕ)) (q : Bitset) :
    lookupD (dictIncr k c d) q 0 = lookupD d q 0 + if k = q then c else 0 := by
  induction d with
  | nil =>
      by_cases hq : k = q
      · subst hq; simp [dictIncr, lookupD]
      · simp [dictIncr, lookupD, hq]
  | cons hd rest ih =>
      obtain ⟨k', v⟩ := hd
      by_cases hk : k' = k
      · subst hk
        rw [dictIncr, if_pos rfl]
        by_cases hq : k' = q
        · simp [lookupD, hq]
        · simp [lookupD, hq]
      · rw [dictIncr, if_neg hk]
        by_cases hq : k' = q
        · have hkq : ¬ k = q := fun h => hk (h ▸ hq.symm ▸ rfl)
          simp [lookupD, hq, hkq]
        · simp [lookupD, hq, ih]

theorem lookupD_foldIncr (c : ℕ) (q : Bitset) :
    ∀ ks : List Bitset, ks.Nodup → ∀ d : List (Bitset × ℕ),
    lookupD (ks.foldl (fun acc k => dictIncr k c acc) d) q 0 =
      lookupD d q 0 + if q ∈ ks then c else 0
  | [], _, d => by simp
  | k :: rest, hnd, d => by
      obtain ⟨hk, hrest⟩ := List.nodup_cons.mp hnd
      rw [List.foldl_cons, lookupD_foldIncr c q rest hrest (dictIncr k c d),
        lookupD_dictIncr]
      by_cases hqk : k = q
      · subst hqk
        simp [hk]
      · have h1 : ¬ q = k := fun h => hqk h.symm
        simp [hqk, h1, List.mem_cons]

theorem rootsplitCounterOf_value (tc : List (NodeT × ℕ))
    (hnd : ∀ p ∈ tc, (rootsplitsOfTopology p.1).Nodup) (q : Bitset) :
    lookupD (rootsplitCounterOf tc) q 0 =
      (tc.map (fun p => if q ∈ rootsplitsOfTopology p.1 then p.2 else 0)).sum := by
  suffices h : ∀ l : List (NodeT × ℕ), (∀ p ∈ l, (rootsplitsOfTopology p.1).Nodup) →
      ∀ d : List (Bitset × ℕ),
      lookupD (l.foldl (fun acc p =>
        (rootsplitsOfTopology p.1).foldl (fun acc k => dictIncr k p.2 acc) acc) d) q 0 =
        lookupD d q 0 +
          (l.map (fun p => if q ∈ rootsplitsOfTopology p.1 then p.2 else 0)).sum by
    have := h tc hnd []
    rw [rootsplitCounterOf]
    rw [this]
    simp [lookupD]
  intro l
  induction l with
  | nil => intro _ d; simp
  | cons p rest ih =>
      intro hmem d
      rw [List.foldl_cons,
        ih (fun p' hp' => hmem p' (List.mem_cons_of_mem _ hp')) _,
        lookupD_foldIncr p.2 q _ (hmem p (List.mem_cons_self _ _)) d,
        List.map_cons, List.sum_cons]
      omega

theorem pcssLookupD_pcssDictIncr (parent child : Bitset) (c : ℕ)
    (d : List (Bitset × List (Bitset × ℕ))) (p q : Bitset) :
    pcssLookupD (pcssDictIncr parent child c d) p q =
      pcssLookupD d p q + if parent = p ∧ child = q then c else 0 := by
  induction d with
  | nil =>
      by_cases hp : parent = p
      · by_cases hq : child = q
        · simp [pcssDictIncr, pcssLookupD, hp, hq, lookupD]
        · simp [pcssDictIncr, pcssLookupD, hp, hq, lookupD]
      · simp [pcssDictIncr, pcssLookupD, hp]
  | cons hd rest ih =>
      obtain ⟨p', cd⟩ := hd
      by_cases hP : p' = parent
      · subst hP
        rw [pcssDictIncr, if_pos rfl]
        by_cases hp : p' = p
        · subst hp
          rw [pcssLookupD, if_pos rfl, pcssLookupD, if_pos rfl, lookupD_dictIncr]
          by_cases hq : child = q
          · simp [hq]
          · simp [hq]
        · rw [pcssLookupD, if_neg hp, pcssLookupD, if_neg hp]
          have : ¬ (p' = p ∧ child = q) := fun h => hp h.1
          simp [this]
      · rw [pcssDictIncr, if_neg hP]
        by_cases hp : p' = p
        · rw [pcssLookupD, if_pos hp, pcssLookupD, if_pos hp]
          have : ¬ (parent = p ∧ child = q) := fun h => hP (hp.trans h.1.symm)
          simp [this]
        · rw [pcssLookupD, if_neg hp, pcssLookupD, if_neg hp, ih]

theorem pcssLookupD_foldIncr (c : ℕ) (p q : Bitset) :
    ∀ ks : List (Bitset × Bitset), ks.Nodup → ∀ d : List (Bitset × List (Bitset × ℕ)),
    pcssLookupD (ks.foldl (fun acc kc => pcssDictIncr kc.1 kc.2 c acc) d) p q =
      pcssLookupD d p q + if (p, q) ∈ ks then c else 0
  | [], _, d => by simp
  | kc :: rest, hnd, d => by
      obtain ⟨hk, hrest⟩ := List.nodup_cons.mp hnd
      rw [List.foldl_cons, pcssLookupD_foldIncr c p q rest hrest _,
        pcssLookupD_pcssDictIncr]
      by_cases hqk : kc.1 = p ∧ kc.2 = q
      · obtain ⟨h1, h2⟩ := hqk
        have hkc : (p, q) = kc := by rw [← h1, ← h2]
        have hnr : (p, q) ∉ rest := by rw [hkc]; exact hk
        rw [if_pos ⟨h1, h2⟩, if_neg hnr, if_pos (List.mem_cons.mpr (Or.inl hkc))]
        omega
      · have h1 : ¬ (p, q) = kc := fun h =>
          hqk ⟨(congrArg Prod.fst h).symm, (congrArg Prod.snd h).symm⟩
        simp [hqk, h1, List.mem_cons]

theorem pcssCounterOf_value (tc : List (NodeT × ℕ))
    (hnd : ∀ p ∈ tc, (pcssPairsOfTopology p.1).Nodup) (pb qb : Bitset) :
    pcssLookupD (pcssCounterOf tc) pb qb =
      (tc.map (fun p => if (pb, qb) ∈ pcssPairsOfTopology p.1 then p.2 else 0)).sum := by
  suffices h : ∀ l : List (NodeT × ℕ), (∀ p ∈ l, (pcssPairsOfTopology p.1).Nodup) →
      ∀ d : List (Bitset × List (Bitset × ℕ)),
      pcssLookupD (l.foldl (fun acc p =>
        (pcssPairsOfTopology p.1).foldl
          (fun acc kc => pcssDictIncr kc.1 kc.2 p.2 acc) acc) d) pb qb =
        pcssLookupD d pb qb +
          (l.map (fun p => if (pb, qb) ∈ pcssPairsOfTopology p.1 then p.2 else 0)).sum by
    have := h tc hnd []
    rw [pcssCounterOf]
    rw [this]
    simp [pcssLookupD]
  intro l
  induction l with
  | nil => intro _ d; simp
  | cons p rest ih =>
      intro hmem d
      rw [List.foldl_cons,
        ih (fun p' hp' => hmem p' (List.mem_cons_of_mem _ hp')) _,
        pcssLookupD_foldIncr p.2 pb qb _ (hmem p (List.mem_cons_self _ _)) d,
        List.map_cons, List.sum_cons]
      omega

/-- C3: for every topology in the topology counter with multiplicity
`c`, rootsplit counting adds exactly `c` to each distinct rootsplit
induced by an edge of that topology, exactly once per topology (not once
per virtual rooting), and PCSS counting likewise adds `c` exactly once
per topology for each distinct parent/child subsplit pair.  Formally:
the per-topology rootsplit and PCSS key lists are duplicate-free, and
each accumulated counter entry equals the sum, over the topologies whose
key lists contain that key, of their multiplicities. -/
theorem claim_C3 (tc : List (NodeT × ℕ))
    (hwf : ∀ p ∈ tc, NodeT.isTrifurcating p.1 = true)
    (hnd : ∀ p ∈ tc, (NodeT.leafList p.1).Nodup)
    (hbd : ∀ p ∈ tc, ∀ i ∈ NodeT.leafList p.1, i < NodeT.leafCount p.1) :
    (∀ p ∈ tc, (rootsplitsOfTopology p.1).Nodup ∧ (pcssPairsOfTopology p.1).Nodup) ∧
    (∀ q : Bitset, lookupD (rootsplitCounterOf tc) q 0 =
      (tc.map (fun p => if q ∈ rootsplitsOfTopology p.1 then p.2 else 0)).sum) ∧
    (∀ pb qb : Bitset, pcssLookupD (pcssCounterOf tc) pb qb =
      (tc.map (fun p => if (pb, qb) ∈ pcssPairsOfTopology p.1 then p.2 else 0)).sum) := by
  refine ⟨fun p hp => ⟨rootsplits_nodup p.1 (hwf p hp) (hnd p hp) (hbd p hp),
    pcssPairs_nodup p.1 (hwf p hp) (hnd p hp) (hbd p hp)⟩, ?_, ?_⟩
  · exact fun q => rootsplitCounterOf_value tc
      (fun p hp => rootsplits_nodup p.1 (hwf p hp) (hnd p hp) (hbd p hp)) q
  · exact fun pb qb => pcssCounterOf_value tc
      (fun p hp => pcssPairs_nodup p.1 (hwf p hp) (hnd p hp) (hbd p hp)) pb qb

theorem claim_C3_witness :
    ((∀ p ∈ [(NodeT.internal [NodeT.leaf 0, NodeT.leaf 1, NodeT.leaf 2], 2)],
        NodeT.isTrifurcating p.1 = true) ∧
     (∀ p ∈ [(NodeT.internal [NodeT.leaf 0, NodeT.leaf 1, NodeT.leaf 2], 2)],
        (NodeT.leafList p.1).Nodup) ∧
     (∀ p ∈ [(NodeT.internal [NodeT.leaf 0, NodeT.leaf 1, NodeT.leaf 2], 2)],
        ∀ i ∈ NodeT.leafList p.1, i < NodeT.leafCount p.1)) ∧
    ((∀ p ∈ [(NodeT.internal [NodeT.leaf 0, NodeT.leaf 1, NodeT.leaf 2], 2)],
        (rootsplitsOfTopology p.1).Nodup ∧ (pcssPairsOfTopology p.1).Nodup) ∧
     (∀ q : Bitset,
        lookupD (rootsplitCounterOf
          [(NodeT.internal [NodeT.leaf 0, NodeT.leaf 1, NodeT.leaf 2], 2)]) q 0 =
        ([(NodeT.internal [NodeT.leaf 0, NodeT.leaf 1, NodeT.leaf 2], 2)].map
          (fun p => if q ∈ rootsplitsOfTopology p.1 then p.2 else 0)).sum) ∧
     (∀ pb qb : Bitset,
        pcssLookupD (pcssCounterOf
          [(NodeT.internal [NodeT.leaf 0, NodeT.leaf 1, NodeT.leaf 2], 2)]) pb qb =
        ([(NodeT.internal [NodeT.leaf 0, NodeT.leaf 1, NodeT.leaf 2], 2)].map
          (fun p => if (pb, qb) ∈ pcssPairsOfTopology p.1 then p.2 else 0)).sum)) :=
  ⟨⟨by decide, by decide, by decide⟩,
    claim_C3 [(NodeT.internal [NodeT.leaf 0, NodeT.leaf 1, NodeT.leaf 2], 2)]
      (by decide) (by decide) (by decide)⟩

end SBN
